import Mathlib

/-!
# Polyalphabetic substitution ciphers of `pasc.go`

A shallow embedding of the Vigenere-family ciphers of `src/pasc.go`.

Modelling conventions.

* A Go `string` is modelled by the sequence of runes that `range s` / `[]rune(s)` yields for
  it, so every length below is a rune count.  A `rune` is an `int32`; it is modelled by `Int`
  because the code uses the negative sentinel `-1`.  Runes obtained from a Go string are never
  negative, which the theorems state as hypotheses (`IsText`).
* A Go `map[rune]V` is modelled by an association list read with `List.lookup`; the assignment
  `m[k] = v` conses the binding in front, so that the latest binding of a key is the one read.
* A Go run-time panic (integer division by zero, index out of range, an explicit `panic`) is
  modelled by the result `none`.
-/

namespace GoldBug

/-- A Go `rune`. -/
abbrev Rune := Int

/-- The runes of a string literal, as `[]rune(s)` yields them. -/
def runes (s : String) : List Rune :=
  s.toList.map (fun ch => Int.ofNat ch.toNat)

/-- Every rune read from a Go string is a code point, hence not negative. -/
def IsText (s : List Rune) : Prop :=
  ∀ r ∈ s, 0 ≤ r

instance (s : List Rune) : Decidable (IsText s) := by
  unfold IsText; infer_instance

/-! ## Helpers of package `main` that `pasc.go` calls -/

/-- Modelled from the spec: `wrapString` (called by `pasc.go`, defined outside the available
sources) is the spec's `rotate(alphabet, offset)`, a "cyclic left-rotation by `offset` positions
over rune indices (not byte indices); offset may exceed alphabet length and is taken modulo
length".  Every call site passes an offset that is a slice index or a difference checked to be
non-negative, so the offset is a natural number here. -/
def wrapString (s : List Rune) (i : Nat) : List Rune :=
  s.rotate i

/-- Modelled from the spec: `reverseString` (called by `pasc.go`, defined outside the available
sources) is the spec's `reverse(alphabet)`, which "reverses rune order". -/
def reverseString (s : List Rune) : List Rune :=
  s.reverse

/-- Modelled from the spec: the monoalphabetic tableau `SimpleSubstitutionCipher` (its
declaration is outside the available sources; `TabulaRecta.String` reads its `ctAlphabet`).  It
"owns two aligned ordered sequences, `plain` and `cipher`" and "two lookup mappings, forward
(`plain[i] -> cipher[i]`) and backward (`cipher[i] -> plain[i]`)", kept "as two independently
populated structures". -/
structure SimpleSubstitutionCipher where
  ptAlphabet : List Rune
  ctAlphabet : List Rune
  pt2ct : List (Rune × Rune)
  ct2pt : List (Rune × Rune)
deriving DecidableEq

/-- The Go zero value of `SimpleSubstitutionCipher`, which a map read of an absent key yields:
empty alphabets and nil maps. -/
def SimpleSubstitutionCipher.zero : SimpleSubstitutionCipher :=
  { ptAlphabet := [], ctAlphabet := [], pt2ct := [], ct2pt := [] }

/-- Modelled from the spec: `makeSimpleSubstitutionCipher` (called by `pasc.go`, defined outside
the available sources) is the spec's `build(plainAlphabet, cipherAlphabet) -> Tableau |
error[LengthMismatch]`; for duplicate symbols "the mapping that wins is the first occurrence
encountered during construction", which is how `List.lookup` reads the zipped alphabets. -/
def makeSimpleSubstitutionCipher (ptAlphabet ctAlphabet : List Rune) :
    Option SimpleSubstitutionCipher :=
  if ptAlphabet.length = ctAlphabet.length then
    some { ptAlphabet := ptAlphabet
           ctAlphabet := ctAlphabet
           pt2ct := ptAlphabet.zip ctAlphabet
           ct2pt := ctAlphabet.zip ptAlphabet }
  else
    none

/-- Modelled from the spec: `encipherRune` (called by `pasc.go`, defined outside the available
sources) is the spec's `encipherRune(r, strict) -> (outRune, transcoded: bool)`: "When `r` is not
a key of the active mapping: if `strict` is false, return `(r, false)` ...; if `strict` is true,
return a sentinel failure value `(-1, false)`". -/
def SimpleSubstitutionCipher.encipherRune (c : SimpleSubstitutionCipher) (r : Rune)
    (strict : Bool) : Rune × Bool :=
  match c.pt2ct.lookup r with
  | some o => (o, true)
  | none => if strict then (-1, false) else (r, false)

/-- Modelled from the spec: `decipherRune` (called by `pasc.go`, defined outside the available
sources) is "symmetric using the backward mapping". -/
def SimpleSubstitutionCipher.decipherRune (c : SimpleSubstitutionCipher) (r : Rune)
    (strict : Bool) : Rune × Bool :=
  match c.ct2pt.lookup r with
  | some o => (o, true)
  | none => if strict then (-1, false) else (r, false)

/-! ## `pasc.go` -/

/-- The struct `TabulaRecta` of `pasc.go`. -/
structure TabulaRecta where
  ptAlphabet : List Rune
  ctAlphabet : List Rune
  keyAlphabet : List Rune
  ciphers : List (Rune × SimpleSubstitutionCipher)
deriving DecidableEq

/-- The struct `VigenereFamilyCipher` of `pasc.go`; it embeds a `TabulaRecta`. -/
structure VigenereFamilyCipher extends TabulaRecta where
  countersign : List Rune
  Textautoclave : Bool
  Keyautoclave : Bool
deriving DecidableEq

/-- The loop `for i, r := range []rune(keyAlphabet) { ...; tr.ciphers[r] =
makeSimpleSubstitutionCipher(ptAlphabet, ctAlphabet3) }` that both table constructors run; `row
i` is the expression computing `ctAlphabet3` at index `i`.  The list argument holds the pairs
`(i, r)` still to be visited. -/
def fillCiphers (ptAlphabet : List Rune) (row : Nat → Option (List Rune)) :
    List (Nat × Rune) → List (Rune × SimpleSubstitutionCipher) →
    Option (List (Rune × SimpleSubstitutionCipher))
  | [], m => some m
  | (i, r) :: rest, m =>
    match row i with
    | none => none
    | some ctAlphabet3 =>
      match makeSimpleSubstitutionCipher ptAlphabet ctAlphabet3 with
      | none => none
      | some c => fillCiphers ptAlphabet row rest ((r, c) :: m)

/-- `MakeVigenereFamilyCipher` of `pasc.go`: row `i` is `wrapString(ctAlphabet, i)`. -/
def MakeVigenereFamilyCipher (countersign ptAlphabet ctAlphabet keyAlphabet : List Rune) :
    Option VigenereFamilyCipher :=
  match fillCiphers ptAlphabet (fun i => some (wrapString ctAlphabet i)) keyAlphabet.enum [] with
  | none => none
  | some m =>
    some { ptAlphabet := ptAlphabet
           ctAlphabet := ctAlphabet
           keyAlphabet := keyAlphabet
           ciphers := m
           countersign := countersign
           Textautoclave := false
           Keyautoclave := false }

/-- `owrapString` of `pasc.go`: the two halves of `s` wrapped in opposite directions.  It panics
when the rune count is odd; the second `wrapString` receives `len(v)-i`, which is negative when
`i` exceeds the half length, and then slices out of range. -/
def owrapString (s : List Rune) (i : Nat) : Option (List Rune) :=
  let sRunes := s
  if sRunes.length % 2 ≠ 0 then
    none
  else
    let u := sRunes.take (sRunes.length / 2)
    let v := sRunes.drop (sRunes.length / 2)
    if v.length < i then
      none
    else
      some (wrapString u i ++ wrapString v (v.length - i))

/-- `MakeDellaPortaReciprocalTable` of `pasc.go`: it panics on a ciphertext alphabet of odd
length; row `i` is `owrapString(ctAlphabet2, i/2)`. -/
def MakeDellaPortaReciprocalTable (countersign ptAlphabet ctAlphabet keyAlphabet : List Rune) :
    Option VigenereFamilyCipher :=
  if ctAlphabet.length % 2 ≠ 0 then
    none
  else
    let ctAlphabet2 := wrapString ctAlphabet (ctAlphabet.length / 2)
    match fillCiphers ptAlphabet (fun i => owrapString ctAlphabet2 (i / 2)) keyAlphabet.enum [] with
    | none => none
    | some m =>
      some { ptAlphabet := ptAlphabet
             ctAlphabet := ctAlphabet
             keyAlphabet := keyAlphabet
             ciphers := m
             countersign := countersign
             Textautoclave := false
             Keyautoclave := false }

/-- The variables `keyRunes` and `transcodedCharCount` that the closure passed to `strings.Map`
captures and updates. -/
structure KeyStream where
  keyRunes : List Rune
  transcodedCharCount : Nat
deriving DecidableEq

/-- Go's `strings.Map`, for a mapping that carries state: the mapping is called once per rune,
in order; "if mapping returns a negative value, the character is dropped from the string with no
replacement".  A panic of the mapping aborts the call.  The final state of the mapping is
returned next to the output so that the key stream can be observed. -/
def stringsMap {σ : Type} (mapping : σ → Rune → Option (σ × Rune)) :
    σ → List Rune → Option (σ × List Rune)
  | st, [] => some (st, [])
  | st, r :: rest =>
    match mapping st r with
    | none => none
    | some (st1, o) =>
      match stringsMap mapping st1 rest with
      | none => none
      | some (st2, out) => some (st2, if 0 ≤ o then o :: out else out)

/-- The map read `c.ciphers[k]`: the zero value when `k` has no entry. -/
def VigenereFamilyCipher.cipherAt (c : VigenereFamilyCipher) (k : Rune) :
    SimpleSubstitutionCipher :=
  (c.ciphers.lookup k).getD SimpleSubstitutionCipher.zero

/-- The closure of `VigenereFamilyCipher.Encipher`.  The read
`keyRunes[transcodedCharCount%len(keyRunes)]` panics when `keyRunes` is empty. -/
def VigenereFamilyCipher.encipherMapping (c : VigenereFamilyCipher) (strict : Bool)
    (st : KeyStream) (r : Rune) : Option (KeyStream × Rune) :=
  match st.keyRunes[st.transcodedCharCount % st.keyRunes.length]? with
  | none => none
  | some k =>
    let cipher := c.cipherAt k
    let (o, ok) := cipher.encipherRune r strict
    if ok then
      if c.Textautoclave then
        some ({ keyRunes := st.keyRunes ++ [r]
                transcodedCharCount := st.transcodedCharCount + 1 }, o)
      else if c.Keyautoclave then
        some ({ keyRunes := st.keyRunes ++ [o]
                transcodedCharCount := st.transcodedCharCount + 1 }, o)
      else
        some ({ keyRunes := st.keyRunes
                transcodedCharCount := st.transcodedCharCount + 1 }, o)
    else
      some (st, o)

/-- The closure of `VigenereFamilyCipher.Decipher`. -/
def VigenereFamilyCipher.decipherMapping (c : VigenereFamilyCipher) (strict : Bool)
    (st : KeyStream) (r : Rune) : Option (KeyStream × Rune) :=
  match st.keyRunes[st.transcodedCharCount % st.keyRunes.length]? with
  | none => none
  | some k =>
    let cipher := c.cipherAt k
    let (o, ok) := cipher.decipherRune r strict
    if ok then
      if c.Textautoclave then
        some ({ keyRunes := st.keyRunes ++ [o]
                transcodedCharCount := st.transcodedCharCount + 1 }, o)
      else if c.Keyautoclave then
        some ({ keyRunes := st.keyRunes ++ [r]
                transcodedCharCount := st.transcodedCharCount + 1 }, o)
      else
        some ({ keyRunes := st.keyRunes
                transcodedCharCount := st.transcodedCharCount + 1 }, o)
    else
      some (st, o)

/-- The state of the closure when `strings.Map` starts: `keyRunes := []rune(c.countersign)`,
`transcodedCharCount = 0`. -/
def VigenereFamilyCipher.start (c : VigenereFamilyCipher) : KeyStream :=
  { keyRunes := c.countersign, transcodedCharCount := 0 }

/-- `VigenereFamilyCipher.Encipher` together with the final value of the captured variables. -/
def VigenereFamilyCipher.encipherRun (c : VigenereFamilyCipher) (s : List Rune) (strict : Bool) :
    Option (KeyStream × List Rune) :=
  stringsMap (c.encipherMapping strict) c.start s

/-- `VigenereFamilyCipher.Decipher` together with the final value of the captured variables. -/
def VigenereFamilyCipher.decipherRun (c : VigenereFamilyCipher) (s : List Rune) (strict : Bool) :
    Option (KeyStream × List Rune) :=
  stringsMap (c.decipherMapping strict) c.start s

/-- `VigenereFamilyCipher.Encipher` of `pasc.go`. -/
def VigenereFamilyCipher.Encipher (c : VigenereFamilyCipher) (s : List Rune) (strict : Bool) :
    Option (List Rune) :=
  (c.encipherRun s strict).map Prod.snd

/-- `VigenereFamilyCipher.Decipher` of `pasc.go`. -/
def VigenereFamilyCipher.Decipher (c : VigenereFamilyCipher) (s : List Rune) (strict : Bool) :
    Option (List Rune) :=
  (c.decipherRun s strict).map Prod.snd

/-- `MakeVigenereCipher` of `pasc.go`. -/
def MakeVigenereCipher (countersign alphabet : List Rune) : Option VigenereFamilyCipher :=
  MakeVigenereFamilyCipher countersign alphabet alphabet alphabet

/-- `MakeVigenereTextAutoclaveCipher` of `pasc.go`. -/
def MakeVigenereTextAutoclaveCipher (countersign alphabet : List Rune) :
    Option VigenereFamilyCipher :=
  (MakeVigenereCipher countersign alphabet).map (fun c => { c with Textautoclave := true })

/-- `MakeVigenereKeyAutoclaveCipher` of `pasc.go`. -/
def MakeVigenereKeyAutoclaveCipher (countersign alphabet : List Rune) :
    Option VigenereFamilyCipher :=
  (MakeVigenereCipher countersign alphabet).map (fun c => { c with Keyautoclave := true })

/-- `MakeBeaufortCipher` of `pasc.go`. -/
def MakeBeaufortCipher (countersign alphabet : List Rune) : Option VigenereFamilyCipher :=
  let revAlphabet := reverseString alphabet
  MakeVigenereFamilyCipher countersign alphabet revAlphabet revAlphabet

/-- `MakeGronsfeldCipher` of `pasc.go`. -/
def MakeGronsfeldCipher (countersign alphabet : List Rune) : Option VigenereFamilyCipher :=
  MakeVigenereFamilyCipher countersign alphabet alphabet (runes ("0123456789"))

/-- `MakeVariantBeaufortCipher` of `pasc.go`. -/
def MakeVariantBeaufortCipher (countersign alphabet : List Rune) : Option VigenereFamilyCipher :=
  let revAlphabet := reverseString alphabet
  MakeVigenereFamilyCipher countersign revAlphabet revAlphabet alphabet

/-- `MakeTrithemiusCipher` of `pasc.go`. -/
def MakeTrithemiusCipher (alphabet : List Rune) : Option VigenereFamilyCipher :=
  MakeVigenereCipher alphabet alphabet

/-- `MakeDellaPortaCipher` of `pasc.go`. -/
def MakeDellaPortaCipher (countersign alphabet : List Rune) : Option VigenereFamilyCipher :=
  MakeDellaPortaReciprocalTable countersign alphabet alphabet alphabet

/-- The assignments `c.Textautoclave = ta` and `c.Keyautoclave = ka` on a constructed cipher,
as the two autoclave constructors make them. -/
def VigenereFamilyCipher.setAutoclave (c : VigenereFamilyCipher) (ta ka : Bool) :
    VigenereFamilyCipher :=
  { c with Textautoclave := ta, Keyautoclave := ka }

/-- The rune of the decimal digit `d`, as it stands in the key alphabet `"0123456789"`. -/
def digitRune (d : Nat) : Rune :=
  Int.ofNat ('0'.toNat + d)

/-- The 26-letter Latin uppercase alphabet used in the concrete scenarios. -/
def latin : List Rune :=
  runes ("ABCDEFGHIJKLMNOPQRSTUVWXYZ")

/-- The number of bytes of the UTF-8 encoding of a code point (Go's `utf8.RuneLen` on the runes
of a string). -/
def runeLen (r : Rune) : Nat :=
  if r < 0x80 then 1 else if r < 0x800 then 2 else if r < 0x10000 then 3 else 4

/-- Go's `len(s)` of a string that is valid UTF-8, given by its runes: its length in bytes,
whereas `List.length` is its rune count.  A string with bytes that are not valid UTF-8 has
another length: each such byte reads as the rune U+FFFD and is one byte long, whereas the
encoding of U+FFFD is three bytes long. -/
def byteLen (s : List Rune) : Nat :=
  (s.map runeLen).sum

/-! ## Package `internal/pasc`: `tabularecta.go`

A Go function returning `(value, error)` is modelled by a pair whose second component is `none`
for a nil error; the result `none` of the whole call is a panic.  A map that is `nil` reads like
the empty map and is modelled by the empty association list.

A string is given by its runes, as `[]rune(s)` and `range` read them.  The one place where
`tabularecta.go` reads the length of a string in bytes is the check `len(keyRunes) !=
len(keyAlphabet)`.  The functions that run this check come in two forms: the form whose name ends
in `OfLen` takes `len(keyAlphabet)` as an argument and so covers every Go string; the form with
the plain name is the case of a key alphabet that is valid UTF-8, whose length in bytes is
`byteLen` of its runes. -/

/-- A Go `error` value: one made by `errors.New(text)`, or one made by code outside the
available sources, named by where it comes from. -/
inductive GoError where
  | new (text : String)
  | foreign (origin : String)
deriving DecidableEq

/-- Modelled from the spec: `masc.Tableau` (its declaration is outside the available sources;
`tabularecta.go` assigns its fields `Strict` and `Caseless`).  It is the spec's monoalphabetic
tableau: "two aligned ordered sequences, `plain` and `cipher`", with a forward and a backward
lookup mapping, and the two policy flags. -/
structure Masc.Tableau where
  Strict : Bool
  Caseless : Bool
  ptAlphabet : List Rune
  ctAlphabet : List Rune
  pt2ct : List (Rune × Rune)
  ct2pt : List (Rune × Rune)
deriving DecidableEq

/-- Modelled from the spec: `masc.NewTableau(ptAlphabet, f)` (outside the available sources) is
the spec's `build(plainAlphabet, cipherAlphabet) -> Tableau | error[LengthMismatch]`, the
ciphertext alphabet being what `f` returns for the plaintext alphabet; an error or a panic of `f`
is passed on. -/
def Masc.NewTableau (ptAlphabet : List Rune)
    (f : List Rune → Option (Except GoError (List Rune))) :
    Option (Except GoError Masc.Tableau) :=
  match f ptAlphabet with
  | none => none
  | some (Except.error err) => some (Except.error err)
  | some (Except.ok ctAlphabet) =>
    if ptAlphabet.length = ctAlphabet.length then
      some (Except.ok
        { Strict := false
          Caseless := false
          ptAlphabet := ptAlphabet
          ctAlphabet := ctAlphabet
          pt2ct := ptAlphabet.zip ctAlphabet
          ct2pt := ctAlphabet.zip ptAlphabet })
    else
      some (Except.error (GoError.foreign "LengthMismatch"))

/-- Modelled from the spec: `stringutil.Backpermute(s, ii)` (outside the available sources)
yields the string whose `x`-th rune is the rune of `s` at index `ii[x]`, which is how the
built-in strategy derives "`ctAlphabet_y = rotate(ctAlphabet, y)`" from the indices
`(x + y) mod len`; an index outside `s` is an error. -/
def Stringutil.Backpermute (s : List Rune) : List Nat → Except GoError (List Rune)
  | [] => Except.ok []
  | i :: rest =>
    match s[i]? with
    | none => Except.error (GoError.foreign "Backpermute")
    | some r =>
      match Stringutil.Backpermute s rest with
      | Except.error err => Except.error err
      | Except.ok out => Except.ok (r :: out)

/-- The type `ReciprocalTable` of package `pasc` (its declaration is outside the available
sources): `tabularecta.go` returns a `map[rune]*masc.Tableau` as one. -/
abbrev Pasc.ReciprocalTable := List (Rune × Masc.Tableau)

/-- The type of the field `DictFunc`: `func(s string, i int) (*masc.Tableau, error)`.  The index
is a slice index, hence a natural number; a generator returns a tableau exactly when it returns
no error. -/
abbrev Pasc.DictFunc := List Rune → Nat → Except GoError Masc.Tableau

/-- The constant `pasc.Alphabet` (its declaration is outside the available sources): the spec's
default, "the 26-letter Latin uppercase alphabet". -/
def Pasc.Alphabet : List Rune :=
  latin

/-- The struct `TabulaRecta` of `tabularecta.go`; a nil `DictFunc` is `none`. -/
structure Pasc.TabulaRecta where
  Strict : Bool
  Caseless : Bool
  PtAlphabet : List Rune
  CtAlphabet : List Rune
  KeyAlphabet : List Rune
  DictFunc : Option Pasc.DictFunc

/-- `NewTabulaRecta` of `tabularecta.go`; the fields it does not set keep their zero value. -/
def Pasc.NewTabulaRecta (ptAlphabet keyAlphabet : List Rune) (f : Option Pasc.DictFunc) :
    Pasc.TabulaRecta × Option GoError :=
  let ptAlphabet := if ptAlphabet = [] then Pasc.Alphabet else ptAlphabet
  let keyAlphabet := if keyAlphabet = [] then ptAlphabet else keyAlphabet
  ({ Strict := false
     Caseless := false
     PtAlphabet := ptAlphabet
     CtAlphabet := []
     KeyAlphabet := keyAlphabet
     DictFunc := f }, none)

/-- The error that both construction strategies return from their length check. -/
def Pasc.rowHeadersError : GoError :=
  GoError.new "Row headers must have same rune length as rows slice"

/-- The first loop of `makereciprocaltable`: for each `y`, the indices `ii[x] = (x + y) %
ctAlphabetLen` are back-permuted into `ctAlphabets[y]`; the first error is returned. -/
def Pasc.ctAlphabetsLoop (ctAlphabet : List Rune) (ctAlphabetLen : Nat) :
    List Nat → Except GoError (List (List Rune))
  | [] => Except.ok []
  | y :: rest =>
    let ii := (List.range ctAlphabetLen).map (fun x => (x + y) % ctAlphabetLen)
    match Stringutil.Backpermute ctAlphabet ii with
    | Except.error err => Except.error err
    | Except.ok out =>
      match Pasc.ctAlphabetsLoop ctAlphabet ctAlphabetLen rest with
      | Except.error err => Except.error err
      | Except.ok outs => Except.ok (out :: outs)

/-- The second loop of `makereciprocaltable`, over the pairs `(i, r)` of `range keyRunes` still
to be visited.  The closure handed to `masc.NewTableau` reads `ctAlphabets[i]`, which panics
when `i` is out of range. -/
def Pasc.reciprocalLoop (ptAlphabet : List Rune) (ctAlphabets : List (List Rune))
    (strict : Bool) :
    List (Nat × Rune) → Pasc.ReciprocalTable → Option (Pasc.ReciprocalTable × Option GoError)
  | [], m => some (m, none)
  | (i, r) :: rest, m =>
    match Masc.NewTableau ptAlphabet (fun _ => (ctAlphabets[i]?).map Except.ok) with
    | none => none
    | some (Except.error err) => some ([], some err)
    | some (Except.ok t) =>
      Pasc.reciprocalLoop ptAlphabet ctAlphabets strict rest ((r, { t with Strict := strict }) :: m)

/-- `TabulaRecta.makereciprocaltable` of `tabularecta.go`, for any Go string as key alphabet.
The fields of the tabula recta hold the strings as the runes that `[]rune(s)` and `range` read.
These runes do not determine `len(keyAlphabet)`, the length of the string in bytes, when the
string has bytes that are not valid UTF-8, so this length is the argument `keyLen`. -/
def Pasc.TabulaRecta.makereciprocaltableOfLen (tr : Pasc.TabulaRecta) (keyLen : Nat) :
    Option (Pasc.ReciprocalTable × Option GoError) :=
  let ptAlphabet := tr.PtAlphabet
  let ctAlphabet := if tr.CtAlphabet = [] then ptAlphabet else tr.CtAlphabet
  let keyAlphabet := if tr.KeyAlphabet = [] then ptAlphabet else tr.KeyAlphabet
  let ctAlphabetLen := ctAlphabet.length
  match Pasc.ctAlphabetsLoop ctAlphabet ctAlphabetLen (List.range tr.KeyAlphabet.length) with
  | Except.error err => some ([], some err)
  | Except.ok ctAlphabets =>
    let keyRunes := keyAlphabet
    if keyRunes.length ≠ keyLen then
      some ([], some Pasc.rowHeadersError)
    else
      Pasc.reciprocalLoop ptAlphabet ctAlphabets tr.Strict keyRunes.enum []

/-- `TabulaRecta.makereciprocaltable` of `tabularecta.go` for a key alphabet that is valid
UTF-8: `len(keyAlphabet)` is then `byteLen` of its runes. -/
def Pasc.TabulaRecta.makereciprocaltable (tr : Pasc.TabulaRecta) :
    Option (Pasc.ReciprocalTable × Option GoError) :=
  tr.makereciprocaltableOfLen
    (byteLen (if tr.KeyAlphabet = [] then tr.PtAlphabet else tr.KeyAlphabet))

/-- The loop of `makedictsfromfunc` over the pairs `(i, r)` of `range keyRunes` still to be
visited.  Next to the result it returns the indices at which the generator has been called, in
order, `calls` being those of the iterations already done. -/
def Pasc.dictLoop (f : Pasc.DictFunc) (ptAlphabet : List Rune) (caseless strict : Bool) :
    List (Nat × Rune) → Pasc.ReciprocalTable → List Nat →
    List Nat × Option (Pasc.ReciprocalTable × Option GoError)
  | [], m, calls => (calls, some (m, none))
  | (i, r) :: rest, m, calls =>
    match f ptAlphabet i with
    | Except.error err => (calls ++ [i], some ([], some err))
    | Except.ok t =>
      Pasc.dictLoop f ptAlphabet caseless strict rest
        ((r, { t with Caseless := caseless, Strict := strict }) :: m) (calls ++ [i])

/-- `TabulaRecta.makedictsfromfunc` of `tabularecta.go`, for any Go string as key alphabet,
`keyLen` being `len(keyAlphabet)`, together with the indices at which it has called the
generator. -/
def Pasc.TabulaRecta.makedictsfromfuncLoggedOfLen (tr : Pasc.TabulaRecta) (keyLen : Nat) :
    List Nat × Option (Pasc.ReciprocalTable × Option GoError) :=
  let ptAlphabet := tr.PtAlphabet
  let keyAlphabet := if tr.KeyAlphabet = [] then ptAlphabet else tr.KeyAlphabet
  match tr.DictFunc with
  | none => ([], tr.makereciprocaltableOfLen keyLen)
  | some f =>
    let keyRunes := keyAlphabet
    if keyRunes.length ≠ keyLen then
      ([], some ([], some Pasc.rowHeadersError))
    else
      Pasc.dictLoop f ptAlphabet tr.Caseless tr.Strict keyRunes.enum [] []

/-- `TabulaRecta.makedictsfromfunc` of `tabularecta.go`, for any Go string as key alphabet,
`keyLen` being `len(keyAlphabet)`. -/
def Pasc.TabulaRecta.makedictsfromfuncOfLen (tr : Pasc.TabulaRecta) (keyLen : Nat) :
    Option (Pasc.ReciprocalTable × Option GoError) :=
  (tr.makedictsfromfuncLoggedOfLen keyLen).2

/-- The indices at which a call of `makedictsfromfunc` calls the generator, in order, for any
Go string as key alphabet, `keyLen` being `len(keyAlphabet)`. -/
def Pasc.TabulaRecta.generatorCallsOfLen (tr : Pasc.TabulaRecta) (keyLen : Nat) : List Nat :=
  (tr.makedictsfromfuncLoggedOfLen keyLen).1

/-- `TabulaRecta.makedictsfromfunc` of `tabularecta.go`, together with the indices at which it
has called the generator, for a key alphabet that is valid UTF-8. -/
def Pasc.TabulaRecta.makedictsfromfuncLogged (tr : Pasc.TabulaRecta) :
    List Nat × Option (Pasc.ReciprocalTable × Option GoError) :=
  tr.makedictsfromfuncLoggedOfLen
    (byteLen (if tr.KeyAlphabet = [] then tr.PtAlphabet else tr.KeyAlphabet))

/-- `TabulaRecta.makedictsfromfunc` of `tabularecta.go` for a key alphabet that is valid
UTF-8. -/
def Pasc.TabulaRecta.makedictsfromfunc (tr : Pasc.TabulaRecta) :
    Option (Pasc.ReciprocalTable × Option GoError) :=
  tr.makedictsfromfuncLogged.2

/-- The indices at which a call of `makedictsfromfunc` calls the generator, in order, for a key
alphabet that is valid UTF-8. -/
def Pasc.TabulaRecta.generatorCalls (tr : Pasc.TabulaRecta) : List Nat :=
  tr.makedictsfromfuncLogged.1

/-- `TabulaRecta.Encipher` of `tabularecta.go`, for any Go string as key alphabet, `keyLen`
being `len(keyAlphabet)`.  The method `ReciprocalTable.Encipher` is outside the available
sources and is the parameter `rtEncipher`; `onSuccess` is handed on. -/
def Pasc.TabulaRecta.EncipherOfLen {ω : Type}
    (rtEncipher : Pasc.ReciprocalTable → List Rune → List Rune → ω →
      Option (List Rune × Option GoError))
    (tr : Pasc.TabulaRecta) (keyLen : Nat) (s k : List Rune) (onSuccess : ω) :
    Option (List Rune × Option GoError) :=
  match tr.makedictsfromfuncOfLen keyLen with
  | none => none
  | some (_, some err) => some ([], some err)
  | some (rt, none) => rtEncipher rt s k onSuccess

/-- `TabulaRecta.Decipher` of `tabularecta.go`, for any Go string as key alphabet, with
`ReciprocalTable.Decipher` as the parameter `rtDecipher`. -/
def Pasc.TabulaRecta.DecipherOfLen {ω : Type}
    (rtDecipher : Pasc.ReciprocalTable → List Rune → List Rune → ω →
      Option (List Rune × Option GoError))
    (tr : Pasc.TabulaRecta) (keyLen : Nat) (s k : List Rune) (onSuccess : ω) :
    Option (List Rune × Option GoError) :=
  match tr.makedictsfromfuncOfLen keyLen with
  | none => none
  | some (_, some err) => some ([], some err)
  | some (rt, none) => rtDecipher rt s k onSuccess

/-- `TabulaRecta.Printable` of `tabularecta.go`, for any Go string as key alphabet.  What it
does once the table is built (the rows written through `text/tabwriter`, each from
`masc.Tableau.Encipher`) is the parameter `render`, applied to the plaintext alphabet, the key
alphabet and the table. -/
def Pasc.TabulaRecta.PrintableOfLen
    (render : List Rune → List Rune → Pasc.ReciprocalTable → Option (List Rune × Option GoError))
    (tr : Pasc.TabulaRecta) (keyLen : Nat) : Option (List Rune × Option GoError) :=
  let ptAlphabet := tr.PtAlphabet
  let keyAlphabet := if tr.KeyAlphabet = [] then ptAlphabet else tr.KeyAlphabet
  match tr.makedictsfromfuncOfLen keyLen with
  | none => none
  | some (_, some err) => some ([], some err)
  | some (rt, none) => render ptAlphabet keyAlphabet rt

/-- `TabulaRecta.Encipher` of `tabularecta.go` for a key alphabet that is valid UTF-8. -/
def Pasc.TabulaRecta.Encipher {ω : Type}
    (rtEncipher : Pasc.ReciprocalTable → List Rune → List Rune → ω →
      Option (List Rune × Option GoError))
    (tr : Pasc.TabulaRecta) (s k : List Rune) (onSuccess : ω) :
    Option (List Rune × Option GoError) :=
  tr.EncipherOfLen rtEncipher
    (byteLen (if tr.KeyAlphabet = [] then tr.PtAlphabet else tr.KeyAlphabet)) s k onSuccess

/-- `TabulaRecta.Decipher` of `tabularecta.go` for a key alphabet that is valid UTF-8. -/
def Pasc.TabulaRecta.Decipher {ω : Type}
    (rtDecipher : Pasc.ReciprocalTable → List Rune → List Rune → ω →
      Option (List Rune × Option GoError))
    (tr : Pasc.TabulaRecta) (s k : List Rune) (onSuccess : ω) :
    Option (List Rune × Option GoError) :=
  tr.DecipherOfLen rtDecipher
    (byteLen (if tr.KeyAlphabet = [] then tr.PtAlphabet else tr.KeyAlphabet)) s k onSuccess

/-- `TabulaRecta.Printable` of `tabularecta.go` for a key alphabet that is valid UTF-8. -/
def Pasc.TabulaRecta.Printable
    (render : List Rune → List Rune → Pasc.ReciprocalTable → Option (List Rune × Option GoError))
    (tr : Pasc.TabulaRecta) : Option (List Rune × Option GoError) :=
  tr.PrintableOfLen render
    (byteLen (if tr.KeyAlphabet = [] then tr.PtAlphabet else tr.KeyAlphabet))

/-! ## Packages `caesar`, `rot13` and `gronsfeld` -/

/-- The struct `affine.Cipher` (its declaration is outside the available sources): the fields
that the composite literals of `caesar.go` and `decimation.go` set. -/
structure Affine.Cipher where
  Alphabet : List Rune
  CtAlphabet : List Rune
  Caseless : Bool
  Intercept : Int
  Slope : Int
  Strict : Bool
deriving DecidableEq

/-- The struct `caesar.Cipher`. -/
structure Caesar.Cipher where
  Alphabet : List Rune
  Caseless : Bool
  Shift : Int
  Strict : Bool
deriving DecidableEq

/-- The constant `slope` of `caesar.go`. -/
def Caesar.slope : Int := 1

/-- `caesar.Cipher.maketableau`. -/
def Caesar.Cipher.maketableau (c : Caesar.Cipher) : Affine.Cipher :=
  { Alphabet := c.Alphabet
    CtAlphabet := []
    Caseless := c.Caseless
    Intercept := c.Shift
    Slope := Caesar.slope
    Strict := c.Strict }

/-- The struct `gronsfeld.Cipher`. -/
structure Gronsfeld.Cipher where
  Alphabet : List Rune
  Caseless : Bool
  Key : List Rune
  Strict : Bool
deriving DecidableEq

/-- `gronsfeld.Cipher.maketableau`.  The method `caesar.Cipher.Tableau`, which reaches into
package `affine` outside the available sources, is the parameter `caesarTableau`. -/
def Gronsfeld.Cipher.maketableau (caesarTableau : Caesar.Cipher → Except GoError Masc.Tableau)
    (c : Gronsfeld.Cipher) : Except GoError Pasc.TabulaRecta :=
  let digits := runes ("0123456789")
  match Pasc.NewTabulaRecta c.Alphabet digits
      (some (fun s i =>
        let c2 : Caesar.Cipher :=
          { Alphabet := s, Caseless := c.Caseless, Shift := Int.ofNat i, Strict := c.Strict }
        caesarTableau c2)) with
  | (_, some err) => Except.error err
  | (tr, none) => Except.ok { tr with Caseless := c.Caseless }

/-- `gronsfeld.Cipher.Encipher`, with `ReciprocalTable.Encipher` as the parameter
`rtEncipher`; the `nil` passed for `onSuccess` is `()`. -/
def Gronsfeld.Cipher.Encipher (caesarTableau : Caesar.Cipher → Except GoError Masc.Tableau)
    (rtEncipher : Pasc.ReciprocalTable → List Rune → List Rune → Unit →
      Option (List Rune × Option GoError))
    (c : Gronsfeld.Cipher) (s : List Rune) : Option (List Rune × Option GoError) :=
  match c.maketableau caesarTableau with
  | Except.error err => some ([], some err)
  | Except.ok t => t.Encipher rtEncipher s c.Key ()

/-- `gronsfeld.Cipher.Decipher`, with `ReciprocalTable.Decipher` as the parameter
`rtDecipher`. -/
def Gronsfeld.Cipher.Decipher (caesarTableau : Caesar.Cipher → Except GoError Masc.Tableau)
    (rtDecipher : Pasc.ReciprocalTable → List Rune → List Rune → Unit →
      Option (List Rune × Option GoError))
    (c : Gronsfeld.Cipher) (s : List Rune) : Option (List Rune × Option GoError) :=
  match c.maketableau caesarTableau with
  | Except.error err => some ([], some err)
  | Except.ok t => t.Decipher rtDecipher s c.Key ()

/-! ## The tableau provider (packages `masc` and `affine`, outside the available sources) -/

/-- Go's Unicode case mapping as the caseless policy uses it, taken as a parameter: `fold` brings
a symbol to the tableau's declared case, `recase original result` re-applies the case of the
original symbol to the result. -/
structure CaseOps where
  fold : Rune → Rune
  recase : Rune → Rune → Rune

/-- Modelled from the spec: the tableau's `encipherRune(r, strict) -> (outRune, transcoded)`,
with the flags of the tableau: "fold input to the tableau's declared case before lookup; if the
folded symbol matches, re-apply the original symbol's case"; when `r` is not a key of the
mapping, `(r, false)` in non-strict mode and the sentinel `(-1, false)` in strict mode. -/
def Masc.Tableau.encipherRune (ops : CaseOps) (t : Masc.Tableau) (r : Rune) : Rune × Bool :=
  match t.pt2ct.lookup (if t.Caseless then ops.fold r else r) with
  | some o => (if t.Caseless then ops.recase r o else o, true)
  | none => if t.Strict then (-1, false) else (r, false)

/-- Modelled from the spec: `decipherRune`, "symmetric using the backward mapping". -/
def Masc.Tableau.decipherRune (ops : CaseOps) (t : Masc.Tableau) (r : Rune) : Rune × Bool :=
  match t.ct2pt.lookup (if t.Caseless then ops.fold r else r) with
  | some o => (if t.Caseless then ops.recase r o else o, true)
  | none => if t.Strict then (-1, false) else (r, false)

/-- Modelled from the spec: `masc.Tableau.Encipher`: every symbol is replaced by its
substitute, "unchanged symbol if not transcoded"; in strict mode a symbol absent from the
plaintext alphabet "is signaled as a failure rather than passed through" (`TranscodeError`). -/
def Masc.Tableau.Encipher (ops : CaseOps) (t : Masc.Tableau) :
    List Rune → Except GoError (List Rune)
  | [] => Except.ok []
  | r :: rest =>
    if (t.encipherRune ops r).2 = false ∧ t.Strict = true then
      Except.error (GoError.foreign "TranscodeError")
    else
      match Masc.Tableau.Encipher ops t rest with
      | Except.error err => Except.error err
      | Except.ok out => Except.ok ((t.encipherRune ops r).1 :: out)

/-- Modelled from the spec: `masc.Tableau.Decipher`, the same in the backward direction. -/
def Masc.Tableau.Decipher (ops : CaseOps) (t : Masc.Tableau) :
    List Rune → Except GoError (List Rune)
  | [] => Except.ok []
  | r :: rest =>
    if (t.decipherRune ops r).2 = false ∧ t.Strict = true then
      Except.error (GoError.foreign "TranscodeError")
    else
      match Masc.Tableau.Decipher ops t rest with
      | Except.error err => Except.error err
      | Except.ok out => Except.ok ((t.decipherRune ops r).1 :: out)

/-- Modelled from the spec: `affine.Cipher.Tableau` is the "affine/monoalphabetic tableau
provider: given a plaintext alphabet, a slope, and an intercept ..., returns a bidirectional
rune-to-rune mapping": the symbol at index `x` of the alphabet (default: "the 26-letter Latin
uppercase alphabet") is paired with the symbol at index `(slope * x + intercept) mod n` of the
ciphertext alphabet (default: the alphabet), and the tableau carries the cipher's flags. -/
def Affine.Cipher.Tableau (c : Affine.Cipher) : Except GoError Masc.Tableau :=
  let alphabet := if c.Alphabet = [] then Pasc.Alphabet else c.Alphabet
  let ctAlphabet := if c.CtAlphabet = [] then alphabet else c.CtAlphabet
  let ii := (List.range alphabet.length).map
    (fun x => ((c.Slope * Int.ofNat x + c.Intercept) % Int.ofNat alphabet.length).toNat)
  match Masc.NewTableau alphabet (fun _ => some (Stringutil.Backpermute ctAlphabet ii)) with
  | none => Except.error (GoError.foreign "panic")
  | some (Except.error err) => Except.error err
  | some (Except.ok t) => Except.ok { t with Strict := c.Strict, Caseless := c.Caseless }

/-- Modelled from the spec: `affine.Cipher.Encipher` builds the tableau and enciphers with
it. -/
def Affine.Cipher.Encipher (ops : CaseOps) (c : Affine.Cipher) (s : List Rune) :
    Except GoError (List Rune) :=
  match c.Tableau with
  | Except.error err => Except.error err
  | Except.ok t => t.Encipher ops s

/-- Modelled from the spec: `affine.Cipher.Decipher` builds the tableau and deciphers with
it. -/
def Affine.Cipher.Decipher (ops : CaseOps) (c : Affine.Cipher) (s : List Rune) :
    Except GoError (List Rune) :=
  match c.Tableau with
  | Except.error err => Except.error err
  | Except.ok t => t.Decipher ops s

/-- `caesar.Cipher.Encipher`. -/
def Caesar.Cipher.Encipher (ops : CaseOps) (c : Caesar.Cipher) (s : List Rune) :
    Except GoError (List Rune) :=
  c.maketableau.Encipher ops s

/-- `caesar.Cipher.Decipher`. -/
def Caesar.Cipher.Decipher (ops : CaseOps) (c : Caesar.Cipher) (s : List Rune) :
    Except GoError (List Rune) :=
  c.maketableau.Decipher ops s

/-- `caesar.Cipher.Tableau`. -/
def Caesar.Cipher.Tableau (c : Caesar.Cipher) : Except GoError Masc.Tableau :=
  c.maketableau.Tableau

/-- The struct `rot13.Cipher`. -/
structure Rot13.Cipher where
  Caseless : Bool
  Strict : Bool
deriving DecidableEq

/-- The constant `shift` of `rot13.go`. -/
def Rot13.shift : Int := 13

/-- `rot13.Cipher.maketableau`. -/
def Rot13.Cipher.maketableau (c : Rot13.Cipher) : Caesar.Cipher :=
  { Alphabet := []
    Caseless := c.Caseless
    Shift := Rot13.shift
    Strict := c.Strict }

/-- `rot13.Cipher.Encipher`. -/
def Rot13.Cipher.Encipher (ops : CaseOps) (c : Rot13.Cipher) (s : List Rune) :
    Except GoError (List Rune) :=
  c.maketableau.Encipher ops s

/-- `rot13.Cipher.Decipher`. -/
def Rot13.Cipher.Decipher (ops : CaseOps) (c : Rot13.Cipher) (s : List Rune) :
    Except GoError (List Rune) :=
  c.maketableau.Decipher ops s

/-- `rot13.Cipher.Tableau`. -/
def Rot13.Cipher.Tableau (c : Rot13.Cipher) : Except GoError Masc.Tableau :=
  c.maketableau.Tableau

/-- The progressive shift in the words of the specification, for comparison with
`MakeTrithemiusCipher`: the `k`-th transcoded symbol, of index `p` in `A`, becomes
`A[(p + k) mod n]`; a symbol outside `A` is passed through in non-strict mode and deleted in
strict mode, and is not counted. -/
def progressiveShift (A : List Rune) (strict : Bool) : Nat → List Rune → List Rune
  | _, [] => []
  | k, r :: rest =>
    if r ∈ A then
      A.getD ((A.indexOf r + k) % A.length) 0 :: progressiveShift A strict (k + 1) rest
    else if strict then
      progressiveShift A strict k rest
    else
      r :: progressiveShift A strict k rest

/-- The pairs (input symbol, output symbol) of the calls in which a closure counted a transcoded
symbol, that is, took its `if ok` branch and incremented `transcodedCharCount`, in order. -/
def transcodedPairs (mapping : KeyStream → Rune → Option (KeyStream × Rune)) :
    KeyStream → List Rune → List (Rune × Rune)
  | _, [] => []
  | st, r :: rest =>
    match mapping st r with
    | none => []
    | some (st1, o) =>
      if st1.transcodedCharCount = st.transcodedCharCount + 1 then
        (r, o) :: transcodedPairs mapping st1 rest
      else
        transcodedPairs mapping st1 rest

/-- Equality of results of type `Except` is decidable when it is for errors and values. -/
instance decEqExcept {ε α : Type} [DecidableEq ε] [DecidableEq α] : DecidableEq (Except ε α)
  | Except.ok a, Except.ok b =>
    if h : a = b then isTrue (congrArg Except.ok h) else isFalse (fun h2 => h (Except.ok.inj h2))
  | Except.error a, Except.error b =>
    if h : a = b then isTrue (congrArg Except.error h)
    else isFalse (fun h2 => h (Except.error.inj h2))
  | Except.ok _, Except.error _ => isFalse (fun h => by cases h)
  | Except.error _, Except.ok _ => isFalse (fun h => by cases h)

/-- A generator for the concrete scenarios, written like the closure of `gronsfeld.go` but
without reaching outside the available sources: the tableau at index `i` pairs the alphabet with
its rotation by `i`. -/
def rotationRows : Pasc.DictFunc :=
  fun s i =>
    Except.ok
      { Strict := false
        Caseless := false
        ptAlphabet := s
        ctAlphabet := wrapString s i
        pt2ct := s.zip (wrapString s i)
        ct2pt := (wrapString s i).zip s }

/-- A generator for the concrete scenarios that fails at every index from `n` on, with an error
that names the index, and is `rotationRows` before. -/
def rotationRowsUpTo (n : Nat) : Pasc.DictFunc :=
  fun s i =>
    if n ≤ i then Except.error (GoError.new (String.append "no row " (toString i)))
    else rotationRows s i

/-- The alphabet `A`-`Z` rotated by 13 places: the ciphertext alphabet of the ROT13 tableau. -/
def rot13Alphabet : List Rune :=
  runes ("NOPQRSTUVWXYZABCDEFGHIJKLM")

/-- Case operations that leave every symbol as it is, for the concrete scenarios. -/
def plainCase : CaseOps :=
  { fold := fun r => r
    recase := fun _ o => o }

/-! ## Predicates used by the proofs -/

/-- Every row of the table is a tableau of `pt` against a rearrangement of `ct`. -/
def TableOver (m : List (Rune × SimpleSubstitutionCipher)) (pt ct : List Rune) : Prop :=
  ∀ k row, m.lookup k = some row →
    ∃ ct3, ct3.Perm ct ∧ makeSimpleSubstitutionCipher pt ct3 = some row

/-- The rune that the closures append to `keyRunes` after a transcoded symbol: `a` under
text-autoclave, `b` under key-autoclave, nothing otherwise. -/
def feedback (c : VigenereFamilyCipher) (a b : Rune) : List Rune :=
  if c.Textautoclave then [a] else if c.Keyautoclave then [b] else []

/-- The key stream is usable: it is not empty and, in strict mode, every key rune has a row. -/
def KeyOK (c : VigenereFamilyCipher) (strict : Bool) (st : KeyStream) : Prop :=
  st.keyRunes ≠ [] ∧ (strict = true → ∀ k ∈ st.keyRunes, (c.ciphers.lookup k).isSome)

/-- In strict mode the symbols fed back into the key stream have rows. -/
def FeedbackOK (c : VigenereFamilyCipher) (strict : Bool) (pt ct : List Rune) : Prop :=
  strict = true →
    (c.Textautoclave = true → ∀ x ∈ pt, (c.ciphers.lookup x).isSome) ∧
    (c.Keyautoclave = true → ∀ x ∈ ct, (c.ciphers.lookup x).isSome)

/-- The input symbols for which a round trip can succeed: symbols of the plaintext alphabet and,
in non-strict mode, symbols that are in neither alphabet. -/
def Admissible (strict : Bool) (pt ct : List Rune) (r : Rune) : Prop :=
  r ∈ pt ∨ (strict = false ∧ 0 ≤ r ∧ r ∉ ct)

/-- What one call of a closure does, for either direction: with a non-empty key stream it
returns; a symbol outside `dom` leaves the captured variables alone and yields the symbol itself
(non-strict) or `-1` (strict); every other result is a symbol of `cod` or again one of those
two. -/
def StepSpec (f : KeyStream → Rune → Option (KeyStream × Rune)) (strict : Bool)
    (dom cod : List Rune) : Prop :=
  ∀ (st : KeyStream) (r : Rune), st.keyRunes ≠ [] →
    ∃ st1 o, f st r = some (st1, o) ∧ st1.keyRunes ≠ [] ∧
      (r ∉ dom → st1 = st ∧ o = if strict then -1 else r) ∧
      (o ∈ cod ∨ o = if strict then -1 else r)

/-- What one call of a closure does to the captured variables, `fb r o` being the runes it
appends after transcoding input `r` to output `o`: nothing changes, or the count grows by one
and the key stream grows by `fb r o`. -/
def GrowsBy (f : KeyStream → Rune → Option (KeyStream × Rune)) (fb : Rune → Rune → List Rune) :
    Prop :=
  ∀ (st st1 : KeyStream) (r o : Rune), f st r = some (st1, o) →
    st1 = st ∨
    (st1.transcodedCharCount = st.transcodedCharCount + 1 ∧
      st1.keyRunes = st.keyRunes ++ fb r o)

/-! ## Association lists built by zipping two alphabets -/

theorem lookup_cons_self {β : Type} (r : Rune) (s : β) (l : List (Rune × β)) :
    ((r, s) :: l).lookup r = some s := by
  simp [List.lookup]

theorem lookup_cons_ne {β : Type} {r x : Rune} (s : β) (l : List (Rune × β)) (h : r ≠ x) :
    ((x, s) :: l).lookup r = l.lookup r := by
  have hne : (r == x) = false := by simpa using h
  simp [List.lookup, hne]

theorem lookup_zip_some_iff {X Y : List Rune} (hX : X.Nodup) (r s : Rune) :
    (X.zip Y).lookup r = some s ↔ (r, s) ∈ X.zip Y := by
  induction X generalizing Y with
  | nil => simp
  | cons x xs ih =>
    cases Y with
    | nil => simp
    | cons y ys =>
      have hx : x ∉ xs := (List.nodup_cons.mp hX).1
      have hxs : xs.Nodup := (List.nodup_cons.mp hX).2
      rw [List.zip_cons_cons, List.mem_cons]
      by_cases hr : r = x
      · subst hr
        have hno : (r, s) ∉ xs.zip ys := fun ht => hx (List.of_mem_zip ht).1
        rw [lookup_cons_self]
        constructor
        · intro h; left; cases h; rfl
        · rintro (h | h)
          · cases h; rfl
          · exact absurd h hno
      · rw [lookup_cons_ne _ _ hr, ih hxs]
        constructor
        · intro h; exact Or.inr h
        · rintro (h | h)
          · cases h; exact absurd rfl hr
          · exact h

theorem lookup_zip_none_iff {X Y : List Rune} (hlen : X.length ≤ Y.length) (r : Rune) :
    (X.zip Y).lookup r = none ↔ r ∉ X := by
  induction X generalizing Y with
  | nil => simp
  | cons x xs ih =>
    cases Y with
    | nil => simp at hlen
    | cons y ys =>
      have hl : xs.length ≤ ys.length := by simpa using hlen
      rw [List.zip_cons_cons, List.mem_cons]
      by_cases hr : r = x
      · subst hr; rw [lookup_cons_self]; simp
      · rw [lookup_cons_ne _ _ hr, ih hl]; simp [hr]

theorem mem_of_lookup_some {l : List (Rune × Rune)} {r s : Rune} (h : l.lookup r = some s) :
    (r, s) ∈ l := by
  induction l with
  | nil => simp at h
  | cons p l ih =>
    obtain ⟨x, y⟩ := p
    by_cases hr : r = x
    · subst hr; rw [lookup_cons_self] at h; cases h; exact List.mem_cons_self _ _
    · rw [lookup_cons_ne _ _ hr] at h; exact List.mem_cons_of_mem _ (ih h)

/-! ## Rows of the table -/

theorem make_length {pt ct3 : List Rune} {row : SimpleSubstitutionCipher}
    (h : makeSimpleSubstitutionCipher pt ct3 = some row) : pt.length = ct3.length := by
  unfold makeSimpleSubstitutionCipher at h
  by_contra hne
  rw [if_neg hne] at h
  cases h

theorem make_pt2ct {pt ct3 : List Rune} {row : SimpleSubstitutionCipher}
    (h : makeSimpleSubstitutionCipher pt ct3 = some row) : row.pt2ct = pt.zip ct3 := by
  have hl := make_length h
  unfold makeSimpleSubstitutionCipher at h
  rw [if_pos hl] at h
  cases h; rfl

theorem make_ct2pt {pt ct3 : List Rune} {row : SimpleSubstitutionCipher}
    (h : makeSimpleSubstitutionCipher pt ct3 = some row) : row.ct2pt = ct3.zip pt := by
  have hl := make_length h
  unfold makeSimpleSubstitutionCipher at h
  rw [if_pos hl] at h
  cases h; rfl

theorem make_of_length {pt ct3 : List Rune} (h : pt.length = ct3.length) :
    ∃ row, makeSimpleSubstitutionCipher pt ct3 = some row := by
  unfold makeSimpleSubstitutionCipher
  rw [if_pos h]
  exact ⟨_, rfl⟩

theorem mem_zip_swap {X Y : List Rune} {r s : Rune} :
    (s, r) ∈ Y.zip X ↔ (r, s) ∈ X.zip Y := by
  rw [← List.zip_swap X Y, List.mem_map]
  constructor
  · rintro ⟨⟨a, b⟩, hab, heq⟩
    cases heq
    exact hab
  · intro h
    exact ⟨(r, s), h, rfl⟩

theorem enc_of_lookup_some {row : SimpleSubstitutionCipher} {r o : Rune} (strict : Bool)
    (h : row.pt2ct.lookup r = some o) : row.encipherRune r strict = (o, true) := by
  unfold SimpleSubstitutionCipher.encipherRune
  rw [h]

theorem enc_of_lookup_none {row : SimpleSubstitutionCipher} {r : Rune} (strict : Bool)
    (h : row.pt2ct.lookup r = none) :
    row.encipherRune r strict = (if strict then -1 else r, false) := by
  unfold SimpleSubstitutionCipher.encipherRune
  rw [h]
  cases strict <;> rfl

theorem dec_of_lookup_some {row : SimpleSubstitutionCipher} {r o : Rune} (strict : Bool)
    (h : row.ct2pt.lookup r = some o) : row.decipherRune r strict = (o, true) := by
  unfold SimpleSubstitutionCipher.decipherRune
  rw [h]

theorem dec_of_lookup_none {row : SimpleSubstitutionCipher} {r : Rune} (strict : Bool)
    (h : row.ct2pt.lookup r = none) :
    row.decipherRune r strict = (if strict then -1 else r, false) := by
  unfold SimpleSubstitutionCipher.decipherRune
  rw [h]
  cases strict <;> rfl

theorem zero_enc (r : Rune) (strict : Bool) :
    SimpleSubstitutionCipher.zero.encipherRune r strict = (if strict then -1 else r, false) :=
  enc_of_lookup_none strict rfl

theorem zero_dec (r : Rune) (strict : Bool) :
    SimpleSubstitutionCipher.zero.decipherRune r strict = (if strict then -1 else r, false) :=
  dec_of_lookup_none strict rfl

/-- What `encipherRune` of a built row returns: a transcoded symbol paired with `r` in the zipped
alphabets, or the untranscoded result for a symbol outside the plaintext alphabet. -/
theorem row_enc_cases {pt ct3 : List Rune} {row : SimpleSubstitutionCipher}
    (h : makeSimpleSubstitutionCipher pt ct3 = some row) (r : Rune) (strict : Bool) :
    (∃ o, (r, o) ∈ pt.zip ct3 ∧ row.encipherRune r strict = (o, true)) ∨
    (r ∉ pt ∧ row.encipherRune r strict = (if strict then -1 else r, false)) := by
  cases hl : row.pt2ct.lookup r with
  | some o =>
    left
    refine ⟨o, ?_, enc_of_lookup_some strict hl⟩
    rw [make_pt2ct h] at hl
    exact mem_of_lookup_some hl
  | none =>
    right
    refine ⟨?_, enc_of_lookup_none strict hl⟩
    rw [make_pt2ct h] at hl
    exact (lookup_zip_none_iff (le_of_eq (make_length h)) r).mp hl

theorem row_dec_cases {pt ct3 : List Rune} {row : SimpleSubstitutionCipher}
    (h : makeSimpleSubstitutionCipher pt ct3 = some row) (r : Rune) (strict : Bool) :
    (∃ o, (o, r) ∈ pt.zip ct3 ∧ row.decipherRune r strict = (o, true)) ∨
    (r ∉ ct3 ∧ row.decipherRune r strict = (if strict then -1 else r, false)) := by
  cases hl : row.ct2pt.lookup r with
  | some o =>
    left
    refine ⟨o, ?_, dec_of_lookup_some strict hl⟩
    rw [make_ct2pt h] at hl
    exact mem_zip_swap.mp (mem_of_lookup_some hl)
  | none =>
    right
    refine ⟨?_, dec_of_lookup_none strict hl⟩
    rw [make_ct2pt h] at hl
    exact (lookup_zip_none_iff (le_of_eq (make_length h).symm) r).mp hl

theorem row_enc_of_mem_zip {pt ct3 : List Rune} {row : SimpleSubstitutionCipher}
    (h : makeSimpleSubstitutionCipher pt ct3 = some row) (hpt : pt.Nodup) {r o : Rune}
    (hro : (r, o) ∈ pt.zip ct3) (strict : Bool) : row.encipherRune r strict = (o, true) := by
  apply enc_of_lookup_some
  rw [make_pt2ct h]
  exact (lookup_zip_some_iff hpt r o).mpr hro

theorem row_dec_of_mem_zip {pt ct3 : List Rune} {row : SimpleSubstitutionCipher}
    (h : makeSimpleSubstitutionCipher pt ct3 = some row) (hct : ct3.Nodup) {r o : Rune}
    (hro : (r, o) ∈ pt.zip ct3) (strict : Bool) : row.decipherRune o strict = (r, true) := by
  apply dec_of_lookup_some
  rw [make_ct2pt h]
  exact (lookup_zip_some_iff hct o r).mpr (mem_zip_swap.mpr hro)

/-! ## The table that the constructors fill -/

/-- Where a binding of the filled table comes from: the last visited index that carries the key
rune, or the table the loop started from. -/
theorem fillCiphers_lookup (pt : List Rune) (row : Nat → Option (List Rune)) :
    ∀ (l : List (Nat × Rune)) (m m' : List (Rune × SimpleSubstitutionCipher)),
      fillCiphers pt row l m = some m' → ∀ k,
        (∃ i ct3 c, (i, k) ∈ l ∧ row i = some ct3 ∧
            makeSimpleSubstitutionCipher pt ct3 = some c ∧ m'.lookup k = some c) ∨
        ((∀ i, (i, k) ∉ l) ∧ m'.lookup k = m.lookup k) := by
  intro l
  induction l with
  | nil =>
    intro m m' h k
    simp only [fillCiphers, Option.some.injEq] at h
    subst h
    exact Or.inr ⟨fun i hi => (by cases hi), rfl⟩
  | cons p rest ih =>
    obtain ⟨i, r⟩ := p
    intro m m' h k
    simp only [fillCiphers] at h
    cases hrow : row i with
    | none => simp only [hrow] at h; cases h
    | some ct3 =>
      simp only [hrow] at h
      cases hmk : makeSimpleSubstitutionCipher pt ct3 with
      | none => simp only [hmk] at h; cases h
      | some c =>
        simp only [hmk] at h
        rcases ih _ _ h k with ⟨i', ct', c', hmem, hr', hm', hl'⟩ | ⟨hno, hl⟩
        · exact Or.inl ⟨i', ct', c', List.mem_cons_of_mem _ hmem, hr', hm', hl'⟩
        · by_cases hk : k = r
          · subst hk
            rw [lookup_cons_self] at hl
            exact Or.inl ⟨i, ct3, c, List.mem_cons_self _ _, hrow, hmk, hl⟩
          · rw [lookup_cons_ne _ _ hk] at hl
            refine Or.inr ⟨?_, hl⟩
            intro i' hi'
            rcases List.mem_cons.mp hi' with heq | hin
            · cases heq; exact hk rfl
            · exact hno i' hin

/-- The loop completes when every row expression yields a row as long as the plaintext
alphabet. -/
theorem fillCiphers_isSome (pt : List Rune) (row : Nat → Option (List Rune)) :
    ∀ (l : List (Nat × Rune)) (m : List (Rune × SimpleSubstitutionCipher)),
      (∀ p ∈ l, ∃ ct3, row p.1 = some ct3 ∧ pt.length = ct3.length) →
      ∃ m', fillCiphers pt row l m = some m' := by
  intro l
  induction l with
  | nil => intro m _; exact ⟨m, rfl⟩
  | cons p rest ih =>
    obtain ⟨i, r⟩ := p
    intro m h
    obtain ⟨ct3, hrow, hlen⟩ := h (i, r) (List.mem_cons_self _ _)
    obtain ⟨c, hc⟩ := make_of_length hlen
    obtain ⟨m', hm'⟩ := ih ((r, c) :: m) (fun p hp => h p (List.mem_cons_of_mem _ hp))
    refine ⟨m', ?_⟩
    simp only [fillCiphers, hrow, hc]
    exact hm'

theorem owrapString_perm {s out : List Rune} {i : Nat} (h : owrapString s i = some out) :
    out.Perm s := by
  unfold owrapString at h
  simp only at h
  split at h
  · cases h
  · split at h
    · cases h
    · cases h
      unfold wrapString
      have h1 := List.rotate_perm (s.take (s.length / 2)) i
      have h2 := List.rotate_perm (s.drop (s.length / 2))
        ((s.drop (s.length / 2)).length - i)
      have h3 := List.Perm.append h1 h2
      rw [List.take_append_drop] at h3
      exact h3

theorem vigenere_ciphers {K pt ct key : List Rune} {c : VigenereFamilyCipher}
    (h : MakeVigenereFamilyCipher K pt ct key = some c) :
    fillCiphers pt (fun i => some (wrapString ct i)) key.enum [] = some c.ciphers ∧
    c.countersign = K ∧ c.Textautoclave = false ∧ c.Keyautoclave = false ∧
    c.ptAlphabet = pt ∧ c.ctAlphabet = ct ∧ c.keyAlphabet = key := by
  unfold MakeVigenereFamilyCipher at h
  cases hf : fillCiphers pt (fun i => some (wrapString ct i)) key.enum [] with
  | none => rw [hf] at h; cases h
  | some m => rw [hf] at h; cases h; exact ⟨rfl, rfl, rfl, rfl, rfl, rfl, rfl⟩

theorem dellaPorta_ciphers {K pt ct key : List Rune} {c : VigenereFamilyCipher}
    (h : MakeDellaPortaReciprocalTable K pt ct key = some c) :
    ct.length % 2 = 0 ∧
    fillCiphers pt (fun i => owrapString (wrapString ct (ct.length / 2)) (i / 2)) key.enum []
      = some c.ciphers ∧
    c.countersign = K ∧ c.Textautoclave = false ∧ c.Keyautoclave = false ∧
    c.ptAlphabet = pt ∧ c.ctAlphabet = ct ∧ c.keyAlphabet = key := by
  unfold MakeDellaPortaReciprocalTable at h
  by_cases hodd : ct.length % 2 ≠ 0
  · rw [if_pos hodd] at h; cases h
  · rw [if_neg hodd] at h
    simp only at h
    cases hf : fillCiphers pt (fun i => owrapString (wrapString ct (ct.length / 2)) (i / 2))
        key.enum [] with
    | none => rw [hf] at h; cases h
    | some m =>
      rw [hf] at h; cases h
      exact ⟨not_not.mp hodd, rfl, rfl, rfl, rfl, rfl, rfl, rfl⟩

theorem vigenere_tableOver {K pt ct key : List Rune} {c : VigenereFamilyCipher}
    (h : MakeVigenereFamilyCipher K pt ct key = some c) : TableOver c.ciphers pt ct := by
  intro k row hrow
  rcases fillCiphers_lookup _ _ _ _ _ (vigenere_ciphers h).1 k with
    ⟨i, ct3, c', _, hr, hm, hl⟩ | ⟨_, hl⟩
  · rw [hl] at hrow
    cases hrow
    cases hr
    exact ⟨_, List.rotate_perm ct i, hm⟩
  · rw [hl] at hrow; cases hrow

theorem dellaPorta_tableOver {K pt ct key : List Rune} {c : VigenereFamilyCipher}
    (h : MakeDellaPortaReciprocalTable K pt ct key = some c) : TableOver c.ciphers pt ct := by
  intro k row hrow
  rcases fillCiphers_lookup _ _ _ _ _ (dellaPorta_ciphers h).2.1 k with
    ⟨i, ct3, c', _, hr, hm, hl⟩ | ⟨_, hl⟩
  · rw [hl] at hrow
    cases hrow
    exact ⟨ct3, (owrapString_perm hr).trans (List.rotate_perm ct _), hm⟩
  · rw [hl] at hrow; cases hrow

/-! ## One call of the closures -/

theorem key_read {keyRunes : List Rune} (h : keyRunes ≠ []) (n : Nat) :
    ∃ k, k ∈ keyRunes ∧ keyRunes[n % keyRunes.length]? = some k := by
  have hpos : 0 < keyRunes.length := List.length_pos.mpr h
  have hlt : n % keyRunes.length < keyRunes.length := Nat.mod_lt _ hpos
  exact ⟨keyRunes[n % keyRunes.length], List.getElem_mem _, List.getElem?_eq_getElem hlt⟩

theorem encipherMapping_ok {c : VigenereFamilyCipher} {strict : Bool} {st : KeyStream}
    {r k o : Rune}
    (hk : st.keyRunes[st.transcodedCharCount % st.keyRunes.length]? = some k)
    (he : (c.cipherAt k).encipherRune r strict = (o, true)) :
    c.encipherMapping strict st r =
      some ({ keyRunes := st.keyRunes ++ feedback c r o
              transcodedCharCount := st.transcodedCharCount + 1 }, o) := by
  unfold VigenereFamilyCipher.encipherMapping feedback
  simp only [hk, he]
  cases c.Textautoclave <;> cases c.Keyautoclave <;> simp

theorem encipherMapping_skip {c : VigenereFamilyCipher} {strict : Bool} {st : KeyStream}
    {r k o : Rune}
    (hk : st.keyRunes[st.transcodedCharCount % st.keyRunes.length]? = some k)
    (he : (c.cipherAt k).encipherRune r strict = (o, false)) :
    c.encipherMapping strict st r = some (st, o) := by
  unfold VigenereFamilyCipher.encipherMapping
  simp only [hk, he]
  simp

theorem decipherMapping_ok {c : VigenereFamilyCipher} {strict : Bool} {st : KeyStream}
    {r k o : Rune}
    (hk : st.keyRunes[st.transcodedCharCount % st.keyRunes.length]? = some k)
    (he : (c.cipherAt k).decipherRune r strict = (o, true)) :
    c.decipherMapping strict st r =
      some ({ keyRunes := st.keyRunes ++ feedback c o r
              transcodedCharCount := st.transcodedCharCount + 1 }, o) := by
  unfold VigenereFamilyCipher.decipherMapping feedback
  simp only [hk, he]
  cases c.Textautoclave <;> cases c.Keyautoclave <;> simp

theorem decipherMapping_skip {c : VigenereFamilyCipher} {strict : Bool} {st : KeyStream}
    {r k o : Rune}
    (hk : st.keyRunes[st.transcodedCharCount % st.keyRunes.length]? = some k)
    (he : (c.cipherAt k).decipherRune r strict = (o, false)) :
    c.decipherMapping strict st r = some (st, o) := by
  unfold VigenereFamilyCipher.decipherMapping
  simp only [hk, he]
  simp

theorem encipherMapping_empty (c : VigenereFamilyCipher) (strict : Bool) (n : Nat) (r : Rune) :
    c.encipherMapping strict { keyRunes := [], transcodedCharCount := n } r = none := by
  unfold VigenereFamilyCipher.encipherMapping
  simp

theorem decipherMapping_empty (c : VigenereFamilyCipher) (strict : Bool) (n : Nat) (r : Rune) :
    c.decipherMapping strict { keyRunes := [], transcodedCharCount := n } r = none := by
  unfold VigenereFamilyCipher.decipherMapping
  simp

/-- The row read for a key rune is a built row of the table or the zero value. -/
theorem cipherAt_cases {c : VigenereFamilyCipher} {pt ct : List Rune}
    (hT : TableOver c.ciphers pt ct) (k : Rune) :
    (∃ ct3, ct3.Perm ct ∧ makeSimpleSubstitutionCipher pt ct3 = some (c.cipherAt k) ∧
        (c.ciphers.lookup k).isSome) ∨
    (c.cipherAt k = SimpleSubstitutionCipher.zero ∧ c.ciphers.lookup k = none) := by
  unfold VigenereFamilyCipher.cipherAt
  cases h : c.ciphers.lookup k with
  | none => exact Or.inr ⟨rfl, rfl⟩
  | some row =>
    obtain ⟨ct3, hp, hm⟩ := hT k row h
    exact Or.inl ⟨ct3, hp, hm, rfl⟩

theorem stringsMap_cons {σ : Type} (mapping : σ → Rune → Option (σ × Rune)) (st st1 st2 : σ)
    (r o : Rune) (rest out : List Rune) (h1 : mapping st r = some (st1, o))
    (h2 : stringsMap mapping st1 rest = some (st2, out)) :
    stringsMap mapping st (r :: rest) = some (st2, if 0 ≤ o then o :: out else out) := by
  simp only [stringsMap, h1, h2]

theorem stringsMap_append {σ : Type} (mapping : σ → Rune → Option (σ × Rune)) :
    ∀ (s1 s2 : List Rune) (st st1 st2 : σ) (out1 out2 : List Rune),
      stringsMap mapping st s1 = some (st1, out1) →
      stringsMap mapping st1 s2 = some (st2, out2) →
      stringsMap mapping st (s1 ++ s2) = some (st2, out1 ++ out2) := by
  intro s1
  induction s1 with
  | nil =>
    intro s2 st st1 st2 out1 out2 h1 h2
    simp only [stringsMap, Option.some.injEq, Prod.mk.injEq] at h1
    obtain ⟨rfl, rfl⟩ := h1
    simpa using h2
  | cons r rest ih =>
    intro s2 st st1 st2 out1 out2 h1 h2
    simp only [stringsMap] at h1
    cases hm : mapping st r with
    | none => simp only [hm] at h1; cases h1
    | some p =>
      obtain ⟨sta, o⟩ := p
      simp only [hm] at h1
      cases hr : stringsMap mapping sta rest with
      | none => simp only [hr] at h1; cases h1
      | some q =>
        obtain ⟨stb, outa⟩ := q
        simp only [hr, Option.some.injEq, Prod.mk.injEq] at h1
        obtain ⟨rfl, rfl⟩ := h1
        have := ih s2 sta stb st2 outa out2 hr h2
        rw [List.cons_append, stringsMap_cons mapping st sta st2 r o _ _ hm this]
        split <;> simp

/-! ## Deciphering undoes enciphering, step by step -/

theorem feedback_mem {c : VigenereFamilyCipher} {a b x : Rune} (h : x ∈ feedback c a b) :
    (c.Textautoclave = true ∧ x = a) ∨ (c.Keyautoclave = true ∧ x = b) := by
  unfold feedback at h
  by_cases ht : c.Textautoclave = true
  · rw [if_pos ht] at h
    exact Or.inl ⟨ht, List.mem_singleton.mp h⟩
  · rw [if_neg ht] at h
    by_cases hk : c.Keyautoclave = true
    · rw [if_pos hk] at h
      exact Or.inr ⟨hk, List.mem_singleton.mp h⟩
    · rw [if_neg hk] at h
      cases h

theorem roundtrip_step {c : VigenereFamilyCipher} {pt ct : List Rune} {strict : Bool}
    (hT : TableOver c.ciphers pt ct) (hct : ct.Nodup)
    (htpt : IsText pt) (htct : IsText ct) (hfb : FeedbackOK c strict pt ct)
    {st : KeyStream} (hst : KeyOK c strict st) {r : Rune} (hr : Admissible strict pt ct r) :
    ∃ st1 o, c.encipherMapping strict st r = some (st1, o) ∧
      c.decipherMapping strict st o = some (st1, r) ∧ 0 ≤ o ∧ 0 ≤ r ∧ KeyOK c strict st1 := by
  obtain ⟨k, hkmem, hk⟩ := key_read hst.1 st.transcodedCharCount
  have hr0 : 0 ≤ r := by
    rcases hr with h | ⟨_, h, _⟩
    · exact htpt r h
    · exact h
  rcases cipherAt_cases hT k with ⟨ct3, hperm, hmk, _⟩ | ⟨hz, hnone⟩
  · have hct3 : ct3.Nodup := hperm.nodup_iff.mpr hct
    rcases row_enc_cases hmk r strict with ⟨o, hro, henc⟩ | ⟨hrpt, henc⟩
    · have ho : o ∈ ct := hperm.subset (List.of_mem_zip hro).2
      have hrp : r ∈ pt := (List.of_mem_zip hro).1
      have hdec := row_dec_of_mem_zip hmk hct3 hro strict
      refine ⟨_, o, encipherMapping_ok hk henc, ?_, htct o ho, hr0, ?_, ?_⟩
      · rw [decipherMapping_ok hk hdec]
      · intro h
        exact hst.1 (List.append_eq_nil.mp h).1
      · intro hs x hx
        rcases List.mem_append.mp hx with hx | hx
        · exact hst.2 hs x hx
        · rcases feedback_mem hx with ⟨ht, rfl⟩ | ⟨hka, rfl⟩
          · exact (hfb hs).1 ht _ hrp
          · exact (hfb hs).2 hka _ ho
    · rcases hr with h | ⟨hs, _, hrct⟩
      · exact absurd h hrpt
      · subst hs
        have hrct3 : r ∉ ct3 := fun h => hrct (hperm.subset h)
        rcases row_dec_cases hmk r false with ⟨o, hro, _⟩ | ⟨_, hdec⟩
        · exact absurd (List.of_mem_zip hro).2 hrct3
        · refine ⟨st, r, encipherMapping_skip hk henc, decipherMapping_skip hk hdec, hr0, hr0,
            hst⟩
  · have hs : strict = false := by
      cases strict
      · rfl
      · have := hst.2 rfl k hkmem
        rw [hnone] at this
        cases this
    subst hs
    have henc := zero_enc r false
    have hdec := zero_dec r false
    rw [← hz] at henc hdec
    exact ⟨st, r, encipherMapping_skip hk henc, decipherMapping_skip hk hdec, hr0, hr0, hst⟩

/-- Enciphering from a usable key stream returns an output of the same length, and deciphering
that output from the same key stream returns the input and ends in the same key stream. -/
theorem roundtrip_run {c : VigenereFamilyCipher} {pt ct : List Rune} {strict : Bool}
    (hT : TableOver c.ciphers pt ct) (hct : ct.Nodup)
    (htpt : IsText pt) (htct : IsText ct) (hfb : FeedbackOK c strict pt ct) :
    ∀ (S : List Rune) (st : KeyStream), KeyOK c strict st →
      (∀ r ∈ S, Admissible strict pt ct r) →
      ∃ st1 E, stringsMap (c.encipherMapping strict) st S = some (st1, E) ∧
        stringsMap (c.decipherMapping strict) st E = some (st1, S) ∧ E.length = S.length ∧
        KeyOK c strict st1 := by
  intro S
  induction S with
  | nil => intro st hst _; exact ⟨st, [], rfl, rfl, rfl, hst⟩
  | cons r rest ih =>
    intro st hst hS
    obtain ⟨st1, o, henc, hdec, ho, hr0, hst1⟩ :=
      roundtrip_step hT hct htpt htct hfb hst (hS r (List.mem_cons_self _ _))
    obtain ⟨st2, E, hE, hD, hlen, hst2⟩ :=
      ih st1 hst1 (fun x hx => hS x (List.mem_cons_of_mem _ hx))
    refine ⟨st2, o :: E, ?_, ?_, by simp [hlen], hst2⟩
    · rw [stringsMap_cons _ st st1 st2 r o rest E henc hE, if_pos ho]
    · rw [stringsMap_cons _ st st1 st2 o r E rest hdec hD, if_pos hr0]

/-- The round trip holds after every prefix: the key stream reached by enciphering the first `j`
symbols is the key stream reached by deciphering the first `j` symbols of the output. -/
theorem roundtrip_prefix {c : VigenereFamilyCipher} {pt ct : List Rune} {strict : Bool}
    (hT : TableOver c.ciphers pt ct) (hct : ct.Nodup)
    (htpt : IsText pt) (htct : IsText ct) (hfb : FeedbackOK c strict pt ct)
    (S : List Rune) (st : KeyStream) (hst : KeyOK c strict st)
    (hS : ∀ r ∈ S, Admissible strict pt ct r) :
    ∃ st1 E, stringsMap (c.encipherMapping strict) st S = some (st1, E) ∧
      stringsMap (c.decipherMapping strict) st E = some (st1, S) ∧ E.length = S.length ∧
      ∀ j, ∃ stj, stringsMap (c.encipherMapping strict) st (S.take j) = some (stj, E.take j) ∧
        stringsMap (c.decipherMapping strict) st (E.take j) = some (stj, S.take j) := by
  obtain ⟨st1, E, hE, hD, hlen, _⟩ := roundtrip_run hT hct htpt htct hfb S st hst hS
  refine ⟨st1, E, hE, hD, hlen, ?_⟩
  intro j
  obtain ⟨stj, Ej, hEj, hDj, hlenj, hstj⟩ :=
    roundtrip_run hT hct htpt htct hfb (S.take j) st hst
      (fun r hr => hS r (List.mem_of_mem_take hr))
  obtain ⟨st2, E2, hE2, _, _, _⟩ :=
    roundtrip_run hT hct htpt htct hfb (S.drop j) stj hstj
      (fun r hr => hS r (List.mem_of_mem_drop hr))
  have happ := stringsMap_append _ _ _ _ _ _ _ _ hEj hE2
  rw [List.take_append_drop, hE] at happ
  have hEeq : E = Ej ++ E2 := by
    simp only [Option.some.injEq, Prod.mk.injEq] at happ
    exact happ.2
  have htake : E.take j = Ej := by
    rw [hEeq]
    by_cases hj : j ≤ S.length
    · have : Ej.length = j := by rw [hlenj, List.length_take]; omega
      rw [← this, List.take_left]
    · have hj' : S.length ≤ j := by omega
      have hl : (Ej ++ E2).length ≤ j := by rw [← hEeq, hlen]; exact hj'
      rw [List.take_of_length_le hl]
      have hE2nil : E2 = [] := by
        have h1 : (Ej ++ E2).length = S.length := by rw [← hEeq, hlen]
        rw [List.length_append, hlenj, List.take_of_length_le hj'] at h1
        exact List.length_eq_zero.mp (by omega)
      rw [hE2nil, List.append_nil]
  rw [htake]
  exact ⟨stj, hEj, hDj⟩

/-- A rune of the key alphabet has a row once the loop has completed. -/
theorem fillCiphers_isSome_of_mem {pt : List Rune} {row : Nat → Option (List Rune)}
    {key : List Rune} {m : List (Rune × SimpleSubstitutionCipher)}
    (h : fillCiphers pt row key.enum [] = some m) {k : Rune} (hk : k ∈ key) :
    (m.lookup k).isSome := by
  rcases fillCiphers_lookup _ _ _ _ _ h k with ⟨i, ct3, c', _, _, _, hl⟩ | ⟨hno, _⟩
  · rw [hl]; rfl
  · obtain ⟨i, hi, hget⟩ := List.getElem_of_mem hk
    exact absurd (List.mk_mem_enum_iff_getElem?.mpr
      (by rw [List.getElem?_eq_getElem hi, hget])) (hno i)

/-- What the two table constructors guarantee about the value they return. -/
theorem built_facts {K pt ct key : List Rune} {c : VigenereFamilyCipher}
    (hc : MakeVigenereFamilyCipher K pt ct key = some c ∨
      MakeDellaPortaReciprocalTable K pt ct key = some c) :
    TableOver c.ciphers pt ct ∧ c.countersign = K ∧ c.Textautoclave = false ∧
      c.Keyautoclave = false ∧ (∀ k ∈ key, (c.ciphers.lookup k).isSome) := by
  rcases hc with h | h
  · have hf := vigenere_ciphers h
    exact ⟨vigenere_tableOver h, hf.2.1, hf.2.2.1, hf.2.2.2.1,
      fun k hk => fillCiphers_isSome_of_mem hf.1 hk⟩
  · have hf := dellaPorta_ciphers h
    exact ⟨dellaPorta_tableOver h, hf.2.2.1, hf.2.2.2.1, hf.2.2.2.2.1,
      fun k hk => fillCiphers_isSome_of_mem hf.2.1 hk⟩

theorem vigenere_isSome (K pt ct key : List Rune) (hlen : pt.length = ct.length) :
    ∃ c, MakeVigenereFamilyCipher K pt ct key = some c := by
  obtain ⟨m, hm⟩ := fillCiphers_isSome pt (fun i => some (wrapString ct i)) key.enum []
    (fun p _ => ⟨_, rfl, by unfold wrapString; rw [List.length_rotate]; exact hlen⟩)
  unfold MakeVigenereFamilyCipher
  rw [hm]
  exact ⟨_, rfl⟩

theorem admissible_of_text {strict : Bool} {A S : List Rune} (htS : IsText S)
    (hmode : strict = false ∨ ∀ r ∈ S, r ∈ A) : ∀ r ∈ S, Admissible strict A A r := by
  intro r hr
  by_cases hrA : r ∈ A
  · exact Or.inl hrA
  · rcases hmode with hs | hall
    · exact Or.inr ⟨hs, htS r hr, hrA⟩
    · exact absurd (hall r hr) hrA

/-- C2 (amended): for a cipher built by either table constructor (so with neither autoclave flag
set) over a ciphertext alphabet of distinct symbols, with a non-empty countersign that in strict
mode lies in the key alphabet, deciphering the encipherment of any string over the plaintext
alphabet returns that string. -/
theorem roundtrip_without_autoclave (K pt ct key S : List Rune) (strict : Bool)
    (c : VigenereFamilyCipher)
    (hc : MakeVigenereFamilyCipher K pt ct key = some c ∨
      MakeDellaPortaReciprocalTable K pt ct key = some c)
    (hct : ct.Nodup) (htpt : IsText pt) (htct : IsText ct)
    (hK : K ≠ []) (hkey : strict = true → ∀ k ∈ K, k ∈ key) (hS : ∀ r ∈ S, r ∈ pt) :
    c.Textautoclave = false ∧ c.Keyautoclave = false ∧
      ∃ E, c.Encipher S strict = some E ∧ c.Decipher E strict = some S := by
  obtain ⟨hT, hcs, hta, hka, hdom⟩ := built_facts hc
  have hfb : FeedbackOK c strict pt ct := by
    intro _
    rw [hta, hka]
    exact ⟨fun h => (by cases h), fun h => (by cases h)⟩
  have hst : KeyOK c strict c.start := by
    unfold VigenereFamilyCipher.start
    rw [hcs]
    exact ⟨hK, fun hs k hk => hdom k (hkey hs k hk)⟩
  obtain ⟨st1, E, hE, hD, _, _⟩ :=
    roundtrip_run hT hct htpt htct hfb S c.start hst (fun r hr => Or.inl (hS r hr))
  refine ⟨hta, hka, E, ?_, ?_⟩
  · unfold VigenereFamilyCipher.Encipher VigenereFamilyCipher.encipherRun
    rw [hE]; rfl
  · unfold VigenereFamilyCipher.Decipher VigenereFamilyCipher.decipherRun
    rw [hD]; rfl

/-- The autoclave ciphers: what is known of a Vigenere cipher whose autoclave flags were set
after construction. -/
theorem autoclave_facts {K A : List Rune} {c0 : VigenereFamilyCipher}
    (hc0 : MakeVigenereCipher K A = some c0) (c : VigenereFamilyCipher)
    (hcip : c.ciphers = c0.ciphers) (hcsn : c.countersign = c0.countersign) (strict : Bool)
    (hK : K ≠ []) (hKA : strict = true → ∀ k ∈ K, k ∈ A) :
    TableOver c.ciphers A A ∧ FeedbackOK c strict A A ∧ KeyOK c strict c.start := by
  obtain ⟨hT, hcs, _, _, hdom⟩ := built_facts (Or.inl hc0)
  rw [← hcip] at hT hdom
  rw [← hcsn] at hcs
  refine ⟨hT, ?_, ?_⟩
  · intro _
    exact ⟨fun _ => hdom, fun _ => hdom⟩
  · unfold VigenereFamilyCipher.start
    rw [hcs]
    exact ⟨hK, fun hs k hk => hdom k (hKA hs k hk)⟩

/-- C3 (amended): for the cipher built by `MakeVigenereTextAutoclaveCipher` over an alphabet of
distinct symbols with a non-empty countersign, in non-strict mode for any input, and in strict
mode when the countersign and the input lie in the alphabet, `Decipher(Encipher(S)) = S`, and
deciphering ends with exactly the key stream that enciphering built. -/
theorem text_autoclave_roundtrip (K A S : List Rune) (strict : Bool)
    (hA : A.Nodup) (htA : IsText A) (hK : K ≠ []) (htS : IsText S)
    (hmode : strict = false ∨ ((∀ k ∈ K, k ∈ A) ∧ ∀ r ∈ S, r ∈ A)) :
    ∃ c, MakeVigenereTextAutoclaveCipher K A = some c ∧
      ∃ E, c.Encipher S strict = some E ∧ c.Decipher E strict = some S ∧
        ∃ st, c.encipherRun S strict = some (st, E) ∧ c.decipherRun E strict = some (st, S) := by
  obtain ⟨c0, hc0⟩ := vigenere_isSome K A A A rfl
  have hKA : strict = true → ∀ k ∈ K, k ∈ A := by
    intro hs
    rcases hmode with h | h
    · rw [hs] at h; cases h
    · exact h.1
  have hSA : strict = false ∨ ∀ r ∈ S, r ∈ A := hmode.imp id And.right
  obtain ⟨hT, hfb, hst⟩ :=
    autoclave_facts hc0 { c0 with Textautoclave := true } rfl rfl strict hK hKA
  obtain ⟨st1, E, hE, hD, _, _⟩ :=
    roundtrip_run hT hA htA htA hfb S _ hst (admissible_of_text htS hSA)
  refine ⟨_, ?_, E, ?_, ?_, st1, hE, hD⟩
  · unfold MakeVigenereTextAutoclaveCipher
    rw [show MakeVigenereCipher K A = some c0 from hc0]
    rfl
  · unfold VigenereFamilyCipher.Encipher VigenereFamilyCipher.encipherRun
    rw [hE]; rfl
  · unfold VigenereFamilyCipher.Decipher VigenereFamilyCipher.decipherRun
    rw [hD]; rfl

/-- C4 (amended): for the cipher built by `MakeVigenereKeyAutoclaveCipher` with a non-empty
countersign over an alphabet of distinct symbols, in non-strict mode for every input and in
strict mode for every input over the alphabet, after every number `j` of symbols the key stream
(and count) reached while deciphering `Encipher(S)` is the one reached while enciphering `S`, and
`Decipher(Encipher(S)) = S`. -/
theorem key_autoclave_symmetry (K A S : List Rune) (strict : Bool)
    (hA : A.Nodup) (htA : IsText A) (hK : K ≠ []) (hKA : ∀ k ∈ K, k ∈ A) (htS : IsText S)
    (hmode : strict = false ∨ ∀ r ∈ S, r ∈ A) :
    ∃ c, MakeVigenereKeyAutoclaveCipher K A = some c ∧
      ∃ E, c.Encipher S strict = some E ∧ c.Decipher E strict = some S ∧
        ∀ j, ∃ stj, c.encipherRun (S.take j) strict = some (stj, E.take j) ∧
          c.decipherRun (E.take j) strict = some (stj, S.take j) := by
  obtain ⟨c0, hc0⟩ := vigenere_isSome K A A A rfl
  obtain ⟨hT, hfb, hst⟩ :=
    autoclave_facts hc0 { c0 with Keyautoclave := true } rfl rfl strict hK (fun _ => hKA)
  obtain ⟨st1, E, hE, hD, _, hpre⟩ :=
    roundtrip_prefix hT hA htA htA hfb S _ hst (admissible_of_text htS hmode)
  refine ⟨_, ?_, E, ?_, ?_, hpre⟩
  · unfold MakeVigenereKeyAutoclaveCipher
    rw [show MakeVigenereCipher K A = some c0 from hc0]
    rfl
  · unfold VigenereFamilyCipher.Encipher VigenereFamilyCipher.encipherRun
    rw [hE]; rfl
  · unfold VigenereFamilyCipher.Decipher VigenereFamilyCipher.decipherRun
    rw [hD]; rfl

/-! ## Symbols outside the alphabet -/

theorem encipher_stepSpec {c : VigenereFamilyCipher} {pt ct : List Rune}
    (hT : TableOver c.ciphers pt ct) (strict : Bool) :
    StepSpec (c.encipherMapping strict) strict pt ct := by
  intro st r hst
  obtain ⟨k, _, hk⟩ := key_read hst st.transcodedCharCount
  rcases cipherAt_cases hT k with ⟨ct3, hperm, hmk, _⟩ | ⟨hz, _⟩
  · rcases row_enc_cases hmk r strict with ⟨o, hro, henc⟩ | ⟨hrpt, henc⟩
    · refine ⟨_, o, encipherMapping_ok hk henc, ?_, ?_, ?_⟩
      · intro h
        exact hst (List.append_eq_nil.mp h).1
      · intro hn
        exact absurd (List.of_mem_zip hro).1 hn
      · exact Or.inl (hperm.subset (List.of_mem_zip hro).2)
    · exact ⟨st, _, encipherMapping_skip hk henc, hst, fun _ => ⟨rfl, rfl⟩, Or.inr rfl⟩
  · have henc := zero_enc r strict
    rw [← hz] at henc
    exact ⟨st, _, encipherMapping_skip hk henc, hst, fun _ => ⟨rfl, rfl⟩, Or.inr rfl⟩

theorem decipher_stepSpec {c : VigenereFamilyCipher} {pt ct : List Rune}
    (hT : TableOver c.ciphers pt ct) (strict : Bool) :
    StepSpec (c.decipherMapping strict) strict ct pt := by
  intro st r hst
  obtain ⟨k, _, hk⟩ := key_read hst st.transcodedCharCount
  rcases cipherAt_cases hT k with ⟨ct3, hperm, hmk, _⟩ | ⟨hz, _⟩
  · rcases row_dec_cases hmk r strict with ⟨o, hro, hdec⟩ | ⟨hrct, hdec⟩
    · refine ⟨_, o, decipherMapping_ok hk hdec, ?_, ?_, ?_⟩
      · intro h
        exact hst (List.append_eq_nil.mp h).1
      · intro hn
        exact absurd (hperm.subset (List.of_mem_zip hro).2) hn
      · exact Or.inl (List.of_mem_zip hro).1
    · exact ⟨st, _, decipherMapping_skip hk hdec, hst, fun _ => ⟨rfl, rfl⟩, Or.inr rfl⟩
  · have hdec := zero_dec r strict
    rw [← hz] at hdec
    exact ⟨st, _, decipherMapping_skip hk hdec, hst, fun _ => ⟨rfl, rfl⟩, Or.inr rfl⟩

/-- Non-strict mode: the output has the length of the input, a symbol outside `dom` stays where
it is, and the other positions hold the output for the input without those symbols. -/
theorem passthrough_run {f : KeyStream → Rune → Option (KeyStream × Rune)}
    {dom cod : List Rune} (hf : StepSpec f false dom cod) (hcod : IsText cod) :
    ∀ (S : List Rune) (st : KeyStream), st.keyRunes ≠ [] → IsText S →
      ∃ st1 E, stringsMap f st S = some (st1, E) ∧ E.length = S.length ∧
        (∀ (j : Nat) (r : Rune), S[j]? = some r → r ∉ dom → E[j]? = some r) ∧
        stringsMap f st (S.filter (fun r => decide (r ∈ dom))) =
          some (st1, ((S.zip E).filter (fun p => decide (p.1 ∈ dom))).map Prod.snd) := by
  intro S
  induction S with
  | nil => intro st _ _; exact ⟨st, [], rfl, rfl, fun j r h => by simp at h, rfl⟩
  | cons r rest ih =>
    intro st hst hS
    have hr0 : 0 ≤ r := hS r (List.mem_cons_self _ _)
    have hrest : IsText rest := fun x hx => hS x (List.mem_cons_of_mem _ hx)
    obtain ⟨st1, o, hstep, hst1, hout, hcases⟩ := hf st r hst
    have ho : 0 ≤ o := by
      rcases hcases with h | h
      · exact hcod o h
      · rw [h]; exact hr0
    obtain ⟨st2, E, hE, hlen, hpos, hfil⟩ := ih st1 hst1 hrest
    have hrun : stringsMap f st (r :: rest) = some (st2, o :: E) := by
      rw [stringsMap_cons f st st1 st2 r o rest E hstep hE, if_pos ho]
    refine ⟨st2, o :: E, hrun, by simp [hlen], ?_, ?_⟩
    · intro j x hj hx
      cases j with
      | zero =>
        simp only [List.getElem?_cons_zero, Option.some.injEq] at hj
        subst hj
        rw [(hout hx).2]
        simp
      | succ j =>
        simp only [List.getElem?_cons_succ] at hj ⊢
        exact hpos j x hj hx
    · by_cases hr : r ∈ dom
      · have h1 : (r :: rest).filter (fun r => decide (r ∈ dom)) =
            r :: rest.filter (fun r => decide (r ∈ dom)) := by
          rw [List.filter_cons_of_pos (by simpa using hr)]
        rw [h1, List.zip_cons_cons, List.filter_cons_of_pos (by simpa using hr), List.map_cons,
          stringsMap_cons f st st1 st2 r o _ _ hstep hfil, if_pos ho]
      · obtain ⟨hsame, _⟩ := hout hr
        subst hsame
        have h1 : (r :: rest).filter (fun r => decide (r ∈ dom)) =
            rest.filter (fun r => decide (r ∈ dom)) := by
          rw [List.filter_cons_of_neg (by simpa using hr)]
        rw [h1, List.zip_cons_cons, List.filter_cons_of_neg (by simpa using hr)]
        exact hfil

/-- Strict mode: the call returns an output string, the one it returns for the input without
the symbols outside `dom`; those symbols are deleted. -/
theorem strict_run {f : KeyStream → Rune → Option (KeyStream × Rune)}
    {dom cod : List Rune} (hf : StepSpec f true dom cod) :
    ∀ (S : List Rune) (st : KeyStream), st.keyRunes ≠ [] →
      ∃ st1 E, stringsMap f st S = some (st1, E) ∧
        stringsMap f st (S.filter (fun r => decide (r ∈ dom))) = some (st1, E) ∧
        E.length ≤ (S.filter (fun r => decide (r ∈ dom))).length := by
  intro S
  induction S with
  | nil => intro st _; exact ⟨st, [], rfl, rfl, le_refl _⟩
  | cons r rest ih =>
    intro st hst
    obtain ⟨st1, o, hstep, hst1, hout, _⟩ := hf st r hst
    by_cases hr : r ∈ dom
    · obtain ⟨st2, E, hE, hfil, hlen⟩ := ih st1 hst1
      have h1 : (r :: rest).filter (fun r => decide (r ∈ dom)) =
          r :: rest.filter (fun r => decide (r ∈ dom)) := by
        rw [List.filter_cons_of_pos (by simpa using hr)]
      refine ⟨st2, if 0 ≤ o then o :: E else E,
        stringsMap_cons f st st1 st2 r o rest E hstep hE, ?_, ?_⟩
      · rw [h1, stringsMap_cons f st st1 st2 r o _ _ hstep hfil]
      · rw [h1]
        split <;> simp <;> omega
    · obtain ⟨hsame, ho⟩ := hout hr
      subst hsame
      obtain ⟨st2, E, hE, hfil, hlen⟩ := ih st1 hst1
      have h1 : (r :: rest).filter (fun r => decide (r ∈ dom)) =
          rest.filter (fun r => decide (r ∈ dom)) := by
        rw [List.filter_cons_of_neg (by simpa using hr)]
      have hneg : ¬ (0 : Int) ≤ o := by rw [ho]; simp
      refine ⟨st2, E, ?_, ?_, ?_⟩
      · rw [stringsMap_cons f st1 st1 st2 r o rest E hstep hE, if_neg hneg]
      · rw [h1]; exact hfil
      · rw [h1]; exact hlen

theorem start_keyRunes_ne_nil {K pt ct key : List Rune} {c0 : VigenereFamilyCipher}
    (hc0 : MakeVigenereFamilyCipher K pt ct key = some c0 ∨
      MakeDellaPortaReciprocalTable K pt ct key = some c0) (ta ka : Bool) (hK : K ≠ []) :
    (c0.setAutoclave ta ka).start.keyRunes ≠ [] := by
  show c0.countersign ≠ []
  rw [(built_facts hc0).2.1]
  exact hK

theorem setAutoclave_tableOver {K pt ct key : List Rune} {c0 : VigenereFamilyCipher}
    (hc0 : MakeVigenereFamilyCipher K pt ct key = some c0 ∨
      MakeDellaPortaReciprocalTable K pt ct key = some c0) (ta ka : Bool) :
    TableOver (c0.setAutoclave ta ka).ciphers pt ct :=
  (built_facts hc0).1

/-- C5 (amended): for every cipher with a non-empty countersign and every input `S`, in
non-strict mode `Encipher(S)` has the length of `S`, each symbol of `S` outside the plaintext
alphabet appears unchanged at the same position, and the symbols at the remaining positions are
exactly `Encipher(S')` for `S'` the input without its out-of-alphabet symbols. -/
theorem nonstrict_passthrough (K pt ct key S : List Rune) (ta ka : Bool)
    (c0 : VigenereFamilyCipher)
    (hc0 : MakeVigenereFamilyCipher K pt ct key = some c0 ∨
      MakeDellaPortaReciprocalTable K pt ct key = some c0)
    (htct : IsText ct) (htS : IsText S) (hK : K ≠ []) :
    ∃ E, (c0.setAutoclave ta ka).Encipher S false = some E ∧ E.length = S.length ∧
      (∀ (j : Nat) (r : Rune), S[j]? = some r → r ∉ pt → E[j]? = some r) ∧
      (c0.setAutoclave ta ka).Encipher (S.filter (fun r => decide (r ∈ pt))) false =
        some (((S.zip E).filter (fun p => decide (p.1 ∈ pt))).map Prod.snd) := by
  obtain ⟨st1, E, hE, hlen, hpos, hfil⟩ :=
    passthrough_run (encipher_stepSpec (setAutoclave_tableOver hc0 ta ka) false) htct S _
      (start_keyRunes_ne_nil hc0 ta ka hK) htS
  refine ⟨E, ?_, hlen, hpos, ?_⟩
  · unfold VigenereFamilyCipher.Encipher VigenereFamilyCipher.encipherRun
    rw [hE]; rfl
  · unfold VigenereFamilyCipher.Encipher VigenereFamilyCipher.encipherRun
    rw [hfil]; rfl

/-- C6 (amended): for every cipher with a non-empty countersign, every strictness setting and
every input `S`, `Encipher(S)` and `Decipher(S)` return a string with at most the rune count of
`S` (no symbol is inserted), and with exactly the rune count of `S` when `strict` is false. -/
theorem length_never_grows (K pt ct key S : List Rune) (ta ka strict : Bool)
    (c0 : VigenereFamilyCipher)
    (hc0 : MakeVigenereFamilyCipher K pt ct key = some c0 ∨
      MakeDellaPortaReciprocalTable K pt ct key = some c0)
    (htpt : IsText pt) (htct : IsText ct) (htS : IsText S) (hK : K ≠ []) :
    ∃ E D, (c0.setAutoclave ta ka).Encipher S strict = some E ∧ E.length ≤ S.length ∧
      (strict = false → E.length = S.length) ∧
      (c0.setAutoclave ta ka).Decipher S strict = some D ∧ D.length ≤ S.length ∧
      (strict = false → D.length = S.length) := by
  have hT := setAutoclave_tableOver hc0 ta ka
  have hst := start_keyRunes_ne_nil hc0 ta ka hK
  cases strict with
  | false =>
    obtain ⟨_, E, hE, hlenE, _, _⟩ :=
      passthrough_run (encipher_stepSpec hT false) htct S _ hst htS
    obtain ⟨_, D, hD, hlenD, _, _⟩ :=
      passthrough_run (decipher_stepSpec hT false) htpt S _ hst htS
    refine ⟨E, D, ?_, le_of_eq hlenE, fun _ => hlenE, ?_, le_of_eq hlenD, fun _ => hlenD⟩
    · unfold VigenereFamilyCipher.Encipher VigenereFamilyCipher.encipherRun
      rw [hE]; rfl
    · unfold VigenereFamilyCipher.Decipher VigenereFamilyCipher.decipherRun
      rw [hD]; rfl
  | true =>
    obtain ⟨_, E, hE, _, hlenE⟩ := strict_run (encipher_stepSpec hT true) S _ hst
    obtain ⟨_, D, hD, _, hlenD⟩ := strict_run (decipher_stepSpec hT true) S _ hst
    refine ⟨E, D, ?_, le_trans hlenE (List.length_filter_le _ _), fun h => (by cases h), ?_,
      le_trans hlenD (List.length_filter_le _ _), fun h => (by cases h)⟩
    · unfold VigenereFamilyCipher.Encipher VigenereFamilyCipher.encipherRun
      rw [hE]; rfl
    · unfold VigenereFamilyCipher.Decipher VigenereFamilyCipher.decipherRun
      rw [hD]; rfl

/-- C7 (amended): for every cipher with a non-empty countersign and every input `S`, strict
mode signals no error: `Encipher(S, strict=true)` returns the output string of the input without
its symbols outside the plaintext alphabet, so it is shorter than `S` when `S` has such a
symbol; `Decipher` does the same with the ciphertext alphabet. -/
theorem strict_deletes_unknown_symbols (K pt ct key S : List Rune) (ta ka : Bool)
    (c0 : VigenereFamilyCipher)
    (hc0 : MakeVigenereFamilyCipher K pt ct key = some c0 ∨
      MakeDellaPortaReciprocalTable K pt ct key = some c0)
    (hK : K ≠ []) :
    ∃ E D, (c0.setAutoclave ta ka).Encipher S true = some E ∧
      (c0.setAutoclave ta ka).Encipher (S.filter (fun r => decide (r ∈ pt))) true = some E ∧
      ((∃ r ∈ S, r ∉ pt) → E.length < S.length) ∧
      (c0.setAutoclave ta ka).Decipher S true = some D ∧
      (c0.setAutoclave ta ka).Decipher (S.filter (fun r => decide (r ∈ ct))) true = some D ∧
      ((∃ r ∈ S, r ∉ ct) → D.length < S.length) := by
  obtain ⟨_, E, hE, hEf, hlenE⟩ :=
    strict_run (encipher_stepSpec (setAutoclave_tableOver hc0 ta ka) true) S _
      (start_keyRunes_ne_nil hc0 ta ka hK)
  obtain ⟨_, D, hD, hDf, hlenD⟩ :=
    strict_run (decipher_stepSpec (setAutoclave_tableOver hc0 ta ka) true) S _
      (start_keyRunes_ne_nil hc0 ta ka hK)
  refine ⟨E, D, ?_, ?_, ?_, ?_, ?_, ?_⟩
  · unfold VigenereFamilyCipher.Encipher VigenereFamilyCipher.encipherRun
    rw [hE]; rfl
  · unfold VigenereFamilyCipher.Encipher VigenereFamilyCipher.encipherRun
    rw [hEf]; rfl
  · rintro ⟨r, hr, hrpt⟩
    have : (S.filter (fun r => decide (r ∈ pt))).length < S.length :=
      List.length_filter_lt_length_iff_exists.mpr ⟨r, hr, by simpa using hrpt⟩
    omega
  · unfold VigenereFamilyCipher.Decipher VigenereFamilyCipher.decipherRun
    rw [hD]; rfl
  · unfold VigenereFamilyCipher.Decipher VigenereFamilyCipher.decipherRun
    rw [hDf]; rfl
  · rintro ⟨r, hr, hrct⟩
    have : (S.filter (fun r => decide (r ∈ ct))).length < S.length :=
      List.length_filter_lt_length_iff_exists.mpr ⟨r, hr, by simpa using hrct⟩
    omega

/-! ## Rows by index -/

theorem mem_zip_of_getElem? {X Y : List Rune} {p : Nat} {r s : Rune}
    (hX : X[p]? = some r) (hY : Y[p]? = some s) : (r, s) ∈ X.zip Y :=
  List.getElem?_mem (List.getElem?_zip_eq_some.mpr ⟨hX, hY⟩)

theorem getElem?_of_mem_zip {X Y : List Rune} {r s : Rune} (h : (r, s) ∈ X.zip Y) :
    ∃ p : Nat, X[p]? = some r ∧ Y[p]? = some s := by
  obtain ⟨p, hp⟩ := List.getElem?_of_mem h
  exact ⟨p, List.getElem?_zip_eq_some.mp hp⟩

theorem nodup_index_unique {l : List Rune} (hl : l.Nodup) {i j : Nat} {k : Rune}
    (hi : l[i]? = some k) (hj : l[j]? = some k) : i = j := by
  obtain ⟨hi', hik⟩ := List.getElem?_eq_some_iff.mp hi
  obtain ⟨hj', hjk⟩ := List.getElem?_eq_some_iff.mp hj
  exact hl.getElem_inj_iff.mp (hik.trans hjk.symm)

theorem getElem?_indexOf {l : List Rune} {a : Rune} (h : a ∈ l) :
    l[l.indexOf a]? = some a := by
  have := List.indexOf_get? h
  rwa [List.get?_eq_getElem?] at this

theorem indexOf_of_getElem? {l : List Rune} (hl : l.Nodup) {i : Nat} {a : Rune}
    (h : l[i]? = some a) : l.indexOf a = i :=
  nodup_index_unique hl (getElem?_indexOf (List.getElem?_mem h)) h

/-- With a key alphabet of distinct runes, the row read for the rune at index `i` of the key
alphabet is the row that the loop built at index `i`. -/
theorem fillCiphers_row {pt : List Rune} {row : Nat → Option (List Rune)} {key : List Rune}
    {m : List (Rune × SimpleSubstitutionCipher)}
    (h : fillCiphers pt row key.enum [] = some m) (hkey : key.Nodup) {i : Nat} {k : Rune}
    (hi : key[i]? = some k) :
    ∃ ct3 c, row i = some ct3 ∧ makeSimpleSubstitutionCipher pt ct3 = some c ∧
      m.lookup k = some c := by
  rcases fillCiphers_lookup _ _ _ _ _ h k with ⟨i', ct3, c', hmem, hr, hm, hl⟩ | ⟨hno, _⟩
  · have hi' : key[i']? = some k := List.mk_mem_enum_iff_getElem?.mp hmem
    have : i' = i := nodup_index_unique hkey hi' hi
    subst this
    exact ⟨ct3, c', hr, hm, hl⟩
  · exact absurd (List.mk_mem_enum_iff_getElem?.mpr hi) (hno i)

theorem cipherAt_of_lookup {c : VigenereFamilyCipher} {k : Rune} {row : SimpleSubstitutionCipher}
    (h : c.ciphers.lookup k = some row) : c.cipherAt k = row := by
  unfold VigenereFamilyCipher.cipherAt
  rw [h]; rfl

/-- The row of `MakeVigenereFamilyCipher` for the key rune at index `i`. -/
theorem vigenere_row {K pt ct key : List Rune} {c : VigenereFamilyCipher}
    (h : MakeVigenereFamilyCipher K pt ct key = some c) (hkey : key.Nodup) {i : Nat} {k : Rune}
    (hi : key[i]? = some k) :
    makeSimpleSubstitutionCipher pt (ct.rotate i) = some (c.cipherAt k) := by
  obtain ⟨ct3, row, hr, hm, hl⟩ := fillCiphers_row (vigenere_ciphers h).1 hkey hi
  rw [cipherAt_of_lookup hl]
  cases hr
  exact hm

/-- A row built against the alphabet rotated by `q` sends the symbol at index `p` to the symbol
at index `(p + q) mod n`. -/
theorem rotate_row_enc {A : List Rune} {q p : Nat} {r o : Rune} {row : SimpleSubstitutionCipher}
    (hmk : makeSimpleSubstitutionCipher A (A.rotate q) = some row) (hA : A.Nodup)
    (hr : A[p]? = some r) (ho : A[(p + q) % A.length]? = some o) (strict : Bool) :
    row.encipherRune r strict = (o, true) := by
  have hp : p < A.length := (List.getElem?_eq_some_iff.mp hr).1
  apply row_enc_of_mem_zip hmk hA _ strict
  apply mem_zip_of_getElem? hr
  rw [List.getElem?_rotate hp]
  exact ho

/-! ## A fixed key stream whose rows transcode every symbol -/

theorem feedback_nil {c : VigenereFamilyCipher} (hta : c.Textautoclave = false)
    (hka : c.Keyautoclave = false) (a b : Rune) : feedback c a b = [] := by
  unfold feedback
  rw [hta, hka]
  rfl

/-- Without autoclave, when every key rune of `K` transcodes every symbol of the input to the
non-negative rune `g k r`, the output has the symbol `g K[(n + j) mod L] S[j]` at position `j`. -/
theorem static_run {c : VigenereFamilyCipher} (hta : c.Textautoclave = false)
    (hka : c.Keyautoclave = false) (strict : Bool) {K : List Rune} (hK : K ≠ [])
    (g : Rune → Rune → Rune) :
    ∀ (S : List Rune) (n : Nat),
      (∀ k ∈ K, ∀ r ∈ S, (c.cipherAt k).encipherRune r strict = (g k r, true) ∧ 0 ≤ g k r) →
      ∃ E, stringsMap (c.encipherMapping strict) { keyRunes := K, transcodedCharCount := n } S =
          some ({ keyRunes := K, transcodedCharCount := n + S.length }, E) ∧
        E.length = S.length ∧
        ∀ (j : Nat) (r k : Rune), S[j]? = some r → K[(n + j) % K.length]? = some k →
          E[j]? = some (g k r) := by
  intro S
  induction S with
  | nil => intro n _; exact ⟨[], rfl, rfl, fun j r k h => by simp at h⟩
  | cons r rest ih =>
    intro n hg
    obtain ⟨k, hkmem, hk⟩ := key_read hK n
    obtain ⟨henc, h0⟩ := hg k hkmem r (List.mem_cons_self _ _)
    have hstep := @encipherMapping_ok c strict { keyRunes := K, transcodedCharCount := n }
      r k (g k r) hk henc
    rw [feedback_nil hta hka, List.append_nil] at hstep
    obtain ⟨E, hE, hlen, hpos⟩ := ih (n + 1)
      (fun k hk r hr => hg k hk r (List.mem_cons_of_mem _ hr))
    refine ⟨g k r :: E, ?_, by simp [hlen], ?_⟩
    · rw [stringsMap_cons _ _ _ _ r (g k r) rest E hstep hE, if_pos h0]
      simp only [List.length_cons, Option.some.injEq, Prod.mk.injEq, KeyStream.mk.injEq,
        true_and, and_true]
      omega
    · intro j x k' hj hk'
      cases j with
      | zero =>
        simp only [List.getElem?_cons_zero, Option.some.injEq] at hj
        subst hj
        have hk2 : k' = k := by
          rw [Nat.add_zero] at hk'
          change K[n % K.length]? = some k at hk
          rw [hk] at hk'
          exact (Option.some.inj hk').symm
        rw [hk2]
        simp
      | succ j =>
        simp only [List.getElem?_cons_succ] at hj ⊢
        apply hpos j x k' hj
        rw [show n + 1 + j = n + (j + 1) by omega]
        exact hk'

/-- C1: for an alphabet `A` of `n` distinct symbols, a non-empty countersign `K` of length `L`
over `A` and an input `S` over `A`, `MakeVigenereCipher(K, A).Encipher(S)` has the length of `S`
and its `j`-th symbol is `A[(p + q) mod n]`, where `p` is the index in `A` of `S[j]` and `q` the
index in `A` of `K[j mod L]`. -/
theorem vigenere_encipher_adds_indices (A K S : List Rune) (strict : Bool)
    (hA : A.Nodup) (htA : IsText A) (hK : K ≠ []) (hKA : ∀ k ∈ K, k ∈ A)
    (hSA : ∀ r ∈ S, r ∈ A) :
    ∃ c E, MakeVigenereCipher K A = some c ∧ c.Encipher S strict = some E ∧
      E.length = S.length ∧
      ∀ (j : Nat) (r k : Rune), S[j]? = some r → K[j % K.length]? = some k →
        E[j]? = A[(A.indexOf r + A.indexOf k) % A.length]? := by
  obtain ⟨c, hc⟩ := vigenere_isSome K A A A rfl
  obtain ⟨_, hcs, hta, hka, _⟩ := built_facts (Or.inl hc)
  have hg : ∀ k ∈ K, ∀ r ∈ S,
      (c.cipherAt k).encipherRune r strict =
        (A.getD ((A.indexOf r + A.indexOf k) % A.length) 0, true) ∧
      0 ≤ A.getD ((A.indexOf r + A.indexOf k) % A.length) 0 := by
    intro k hk r hr
    have hpos : 0 < A.length := List.length_pos_of_mem (hKA k hk)
    have hlt : (A.indexOf r + A.indexOf k) % A.length < A.length := Nat.mod_lt _ hpos
    have hget : A[(A.indexOf r + A.indexOf k) % A.length]? =
        some (A.getD ((A.indexOf r + A.indexOf k) % A.length) 0) := by
      rw [List.getD_eq_getElem?_getD, List.getElem?_eq_getElem hlt]
      rfl
    refine ⟨rotate_row_enc (vigenere_row hc hA (getElem?_indexOf (hKA k hk))) hA
      (getElem?_indexOf (hSA r hr)) hget strict, htA _ (List.getElem?_mem hget)⟩
  obtain ⟨E, hE, hlen, hpos⟩ := static_run hta hka strict hK _ S 0 hg
  refine ⟨c, E, hc, ?_, hlen, ?_⟩
  · unfold VigenereFamilyCipher.Encipher VigenereFamilyCipher.encipherRun
      VigenereFamilyCipher.start
    rw [hcs, hE]; rfl
  · intro j r k hj hk
    have hk' : K[(0 + j) % K.length]? = some k := by rw [Nat.zero_add]; exact hk
    rw [hpos j r k hj hk']
    have hpos' : 0 < A.length := List.length_pos_of_mem (hKA k (List.getElem?_mem hk))
    have hlt : (A.indexOf r + A.indexOf k) % A.length < A.length := Nat.mod_lt _ hpos'
    rw [List.getD_eq_getElem?_getD, List.getElem?_eq_getElem hlt]
    rfl

/-! ## Two ciphers whose rows agree along their countersigns -/

theorem stringsMap_cons_out {σ : Type} (mapping : σ → Rune → Option (σ × Rune)) (st : σ)
    (r : Rune) (rest : List Rune) :
    (stringsMap mapping st (r :: rest)).map Prod.snd =
      (mapping st r).bind (fun p =>
        ((stringsMap mapping p.1 rest).map Prod.snd).map
          (fun out => if 0 ≤ p.2 then p.2 :: out else out)) := by
  simp only [stringsMap]
  cases hm : mapping st r with
  | none => rfl
  | some p =>
    obtain ⟨st1, o⟩ := p
    simp only [Option.some_bind]
    cases hr : stringsMap mapping st1 rest with
    | none => rfl
    | some q => rfl

theorem encipherMapping_noauto {c : VigenereFamilyCipher} (hta : c.Textautoclave = false)
    (hka : c.Keyautoclave = false) (strict : Bool) (K : List Rune) (n : Nat) (r k : Rune)
    (hk : K[n % K.length]? = some k) :
    c.encipherMapping strict { keyRunes := K, transcodedCharCount := n } r =
      some ({ keyRunes := K
              transcodedCharCount :=
                if ((c.cipherAt k).encipherRune r strict).2 then n + 1 else n },
            ((c.cipherAt k).encipherRune r strict).1) := by
  cases he : (c.cipherAt k).encipherRune r strict with
  | mk o ok =>
    cases ok with
    | true =>
      have := @encipherMapping_ok c strict { keyRunes := K, transcodedCharCount := n }
        r k o hk he
      rw [feedback_nil hta hka, List.append_nil] at this
      rw [this]; rfl
    | false =>
      have := @encipherMapping_skip c strict { keyRunes := K, transcodedCharCount := n }
        r k o hk he
      rw [this]; rfl

/-- Two ciphers without autoclave whose countersigns have the same length and select, position
by position, rows with the same `encipherRune`, encipher alike. -/
theorem static_congr {c1 c2 : VigenereFamilyCipher}
    (hta1 : c1.Textautoclave = false) (hka1 : c1.Keyautoclave = false)
    (hta2 : c2.Textautoclave = false) (hka2 : c2.Keyautoclave = false)
    (strict : Bool) {K1 K2 : List Rune} (hlen : K1.length = K2.length)
    (hrow : ∀ (i : Nat) (k1 k2 : Rune), K1[i]? = some k1 → K2[i]? = some k2 →
      ∀ r, (c1.cipherAt k1).encipherRune r strict = (c2.cipherAt k2).encipherRune r strict) :
    ∀ (S : List Rune) (n : Nat),
      (stringsMap (c1.encipherMapping strict)
          { keyRunes := K1, transcodedCharCount := n } S).map Prod.snd =
      (stringsMap (c2.encipherMapping strict)
          { keyRunes := K2, transcodedCharCount := n } S).map Prod.snd := by
  intro S
  induction S with
  | nil => intro n; rfl
  | cons r rest ih =>
    intro n
    rw [stringsMap_cons_out, stringsMap_cons_out]
    by_cases hK : K1 = []
    · have hK2 : K2 = [] := List.length_eq_zero.mp (by rw [← hlen, hK]; rfl)
      subst hK
      subst hK2
      rw [encipherMapping_empty, encipherMapping_empty]
      rfl
    · have hK2 : K2 ≠ [] := fun h => hK (List.length_eq_zero.mp (by rw [hlen, h]; rfl))
      obtain ⟨k1, _, hk1⟩ := key_read hK n
      obtain ⟨k2, _, hk2⟩ := key_read hK2 n
      have hk2' : K2[n % K1.length]? = some k2 := by rw [hlen]; exact hk2
      have heq := hrow _ k1 k2 hk1 hk2' r
      rw [encipherMapping_noauto hta1 hka1 strict K1 n r k1 hk1,
        encipherMapping_noauto hta2 hka2 strict K2 n r k2 hk2, heq]
      simp only [Option.some_bind]
      rw [ih]

/-- With a non-empty key stream the call returns. -/
theorem run_total {f : KeyStream → Rune → Option (KeyStream × Rune)} {strict : Bool}
    {dom cod : List Rune} (hf : StepSpec f strict dom cod) :
    ∀ (S : List Rune) (st : KeyStream), st.keyRunes ≠ [] →
      ∃ res, stringsMap f st S = some res := by
  intro S
  induction S with
  | nil => intro st _; exact ⟨_, rfl⟩
  | cons r rest ih =>
    intro st hst
    obtain ⟨st1, o, hstep, hst1, _, _⟩ := hf st r hst
    obtain ⟨⟨st2, out⟩, hres⟩ := ih st1 hst1
    exact ⟨_, stringsMap_cons f st st1 st2 r o rest out hstep hres⟩

theorem encipher_isSome {K pt ct key : List Rune} {c : VigenereFamilyCipher}
    (hc : MakeVigenereFamilyCipher K pt ct key = some c ∨
      MakeDellaPortaReciprocalTable K pt ct key = some c)
    (hK : K ≠ []) (S : List Rune) (strict : Bool) : ∃ E, c.Encipher S strict = some E := by
  obtain ⟨hT, hcs, _, _, _⟩ := built_facts hc
  have hst : c.start.keyRunes ≠ [] := by
    show c.countersign ≠ []
    rw [hcs]; exact hK
  obtain ⟨⟨st, E⟩, hres⟩ := run_total (encipher_stepSpec hT strict) S c.start hst
  refine ⟨E, ?_⟩
  unfold VigenereFamilyCipher.Encipher VigenereFamilyCipher.encipherRun
  rw [hres]; rfl

theorem digits_getElem? (d : Nat) (hd : d < 10) :
    (runes ("0123456789"))[d]? = some (digitRune d) := by
  interval_cases d <;> decide

theorem digits_nodup : (runes ("0123456789")).Nodup := by decide

theorem getElem?_getD_of_lt {A : List Rune} {d : Nat} (hd : d < A.length) :
    A[d]? = some (A.getD d 0) := by
  rw [List.getD_eq_getElem?_getD, List.getElem?_eq_getElem hd]
  rfl

/-- C9: for an alphabet `A` of at least 10 distinct symbols, a non-empty digit string `D` and
any input `S`, `MakeGronsfeldCipher` with the digits of `D` as countersign enciphers `S` exactly
as `MakeVigenereCipher` with the countersign `A[d1]..A[dk]`, and the row of the digit `d` is
the Caesar shift by `d`: it sends `A[p]` to `A[(p + d) mod n]`. -/
theorem gronsfeld_is_vigenere (A : List Rune) (D : List Nat) (S : List Rune) (strict : Bool)
    (hA : A.Nodup) (hlen : 10 ≤ A.length) (hD : D ≠ []) (hdig : ∀ d ∈ D, d < 10) :
    ∃ cg cv E, MakeGronsfeldCipher (D.map digitRune) A = some cg ∧
      MakeVigenereCipher (D.map (fun d => A.getD d 0)) A = some cv ∧
      cg.Encipher S strict = some E ∧ cv.Encipher S strict = some E ∧
      ∀ (d p : Nat) (r o : Rune), d < 10 → A[p]? = some r →
        A[(p + d) % A.length]? = some o →
        (cg.cipherAt (digitRune d)).encipherRune r strict = (o, true) := by
  obtain ⟨cg, hcg⟩ := vigenere_isSome (D.map digitRune) A A (runes ("0123456789")) rfl
  obtain ⟨cv, hcv⟩ := vigenere_isSome (D.map (fun d => A.getD d 0)) A A A rfl
  obtain ⟨_, hcsg, htag, hkag, _⟩ := built_facts (Or.inl hcg)
  obtain ⟨_, hcsv, htav, hkav, _⟩ := built_facts (Or.inl hcv)
  have hKg : D.map digitRune ≠ [] := fun h => hD (List.map_eq_nil_iff.mp h)
  obtain ⟨E, hE⟩ := encipher_isSome (Or.inl hcg) hKg S strict
  have hrowg : ∀ d, d < 10 →
      makeSimpleSubstitutionCipher A (A.rotate d) = some (cg.cipherAt (digitRune d)) :=
    fun d hd => vigenere_row hcg digits_nodup (digits_getElem? d hd)
  have hrowv : ∀ d, d < 10 →
      makeSimpleSubstitutionCipher A (A.rotate d) = some (cv.cipherAt (A.getD d 0)) :=
    fun d hd => vigenere_row hcv hA (getElem?_getD_of_lt (by omega))
  have hsame : cg.Encipher S strict = cv.Encipher S strict := by
    unfold VigenereFamilyCipher.Encipher VigenereFamilyCipher.encipherRun
      VigenereFamilyCipher.start
    rw [hcsg, hcsv]
    apply static_congr htag hkag htav hkav strict (by simp)
    intro i k1 k2 h1 h2 r
    rw [List.getElem?_map] at h1 h2
    cases hi : D[i]? with
    | none => rw [hi] at h1; cases h1
    | some d =>
      rw [hi] at h1 h2
      simp only [Option.map_some', Option.some.injEq] at h1 h2
      subst h1
      subst h2
      have hd : d < 10 := hdig d (List.getElem?_mem hi)
      have := (hrowg d hd).symm.trans (hrowv d hd)
      rw [Option.some.inj this]
  refine ⟨cg, cv, E, hcg, hcv, hE, hsame ▸ hE, ?_⟩
  intro d p r o hd hr ho
  exact rotate_row_enc (hrowg d hd) hA hr ho strict

/-! ## Reciprocal rows -/

/-- A row whose zipped alphabets form a symmetric relation enciphers and deciphers alike. -/
theorem reciprocal_row {A ct3 : List Rune} {row : SimpleSubstitutionCipher}
    (hmk : makeSimpleSubstitutionCipher A ct3 = some row) (hA : A.Nodup) (hct3 : ct3.Nodup)
    (hsymm : ∀ r s, (r, s) ∈ A.zip ct3 → (s, r) ∈ A.zip ct3) (r : Rune) (strict : Bool) :
    row.encipherRune r strict = row.decipherRune r strict := by
  have hlook : row.pt2ct.lookup r = row.ct2pt.lookup r := by
    rw [make_pt2ct hmk, make_ct2pt hmk]
    apply Option.ext
    intro s
    simp only [Option.mem_def]
    rw [lookup_zip_some_iff hA, lookup_zip_some_iff hct3]
    exact ⟨fun h => mem_zip_swap.mpr (hsymm r s h), fun h => hsymm s r (mem_zip_swap.mp h)⟩
  unfold SimpleSubstitutionCipher.encipherRune SimpleSubstitutionCipher.decipherRune
  rw [hlook]

/-- Without autoclave, when every row read enciphers and deciphers alike, the two closures are
the same function. -/
theorem mapping_eq_of_reciprocal {c : VigenereFamilyCipher} (hta : c.Textautoclave = false)
    (hka : c.Keyautoclave = false) (strict : Bool)
    (hrow : ∀ k r, (c.cipherAt k).encipherRune r strict = (c.cipherAt k).decipherRune r strict) :
    c.encipherMapping strict = c.decipherMapping strict := by
  funext st r
  unfold VigenereFamilyCipher.encipherMapping VigenereFamilyCipher.decipherMapping
  cases hk : st.keyRunes[st.transcodedCharCount % st.keyRunes.length]? with
  | none => rfl
  | some k =>
    simp only [hrow k r, hta, hka]
    rfl

/-- The two counter-rotated halves pair the symbols symmetrically. -/
theorem gear_symm (Ah B : List Rune) (hlen : Ah.length = B.length) (j : Nat)
    (hj : j ≤ Ah.length) (r s : Rune)
    (h : (r, s) ∈ (Ah ++ B).zip (B.rotate j ++ Ah.rotate (Ah.length - j))) :
    (s, r) ∈ (Ah ++ B).zip (B.rotate j ++ Ah.rotate (Ah.length - j)) := by
  have hl1 : Ah.length = (B.rotate j).length := by rw [List.length_rotate]; exact hlen
  have hkey : ∀ x y : Rune, (x, y) ∈ Ah.zip (B.rotate j) ↔
      (y, x) ∈ B.zip (Ah.rotate (Ah.length - j)) := by
    intro x y
    have hrot : (B.zip (Ah.rotate (Ah.length - j))).rotate j = (B.rotate j).zip Ah := by
      unfold List.zip
      rw [List.zipWith_rotate_distrib _ _ _ _ (by rw [List.length_rotate]; exact hlen.symm),
        List.rotate_rotate, Nat.sub_add_cancel hj, List.rotate_length]
    refine mem_zip_swap.symm.trans ?_
    rw [← hrot]
    exact List.mem_rotate
  rw [List.zip_append hl1, List.mem_append] at h ⊢
  rcases h with h | h
  · exact Or.inr ((hkey r s).mp h)
  · exact Or.inl ((hkey s r).mpr h)

/-- The alphabet that `owrapString` builds from the alphabet wrapped by half its length. -/
theorem owrap_of_half {A out : List Rune} {j : Nat} (heven : A.length % 2 = 0)
    (h : owrapString (wrapString A (A.length / 2)) j = some out) :
    j ≤ (A.take (A.length / 2)).length ∧
    (A.take (A.length / 2)).length = (A.drop (A.length / 2)).length ∧
    out = (A.drop (A.length / 2)).rotate j ++
      (A.take (A.length / 2)).rotate ((A.take (A.length / 2)).length - j) := by
  have hhalf : A.length / 2 ≤ A.length := Nat.div_le_self _ _
  have hrot : wrapString A (A.length / 2) = A.drop (A.length / 2) ++ A.take (A.length / 2) :=
    List.rotate_eq_drop_append_take hhalf
  have hdl : (A.drop (A.length / 2)).length = A.length / 2 := by
    rw [List.length_drop]; omega
  have htl : (A.take (A.length / 2)).length = A.length / 2 := by
    rw [List.length_take]; omega
  have hwl : (wrapString A (A.length / 2)).length = A.length := by
    unfold wrapString; exact List.length_rotate _ _
  unfold owrapString at h
  simp only [hwl] at h
  rw [if_neg (by omega)] at h
  rw [hrot, List.take_left' hdl, List.drop_left' hdl] at h
  by_cases hlt : (A.take (A.length / 2)).length < j
  · rw [if_pos hlt] at h; cases h
  · rw [if_neg hlt] at h
    cases h
    exact ⟨by omega, by omega, rfl⟩

theorem dellaPorta_isSome (K A : List Rune) (heven : A.length % 2 = 0) :
    ∃ c, MakeDellaPortaCipher K A = some c := by
  have hhalf : A.length / 2 ≤ A.length := Nat.div_le_self _ _
  have hwl : (wrapString A (A.length / 2)).length = A.length := by
    unfold wrapString; exact List.length_rotate _ _
  obtain ⟨m, hm⟩ := fillCiphers_isSome A
    (fun i => owrapString (wrapString A (A.length / 2)) (i / 2)) A.enum []
    (by
      intro p hp
      have hi : p.1 < A.length := by
        have := List.mem_enum_iff_getElem?.mp hp
        exact (List.getElem?_eq_some_iff.mp this).1
      have hdl : ((wrapString A (A.length / 2)).drop
          ((wrapString A (A.length / 2)).length / 2)).length = A.length / 2 := by
        rw [List.length_drop, hwl]; omega
      have hnot : ¬ ((wrapString A (A.length / 2)).drop
          ((wrapString A (A.length / 2)).length / 2)).length < p.1 / 2 := by
        rw [hdl]; omega
      have hval : owrapString (wrapString A (A.length / 2)) (p.1 / 2) =
          some (wrapString ((wrapString A (A.length / 2)).take
              ((wrapString A (A.length / 2)).length / 2)) (p.1 / 2) ++
            wrapString ((wrapString A (A.length / 2)).drop
              ((wrapString A (A.length / 2)).length / 2))
              (((wrapString A (A.length / 2)).drop
                ((wrapString A (A.length / 2)).length / 2)).length - p.1 / 2)) := by
        unfold owrapString
        simp only
        rw [if_neg (by rw [hwl]; omega), if_neg hnot]
      refine ⟨_, hval, ?_⟩
      rw [List.length_append]
      unfold wrapString at *
      simp only [List.length_rotate, List.length_take, List.length_drop]
      omega)
  unfold MakeDellaPortaCipher MakeDellaPortaReciprocalTable
  rw [if_neg (by omega)]
  simp only [hm]
  exact ⟨_, rfl⟩

/-- Every row of the Della Porta table enciphers and deciphers alike. -/
theorem dellaPorta_rows {K A : List Rune} {c : VigenereFamilyCipher}
    (hc : MakeDellaPortaCipher K A = some c) (hA : A.Nodup) (k r : Rune) (strict : Bool) :
    (c.cipherAt k).encipherRune r strict = (c.cipherAt k).decipherRune r strict := by
  obtain ⟨heven, hfill, _⟩ := dellaPorta_ciphers hc
  rcases fillCiphers_lookup _ _ _ _ _ hfill k with ⟨i, ct3, row, _, hr, hmk, hl⟩ | ⟨_, hl⟩
  · rw [cipherAt_of_lookup hl]
    obtain ⟨hj, hlen, hout⟩ := owrap_of_half heven hr
    have hperm : ct3.Perm A :=
      (owrapString_perm hr).trans (List.rotate_perm A _)
    apply reciprocal_row hmk hA (hperm.nodup_iff.mpr hA)
    intro x y hxy
    have hgear := gear_symm (A.take (A.length / 2)) (A.drop (A.length / 2)) hlen _ hj x y
    rw [List.take_append_drop, ← hout] at hgear
    exact hgear hxy
  · have hz : c.cipherAt k = SimpleSubstitutionCipher.zero := by
      unfold VigenereFamilyCipher.cipherAt
      rw [hl]; rfl
    rw [hz, zero_enc, zero_dec]

theorem encipher_eq_decipher {c : VigenereFamilyCipher} (hta : c.Textautoclave = false)
    (hka : c.Keyautoclave = false) (strict : Bool)
    (hrow : ∀ k r, (c.cipherAt k).encipherRune r strict = (c.cipherAt k).decipherRune r strict)
    (S : List Rune) : c.Decipher S strict = c.Encipher S strict := by
  unfold VigenereFamilyCipher.Decipher VigenereFamilyCipher.Encipher
    VigenereFamilyCipher.decipherRun VigenereFamilyCipher.encipherRun
  rw [mapping_eq_of_reciprocal hta hka strict hrow]

/-- C8: for an alphabet `A` of even length with distinct symbols, a non-empty countersign and
any input `S`, `MakeDellaPortaCipher(countersign, A)` returns the same output from `Encipher(S)`
and from `Decipher(S)`, and every row of its table is a self-inverse substitution of `A`. -/
theorem dellaPorta_reciprocal (A K S : List Rune) (strict : Bool)
    (hA : A.Nodup) (heven : A.length % 2 = 0) (hK : K ≠ []) :
    ∃ c E, MakeDellaPortaCipher K A = some c ∧ c.Encipher S strict = some E ∧
      c.Decipher S strict = some E ∧
      ∀ k r, k ∈ A → r ∈ A →
        ∃ o, (c.cipherAt k).encipherRune r strict = (o, true) ∧
          (c.cipherAt k).encipherRune o strict = (r, true) := by
  obtain ⟨c, hc⟩ := dellaPorta_isSome K A heven
  obtain ⟨hT, _, hta, hka, hdom⟩ := built_facts (Or.inr hc)
  obtain ⟨E, hE⟩ := encipher_isSome (Or.inr hc) hK S strict
  refine ⟨c, E, hc, hE, ?_, ?_⟩
  · rw [encipher_eq_decipher hta hka strict (fun k r => dellaPorta_rows hc hA k r strict), hE]
  · intro k r hk hr
    rcases cipherAt_cases hT k with ⟨ct3, hperm, hmk, _⟩ | ⟨_, hnone⟩
    · rcases row_enc_cases hmk r strict with ⟨o, hro, henc⟩ | ⟨hn, _⟩
      · refine ⟨o, henc, ?_⟩
        rw [dellaPorta_rows hc hA k o strict]
        exact row_dec_of_mem_zip hmk (hperm.nodup_iff.mpr hA) hro strict
      · exact absurd hr hn
    · have := hdom k hk
      rw [hnone] at this
      cases this

/-! ## The Beaufort rows -/

theorem beaufort_index (n p i : Nat) (hp : p < n) :
    n - 1 - ((n - 1 - (p + i) % n + i) % n) = p := by
  have hn : 0 < n := by omega
  have hm : (p + i) % n < n := Nat.mod_lt _ hn
  have hdiv : (p + i) % n + n * ((p + i) / n) = p + i := Nat.mod_add_div _ _
  have h1 : n - 1 - (p + i) % n + i = (n - 1 - p) + n * ((p + i) / n) := by omega
  rw [h1, Nat.add_mul_mod_self_left, Nat.mod_eq_of_lt (by omega)]
  omega

theorem beaufort_formula (n p q : Nat) (hp : p < n) (hq : q < n) :
    n - 1 - (p + (n - 1 - q)) % n = (((q : Int) - (p : Int)) % (n : Int)).toNat := by
  by_cases hpq : p ≤ q
  · rw [Nat.mod_eq_of_lt (by omega), Int.emod_eq_of_lt (by omega) (by omega)]
    omega
  · have h1 : (p + (n - 1 - q)) % n = p - 1 - q := by
      rw [Nat.mod_eq_sub_mod (by omega), Nat.mod_eq_of_lt (by omega)]
      omega
    have h2 : ((q : Int) - (p : Int)) % (n : Int) = (q : Int) - (p : Int) + (n : Int) := by
      rw [← Int.add_emod_self, Int.emod_eq_of_lt (by omega) (by omega)]
    rw [h1, h2]
    omega

theorem beaufort_getElem? (A : List Rune) (i p : Nat) (hp : p < A.length) :
    (A.reverse.rotate i)[p]? = A[A.length - 1 - (p + i) % A.length]? := by
  have hpos : 0 < A.length := by omega
  rw [List.getElem?_rotate (by rw [List.length_reverse]; exact hp), List.length_reverse,
    List.getElem?_reverse (Nat.mod_lt _ hpos)]

theorem beaufort_symm (A : List Rune) (i : Nat) (r s : Rune)
    (h : (r, s) ∈ A.zip (A.reverse.rotate i)) : (s, r) ∈ A.zip (A.reverse.rotate i) := by
  obtain ⟨p, hr, hs⟩ := getElem?_of_mem_zip h
  have hp : p < A.length := (List.getElem?_eq_some_iff.mp hr).1
  have hpos : 0 < A.length := by omega
  rw [beaufort_getElem? A i p hp] at hs
  have hp' : A.length - 1 - (p + i) % A.length < A.length := by omega
  apply mem_zip_of_getElem? hs
  rw [beaufort_getElem? A i _ hp', beaufort_index _ _ _ hp]
  exact hr

/-- Every row of the Beaufort table enciphers and deciphers alike. -/
theorem beaufort_rows {K A : List Rune} {c : VigenereFamilyCipher}
    (hc : MakeBeaufortCipher K A = some c) (hA : A.Nodup) (k r : Rune) (strict : Bool) :
    (c.cipherAt k).encipherRune r strict = (c.cipherAt k).decipherRune r strict := by
  rcases fillCiphers_lookup _ _ _ _ _ (vigenere_ciphers hc).1 k with
    ⟨i, ct3, row, _, hr, hmk, hl⟩ | ⟨_, hl⟩
  · rw [cipherAt_of_lookup hl]
    cases hr
    have hnd : (wrapString (reverseString A) i).Nodup := by
      unfold wrapString reverseString
      exact List.nodup_rotate.mpr (List.nodup_reverse.mpr hA)
    exact reciprocal_row hmk hA hnd (beaufort_symm A i) r strict
  · have hz : c.cipherAt k = SimpleSubstitutionCipher.zero := by
      unfold VigenereFamilyCipher.cipherAt
      rw [hl]; rfl
    rw [hz, zero_enc, zero_dec]

/-- C10: for an alphabet `A` of `n` distinct symbols, a non-empty countersign and any input `S`,
`MakeBeaufortCipher(countersign, A)` returns the same output from `Encipher(S)` and from
`Decipher(S)`; the row of the key symbol at index `q` of `A` sends, in both directions, the
symbol at index `p` to `A[(q - p) mod n]`. -/
theorem beaufort_reciprocal (A K S : List Rune) (strict : Bool)
    (hA : A.Nodup) (hK : K ≠ []) :
    ∃ c E, MakeBeaufortCipher K A = some c ∧ c.Encipher S strict = some E ∧
      c.Decipher S strict = some E ∧
      ∀ (q p : Nat) (k r o : Rune), A[q]? = some k → A[p]? = some r →
        A[(((q : Int) - (p : Int)) % (A.length : Int)).toNat]? = some o →
        (c.cipherAt k).encipherRune r strict = (o, true) ∧
        (c.cipherAt k).decipherRune r strict = (o, true) := by
  obtain ⟨c, hc⟩ := vigenere_isSome K A (reverseString A) (reverseString A)
    (by unfold reverseString; rw [List.length_reverse])
  have hc' : MakeBeaufortCipher K A = some c := hc
  obtain ⟨_, _, hta, hka, _⟩ := built_facts (Or.inl hc)
  obtain ⟨E, hE⟩ := encipher_isSome (Or.inl hc) hK S strict
  refine ⟨c, E, hc', hE, ?_, ?_⟩
  · rw [encipher_eq_decipher hta hka strict (fun k r => beaufort_rows hc' hA k r strict), hE]
  · intro q p k r o hq hp ho
    have hql : q < A.length := (List.getElem?_eq_some_iff.mp hq).1
    have hpl : p < A.length := (List.getElem?_eq_some_iff.mp hp).1
    have hkey : (reverseString A)[A.length - 1 - q]? = some k := by
      unfold reverseString
      rw [List.getElem?_reverse (by omega), ← hq]
      congr 1
      omega
    have hnd : (reverseString A).Nodup := List.nodup_reverse.mpr hA
    have hmk := vigenere_row hc hnd hkey
    have henc : (c.cipherAt k).encipherRune r strict = (o, true) := by
      apply row_enc_of_mem_zip hmk hA _ strict
      apply mem_zip_of_getElem? hp
      show (A.reverse.rotate (A.length - 1 - q))[p]? = some o
      rw [beaufort_getElem? A _ p hpl, beaufort_formula _ _ _ hpl hql]
      exact ho
    exact ⟨henc, (beaufort_rows hc' hA k r strict) ▸ henc⟩

/-! ## Concrete scenarios -/

/-- C1, witness: over `A`-`Z` with countersign `KEY`, `HELLO` enciphers to `RIJVS`, `RIJVS`
deciphers to `HELLO`, and the index formula holds at this input. -/
theorem vigenere_encipher_adds_indices_witness :
    (MakeVigenereCipher (runes ("KEY")) latin).bind
        (fun c => c.Encipher (runes ("HELLO")) false) = some (runes ("RIJVS")) ∧
    (MakeVigenereCipher (runes ("KEY")) latin).bind
        (fun c => c.Decipher (runes ("RIJVS")) false) = some (runes ("HELLO")) ∧
    ∃ c E, MakeVigenereCipher (runes ("KEY")) latin = some c ∧
      c.Encipher (runes ("HELLO")) false = some E ∧ E.length = (runes ("HELLO")).length ∧
      ∀ (j : Nat) (r k : Rune), (runes ("HELLO"))[j]? = some r →
        (runes ("KEY"))[j % (runes ("KEY")).length]? = some k →
        E[j]? = latin[(latin.indexOf r + latin.indexOf k) % latin.length]? :=
  ⟨by decide, by decide,
    vigenere_encipher_adds_indices latin (runes ("KEY")) (runes ("HELLO")) false
      (by decide) (by decide) (by decide) (by decide) (by decide)⟩

/-- C2, counterexample: with an empty countersign `Encipher` of a one-letter string panics, and
in strict mode a countersign outside the key alphabet makes `Encipher` delete every letter, so
that deciphering returns the empty string instead of the input. -/
theorem roundtrip_fails_for_unusable_countersign :
    (MakeVigenereCipher [] latin).isSome = true ∧
    (MakeVigenereCipher [] latin).bind (fun c => c.Encipher (runes ("A")) false) = none ∧
    (MakeVigenereCipher (runes ("key")) latin).bind
        (fun c => c.Encipher (runes ("HELLO")) true) = some [] ∧
    (MakeVigenereCipher (runes ("key")) latin).bind
        (fun c => (c.Encipher (runes ("HELLO")) true).bind (fun E => c.Decipher E true)) =
      some [] := by
  decide

/-- C2, witness: the Beaufort cipher over `A`-`Z` with countersign `KEY` in strict mode. -/
theorem roundtrip_without_autoclave_witness :
    ∃ c, MakeBeaufortCipher (runes ("KEY")) latin = some c ∧
      c.Textautoclave = false ∧ c.Keyautoclave = false ∧
      ∃ E, c.Encipher (runes ("HELLO")) true = some E ∧
        c.Decipher E true = some (runes ("HELLO")) := by
  obtain ⟨c, hc⟩ := vigenere_isSome (runes ("KEY")) latin (reverseString latin)
    (reverseString latin) (by decide)
  exact ⟨c, hc, roundtrip_without_autoclave (runes ("KEY")) latin (reverseString latin)
    (reverseString latin) (runes ("HELLO")) true c (Or.inl hc) (by decide) (by decide)
    (by decide) (by decide) (by decide) (by decide)⟩

/-- C3, counterexample: with an empty countersign `Encipher` panics; in strict mode the symbol
`!` is deleted, so that `A!` comes back as `A`; and in strict mode a countersign outside the
alphabet makes `Encipher` delete every letter, so that `HELLO` comes back empty. -/
theorem text_autoclave_roundtrip_fails :
    (MakeVigenereTextAutoclaveCipher [] latin).isSome = true ∧
    (MakeVigenereTextAutoclaveCipher [] latin).bind
        (fun c => c.Encipher (runes ("A")) false) = none ∧
    (MakeVigenereTextAutoclaveCipher (runes ("KEY")) latin).bind
        (fun c => (c.Encipher (runes ("A!")) true).bind (fun E => c.Decipher E true)) =
      some (runes ("A")) ∧
    (MakeVigenereTextAutoclaveCipher (runes ("key")) latin).bind
        (fun c => (c.Encipher (runes ("HELLO")) true).bind (fun E => c.Decipher E true)) =
      some [] := by
  decide

/-- C3, witness: countersign `KEY` over `A`-`Z`, an input with symbols outside the alphabet, in
non-strict mode. -/
theorem text_autoclave_roundtrip_witness :
    ∃ c, MakeVigenereTextAutoclaveCipher (runes ("KEY")) latin = some c ∧
      ∃ E, c.Encipher (runes ("HELLO, WORLD!")) false = some E ∧
        c.Decipher E false = some (runes ("HELLO, WORLD!")) ∧
        ∃ st, c.encipherRun (runes ("HELLO, WORLD!")) false = some (st, E) ∧
          c.decipherRun E false = some (st, runes ("HELLO, WORLD!")) :=
  text_autoclave_roundtrip (runes ("KEY")) latin (runes ("HELLO, WORLD!")) false
    (by decide) (by decide) (by decide) (by decide) (Or.inl rfl)

/-- C4, counterexample: in strict mode the key-autoclave cipher with countersign `KEY` enciphers
`A!` to `K`, which deciphers to `A`, not to `A!`. -/
theorem key_autoclave_roundtrip_fails_in_strict_mode :
    (MakeVigenereKeyAutoclaveCipher (runes ("KEY")) latin).bind
        (fun c => c.Encipher (runes ("A!")) true) = some (runes ("K")) ∧
    (MakeVigenereKeyAutoclaveCipher (runes ("KEY")) latin).bind
        (fun c => c.Decipher (runes ("K")) true) = some (runes ("A")) := by
  decide

/-- C4, witness: countersign `KEY` over `A`-`Z`, an input with symbols outside the alphabet, in
non-strict mode. -/
theorem key_autoclave_symmetry_witness :
    ∃ c, MakeVigenereKeyAutoclaveCipher (runes ("KEY")) latin = some c ∧
      ∃ E, c.Encipher (runes ("HELLO, WORLD!")) false = some E ∧
        c.Decipher E false = some (runes ("HELLO, WORLD!")) ∧
        ∀ j, ∃ stj,
          c.encipherRun ((runes ("HELLO, WORLD!")).take j) false = some (stj, E.take j) ∧
          c.decipherRun (E.take j) false = some (stj, (runes ("HELLO, WORLD!")).take j) :=
  key_autoclave_symmetry (runes ("KEY")) latin (runes ("HELLO, WORLD!")) false
    (by decide) (by decide) (by decide) (by decide) (by decide) (Or.inl rfl)

/-- C5, counterexample: with an empty countersign, `Encipher` of the single out-of-alphabet
symbol `!` panics in non-strict mode instead of returning `!`. -/
theorem passthrough_fails_for_empty_countersign :
    (MakeVigenereCipher [] latin).isSome = true ∧ (∀ r ∈ runes ("!"), r ∉ latin) ∧
    (MakeVigenereCipher [] latin).bind (fun c => c.Encipher (runes ("!")) false) = none := by
  decide

/-- C5, witness: the key-autoclave cipher with countersign `KEY` over `A`-`Z`. -/
theorem nonstrict_passthrough_witness :
    ∃ c0, MakeVigenereFamilyCipher (runes ("KEY")) latin latin latin = some c0 ∧
      ∃ E, (c0.setAutoclave false true).Encipher (runes ("HE, LLO!")) false = some E ∧
        E.length = (runes ("HE, LLO!")).length ∧
        (∀ (j : Nat) (r : Rune), (runes ("HE, LLO!"))[j]? = some r → r ∉ latin →
          E[j]? = some r) ∧
        (c0.setAutoclave false true).Encipher
            ((runes ("HE, LLO!")).filter (fun r => decide (r ∈ latin))) false =
          some ((((runes ("HE, LLO!")).zip E).filter
            (fun p => decide (p.1 ∈ latin))).map Prod.snd) := by
  obtain ⟨c0, hc0⟩ := vigenere_isSome (runes ("KEY")) latin latin latin rfl
  exact ⟨c0, hc0, nonstrict_passthrough (runes ("KEY")) latin latin latin (runes ("HE, LLO!"))
    false true c0 (Or.inl hc0) (by decide) (by decide) (by decide)⟩

/-- C6, counterexample: in strict mode `Encipher` turns the 8 runes of `HE, LLO!` into the 5
runes of `RIJVS`, and `Decipher` turns the 6 runes of `RIJVS!` into the 5 runes of `HELLO`. -/
theorem strict_mode_shortens_output :
    (MakeVigenereCipher (runes ("KEY")) latin).bind
        (fun c => c.Encipher (runes ("HE, LLO!")) true) = some (runes ("RIJVS")) ∧
    (runes ("HE, LLO!")).length = 8 ∧ (runes ("RIJVS")).length = 5 ∧
    (MakeVigenereCipher (runes ("KEY")) latin).bind
        (fun c => c.Decipher (runes ("RIJVS!")) true) = some (runes ("HELLO")) := by
  decide

/-- C6, witness: the Vigenere cipher with countersign `KEY` over `A`-`Z` in non-strict mode. -/
theorem length_never_grows_witness :
    ∃ c0, MakeVigenereFamilyCipher (runes ("KEY")) latin latin latin = some c0 ∧
      ∃ E D, (c0.setAutoclave false false).Encipher (runes ("HE, LLO!")) false = some E ∧
        E.length ≤ (runes ("HE, LLO!")).length ∧
        (false = false → E.length = (runes ("HE, LLO!")).length) ∧
        (c0.setAutoclave false false).Decipher (runes ("HE, LLO!")) false = some D ∧
        D.length ≤ (runes ("HE, LLO!")).length ∧
        (false = false → D.length = (runes ("HE, LLO!")).length) := by
  obtain ⟨c0, hc0⟩ := vigenere_isSome (runes ("KEY")) latin latin latin rfl
  exact ⟨c0, hc0, length_never_grows (runes ("KEY")) latin latin latin (runes ("HE, LLO!"))
    false false false c0 (Or.inl hc0) (by decide) (by decide) (by decide) (by decide)⟩

/-- C7, counterexample: in strict mode `Encipher` of `A!` returns the output string `K` and
`Decipher` of `K!` returns the output string `A`; neither signals an error. -/
theorem strict_mode_returns_output :
    (MakeVigenereCipher (runes ("KEY")) latin).bind
        (fun c => c.Encipher (runes ("A!")) true) = some (runes ("K")) ∧
    (MakeVigenereCipher (runes ("KEY")) latin).bind
        (fun c => c.Decipher (runes ("K!")) true) = some (runes ("A")) ∧
    (∃ r ∈ runes ("A!"), r ∉ latin) := by
  decide

/-- C7, witness: the Vigenere cipher with countersign `KEY` over `A`-`Z`. -/
theorem strict_deletes_unknown_symbols_witness :
    ∃ c0, MakeVigenereFamilyCipher (runes ("KEY")) latin latin latin = some c0 ∧
      ∃ E D, (c0.setAutoclave false false).Encipher (runes ("HE, LLO!")) true = some E ∧
        (c0.setAutoclave false false).Encipher
          ((runes ("HE, LLO!")).filter (fun r => decide (r ∈ latin))) true = some E ∧
        ((∃ r ∈ runes ("HE, LLO!"), r ∉ latin) → E.length < (runes ("HE, LLO!")).length) ∧
        (c0.setAutoclave false false).Decipher (runes ("HE, LLO!")) true = some D ∧
        (c0.setAutoclave false false).Decipher
          ((runes ("HE, LLO!")).filter (fun r => decide (r ∈ latin))) true = some D ∧
        ((∃ r ∈ runes ("HE, LLO!"), r ∉ latin) → D.length < (runes ("HE, LLO!")).length) := by
  obtain ⟨c0, hc0⟩ := vigenere_isSome (runes ("KEY")) latin latin latin rfl
  exact ⟨c0, hc0, strict_deletes_unknown_symbols (runes ("KEY")) latin latin latin
    (runes ("HE, LLO!")) false false c0 (Or.inl hc0) (by decide)⟩

/-- C8, witness: the Della Porta cipher with countersign `KEY` over `A`-`Z`. -/
theorem dellaPorta_reciprocal_witness :
    ∃ c E, MakeDellaPortaCipher (runes ("KEY")) latin = some c ∧
      c.Encipher (runes ("HELLO")) false = some E ∧ c.Decipher (runes ("HELLO")) false = some E ∧
      ∀ k r, k ∈ latin → r ∈ latin →
        ∃ o, (c.cipherAt k).encipherRune r false = (o, true) ∧
          (c.cipherAt k).encipherRune o false = (r, true) :=
  dellaPorta_reciprocal latin (runes ("KEY")) (runes ("HELLO")) false
    (by decide) (by decide) (by decide)

/-- C9, witness: over `A`-`Z` the digit key `3140` is the Vigenere countersign `DBEA`. -/
theorem gronsfeld_is_vigenere_witness :
    [3, 1, 4, 0].map digitRune = runes ("3140") ∧
    [3, 1, 4, 0].map (fun d => latin.getD d 0) = runes ("DBEA") ∧
    ∃ cg cv E, MakeGronsfeldCipher ([3, 1, 4, 0].map digitRune) latin = some cg ∧
      MakeVigenereCipher ([3, 1, 4, 0].map (fun d => latin.getD d 0)) latin = some cv ∧
      cg.Encipher (runes ("HELLO")) false = some E ∧
      cv.Encipher (runes ("HELLO")) false = some E ∧
      ∀ (d p : Nat) (r o : Rune), d < 10 → latin[p]? = some r →
        latin[(p + d) % latin.length]? = some o →
        (cg.cipherAt (digitRune d)).encipherRune r false = (o, true) :=
  ⟨by decide, by decide,
    gronsfeld_is_vigenere latin [3, 1, 4, 0] (runes ("HELLO")) false
      (by decide) (by decide) (by decide) (by decide)⟩

/-- C10, witness: the Beaufort cipher with countersign `KEY` over `A`-`Z`. -/
theorem beaufort_reciprocal_witness :
    ∃ c E, MakeBeaufortCipher (runes ("KEY")) latin = some c ∧
      c.Encipher (runes ("HELLO")) false = some E ∧ c.Decipher (runes ("HELLO")) false = some E ∧
      ∀ (q p : Nat) (k r o : Rune), latin[q]? = some k → latin[p]? = some r →
        latin[(((q : Int) - (p : Int)) % (latin.length : Int)).toNat]? = some o →
        (c.cipherAt k).encipherRune r false = (o, true) ∧
        (c.cipherAt k).decipherRune r false = (o, true) :=
  beaufort_reciprocal latin (runes ("KEY")) (runes ("HELLO")) false (by decide) (by decide)

/-! ## The Trithemius cipher -/

theorem trithemius_run {A : List Rune} {c : VigenereFamilyCipher}
    (hc : MakeVigenereFamilyCipher A A A A = some c) (hA : A.Nodup) (htA : IsText A)
    (hne : A ≠ []) (strict : Bool) :
    ∀ (S : List Rune) (n : Nat), IsText S →
      stringsMap (c.encipherMapping strict) { keyRunes := A, transcodedCharCount := n } S =
        some ({ keyRunes := A
                transcodedCharCount := n + (S.filter (fun r => decide (r ∈ A))).length },
              progressiveShift A strict n S) := by
  obtain ⟨_, _, hta, hka, _⟩ := built_facts (Or.inl hc)
  have hpos : 0 < A.length := List.length_pos.mpr hne
  intro S
  induction S with
  | nil => intro n _; rfl
  | cons r rest ih =>
    intro n hS
    have hr0 : 0 ≤ r := hS r (List.mem_cons_self _ _)
    have hrest : IsText rest := fun x hx => hS x (List.mem_cons_of_mem _ hx)
    obtain ⟨k, _, hk⟩ := key_read hne n
    have hmk := vigenere_row hc hA hk
    by_cases hr : r ∈ A
    · have hlt : (A.indexOf r + n) % A.length < A.length := Nat.mod_lt _ hpos
      have hget : A[(A.indexOf r + n % A.length) % A.length]? =
          some (A.getD ((A.indexOf r + n) % A.length) 0) := by
        rw [Nat.add_mod_mod]
        exact getElem?_getD_of_lt hlt
      have henc := rotate_row_enc hmk hA (getElem?_indexOf hr) hget strict
      have h0 : 0 ≤ A.getD ((A.indexOf r + n) % A.length) 0 :=
        htA _ (List.getElem?_mem hget)
      have hstep := @encipherMapping_ok c strict { keyRunes := A, transcodedCharCount := n }
        r k _ hk henc
      rw [feedback_nil hta hka, List.append_nil] at hstep
      rw [stringsMap_cons _ _ _ _ r _ rest _ hstep (ih (n + 1) hrest), if_pos h0]
      simp only [progressiveShift, if_pos hr, List.filter_cons_of_pos (p := fun r => decide (r ∈ A))
        (show decide (r ∈ A) = true by simpa using hr), List.length_cons]
      congr 3
      omega
    · have henc : (c.cipherAt k).encipherRune r strict = (if strict then -1 else r, false) := by
        rcases row_enc_cases hmk r strict with ⟨o, hro, _⟩ | ⟨_, h⟩
        · exact absurd (List.of_mem_zip hro).1 hr
        · exact h
      have hstep := @encipherMapping_skip c strict { keyRunes := A, transcodedCharCount := n }
        r k _ hk henc
      rw [stringsMap_cons _ _ _ _ r _ rest _ hstep (ih n hrest)]
      simp only [progressiveShift, if_neg hr, List.filter_cons_of_neg
        (p := fun r => decide (r ∈ A)) (show ¬ decide (r ∈ A) = true by simpa using hr)]
      cases strict
      · simp [hr0]
      · simp

/-- C11: for an alphabet `A` of `n` distinct symbols and any input `S`,
`MakeTrithemiusCipher(A).Encipher(S)` is the progressive shift: the `k`-th transcoded symbol
(counting only in-alphabet symbols), of index `p` in `A`, is replaced by `A[(p + k) mod n]`; the
key stream stays the alphabet itself and the count ends at the number of in-alphabet symbols, so
the key rune of the `k`-th transcoded symbol is `A[k mod n]`.  (With the empty alphabet nothing
can be transcoded, and `Encipher` of a non-empty input panics at the key read.) -/
theorem trithemius_progressive_shift (A S : List Rune) (strict : Bool)
    (hA : A.Nodup) (htA : IsText A) (htS : IsText S) :
    ∃ c, MakeTrithemiusCipher A = some c ∧
      c.encipherRun S strict =
        (if A = [] ∧ S ≠ [] then none
         else some ({ keyRunes := A
                      transcodedCharCount := (S.filter (fun r => decide (r ∈ A))).length },
                    progressiveShift A strict 0 S)) ∧
      c.Encipher S strict =
        (if A = [] ∧ S ≠ [] then none else some (progressiveShift A strict 0 S)) := by
  obtain ⟨c, hc⟩ := vigenere_isSome A A A A rfl
  obtain ⟨_, hcs, _, _, _⟩ := built_facts (Or.inl hc)
  have hrun : c.encipherRun S strict =
      (if A = [] ∧ S ≠ [] then none
       else some ({ keyRunes := A
                    transcodedCharCount := (S.filter (fun r => decide (r ∈ A))).length },
                  progressiveShift A strict 0 S)) := by
    unfold VigenereFamilyCipher.encipherRun VigenereFamilyCipher.start
    rw [hcs]
    by_cases hne : A = []
    · subst hne
      cases S with
      | nil => simp [stringsMap, progressiveShift]
      | cons r rest =>
        simp only [stringsMap, encipherMapping_empty]
        simp
    · rw [if_neg (fun h => hne h.1), trithemius_run hc hA htA hne strict S 0 htS, Nat.zero_add]
  refine ⟨c, hc, hrun, ?_⟩
  unfold VigenereFamilyCipher.Encipher
  rw [hrun]
  split <;> rfl

/-- C11, witness: over `A`-`Z`, `AAAA` enciphers to `ABCD` and the symbols outside the alphabet
do not advance the shift. -/
theorem trithemius_progressive_shift_witness :
    progressiveShift latin false 0 (runes ("AA, AA!")) = runes ("AB, CD!") ∧
    ∃ c, MakeTrithemiusCipher latin = some c ∧
      c.encipherRun (runes ("AA, AA!")) false =
        (if latin = [] ∧ runes ("AA, AA!") ≠ [] then none
         else some ({ keyRunes := latin
                      transcodedCharCount :=
                        ((runes ("AA, AA!")).filter (fun r => decide (r ∈ latin))).length },
                    progressiveShift latin false 0 (runes ("AA, AA!")))) ∧
      c.Encipher (runes ("AA, AA!")) false =
        (if latin = [] ∧ runes ("AA, AA!") ≠ [] then none
         else some (progressiveShift latin false 0 (runes ("AA, AA!")))) :=
  ⟨by decide,
    trithemius_progressive_shift latin (runes ("AA, AA!")) false (by decide) (by decide)
      (by decide)⟩

/-! ## A key rune without a row -/

/-- When the key rune at the current key index has no row, the key index never advances: every
further symbol is passed through (non-strict) or deleted (strict), in both directions. -/
theorem stuck_run (c : VigenereFamilyCipher) (strict : Bool) (st : KeyStream) (k : Rune)
    (hk : st.keyRunes[st.transcodedCharCount % st.keyRunes.length]? = some k)
    (hnone : c.ciphers.lookup k = none) :
    ∀ (S : List Rune), IsText S →
      stringsMap (c.encipherMapping strict) st S = some (st, if strict then [] else S) ∧
      stringsMap (c.decipherMapping strict) st S = some (st, if strict then [] else S) := by
  have hz : c.cipherAt k = SimpleSubstitutionCipher.zero := by
    unfold VigenereFamilyCipher.cipherAt
    rw [hnone]; rfl
  have henc : ∀ r, (c.cipherAt k).encipherRune r strict = (if strict then -1 else r, false) := by
    intro r; rw [hz]; exact zero_enc r strict
  have hdec : ∀ r, (c.cipherAt k).decipherRune r strict = (if strict then -1 else r, false) := by
    intro r; rw [hz]; exact zero_dec r strict
  intro S
  induction S with
  | nil => intro _; cases strict <;> exact ⟨rfl, rfl⟩
  | cons r rest ih =>
    intro hS
    have hr0 : 0 ≤ r := hS r (List.mem_cons_self _ _)
    obtain ⟨ihe, ihd⟩ := ih (fun x hx => hS x (List.mem_cons_of_mem _ hx))
    rw [stringsMap_cons _ st st st r _ rest _ (encipherMapping_skip hk (henc r)) ihe,
      stringsMap_cons _ st st st r _ rest _ (decipherMapping_skip hk (hdec r)) ihd]
    cases strict
    · simp [hr0]
    · simp

theorem lookup_none_of_not_mem_key {K pt ct key : List Rune} {c : VigenereFamilyCipher}
    (hc : MakeVigenereFamilyCipher K pt ct key = some c ∨
      MakeDellaPortaReciprocalTable K pt ct key = some c) {k : Rune} (hk : k ∉ key) :
    c.ciphers.lookup k = none := by
  have hno : ∀ i, (i, k) ∉ key.enum := by
    intro i hi
    exact hk (List.getElem?_mem (List.mk_mem_enum_iff_getElem?.mp hi))
  rcases hc with h | h
  · rcases fillCiphers_lookup _ _ _ _ _ (vigenere_ciphers h).1 k with
      ⟨i, _, _, hmem, _⟩ | ⟨_, hl⟩
    · exact absurd hmem (hno i)
    · rw [hl]; rfl
  · rcases fillCiphers_lookup _ _ _ _ _ (dellaPorta_ciphers h).2.1 k with
      ⟨i, _, _, hmem, _⟩ | ⟨_, hl⟩
    · exact absurd hmem (hno i)
    · rw [hl]; rfl

/-- C17 (amended): a key symbol without a tableau is not signalled as a failure.  For every
cipher, once an input `S1` has brought `Encipher` (or `Decipher`) to a key rune that is not in
the key alphabet, the call still returns an output string: every further symbol of the input is
passed through unchanged when `strict` is false and deleted when `strict` is true, and the key
index stays on that key rune. -/
theorem missing_key_tableau_is_not_an_error (K pt ct key S1 S2 : List Rune)
    (ta ka strict : Bool) (c0 : VigenereFamilyCipher)
    (hc0 : MakeVigenereFamilyCipher K pt ct key = some c0 ∨
      MakeDellaPortaReciprocalTable K pt ct key = some c0)
    (htS2 : IsText S2) :
    (∀ (st : KeyStream) (E1 : List Rune) (k : Rune),
      (c0.setAutoclave ta ka).encipherRun S1 strict = some (st, E1) →
      st.keyRunes[st.transcodedCharCount % st.keyRunes.length]? = some k → k ∉ key →
      (c0.setAutoclave ta ka).encipherRun (S1 ++ S2) strict =
          some (st, E1 ++ if strict then [] else S2) ∧
      (c0.setAutoclave ta ka).Encipher (S1 ++ S2) strict =
          some (E1 ++ if strict then [] else S2)) ∧
    (∀ (st : KeyStream) (D1 : List Rune) (k : Rune),
      (c0.setAutoclave ta ka).decipherRun S1 strict = some (st, D1) →
      st.keyRunes[st.transcodedCharCount % st.keyRunes.length]? = some k → k ∉ key →
      (c0.setAutoclave ta ka).decipherRun (S1 ++ S2) strict =
          some (st, D1 ++ if strict then [] else S2) ∧
      (c0.setAutoclave ta ka).Decipher (S1 ++ S2) strict =
          some (D1 ++ if strict then [] else S2)) := by
  have hnone : ∀ k, k ∉ key → (c0.setAutoclave ta ka).ciphers.lookup k = none :=
    fun k hk => lookup_none_of_not_mem_key hc0 hk
  constructor
  · intro st E1 k hrun hk hbad
    have hstuck := (stuck_run _ strict st k hk (hnone k hbad) S2 htS2).1
    have happ := stringsMap_append _ _ _ _ _ _ _ _ hrun hstuck
    refine ⟨happ, ?_⟩
    unfold VigenereFamilyCipher.Encipher VigenereFamilyCipher.encipherRun
    rw [happ]; rfl
  · intro st D1 k hrun hk hbad
    have hstuck := (stuck_run _ strict st k hk (hnone k hbad) S2 htS2).2
    have happ := stringsMap_append _ _ _ _ _ _ _ _ hrun hstuck
    refine ⟨happ, ?_⟩
    unfold VigenereFamilyCipher.Decipher VigenereFamilyCipher.decipherRun
    rw [happ]; rfl

/-- C17, counterexample: over `A`-`Z` with the countersign `Kx`, whose second rune is not in the
key alphabet, `Encipher` and `Decipher` of `HELLO` return output strings (`RELLO` and `XELLO`,
in strict mode `R` and `X`) and signal no failure. -/
theorem missing_key_tableau_produces_output :
    (∃ k ∈ runes ("Kx"), k ∉ latin) ∧
    (MakeVigenereCipher (runes ("Kx")) latin).bind
        (fun c => c.Encipher (runes ("HELLO")) false) = some (runes ("RELLO")) ∧
    (MakeVigenereCipher (runes ("Kx")) latin).bind
        (fun c => c.Decipher (runes ("HELLO")) false) = some (runes ("XELLO")) ∧
    (MakeVigenereCipher (runes ("Kx")) latin).bind
        (fun c => c.Encipher (runes ("HELLO")) true) = some (runes ("R")) ∧
    (MakeVigenereCipher (runes ("Kx")) latin).bind
        (fun c => c.Decipher (runes ("HELLO")) true) = some (runes ("X")) := by
  decide

/-- C17, witness: the Vigenere cipher over `A`-`Z` with countersign `Kx`; after `H` the key
index stands on `x`, and `ELLO` is passed through. -/
theorem missing_key_tableau_is_not_an_error_witness :
    ∃ c0, MakeVigenereFamilyCipher (runes ("Kx")) latin latin latin = some c0 ∧
      (c0.setAutoclave false false).Encipher (runes ("H") ++ runes ("ELLO")) false =
        some (runes ("R") ++ runes ("ELLO")) ∧
      (c0.setAutoclave false false).Decipher (runes ("H") ++ runes ("ELLO")) false =
        some (runes ("X") ++ runes ("ELLO")) := by
  obtain ⟨c0, hc0⟩ := vigenere_isSome (runes ("Kx")) latin latin latin rfl
  have hthm := missing_key_tableau_is_not_an_error (runes ("Kx")) latin latin latin
    (runes ("H")) (runes ("ELLO")) false false false c0 (Or.inl hc0) (by decide)
  have hE : (MakeVigenereFamilyCipher (runes ("Kx")) latin latin latin).bind
      (fun c => (c.setAutoclave false false).encipherRun (runes ("H")) false) =
      some ({ keyRunes := runes ("Kx"), transcodedCharCount := 1 }, runes ("R")) := by decide
  have hD : (MakeVigenereFamilyCipher (runes ("Kx")) latin latin latin).bind
      (fun c => (c.setAutoclave false false).decipherRun (runes ("H")) false) =
      some ({ keyRunes := runes ("Kx"), transcodedCharCount := 1 }, runes ("X")) := by decide
  rw [hc0] at hE hD
  exact ⟨c0, hc0, (hthm.1 _ _ (120 : Int) hE (by decide) (by decide)).2,
    (hthm.2 _ _ (120 : Int) hD (by decide) (by decide)).2⟩

/-! ## Odd-length alphabets -/

/-- C18: for every ciphertext alphabet with an odd number of runes
`MakeDellaPortaReciprocalTable` and `MakeDellaPortaCipher` fail (panic), whatever the other
alphabets are, and for every string with an odd number of runes `owrapString` fails, whatever
the offset is; the parity is that of the rune count. -/
theorem odd_alphabets_rejected (K pt ct key A s : List Rune) (i : Nat)
    (hct : ct.length % 2 = 1) (hA : A.length % 2 = 1) (hs : s.length % 2 = 1) :
    MakeDellaPortaReciprocalTable K pt ct key = none ∧ MakeDellaPortaCipher K A = none ∧
      owrapString s i = none := by
  refine ⟨?_, ?_, ?_⟩
  · unfold MakeDellaPortaReciprocalTable
    rw [if_pos (by omega)]
  · unfold MakeDellaPortaCipher MakeDellaPortaReciprocalTable
    rw [if_pos (by omega)]
  · unfold owrapString
    simp only
    rw [if_pos (by omega)]

/-- C18, witness: the one-rune, two-byte alphabet `é` is rejected, and the two-rune, three-byte
alphabet `éa` is not: the parity is counted in runes, not bytes. -/
theorem odd_alphabets_rejected_witness :
    (runes ("é")).length = 1 ∧ byteLen (runes ("é")) = 2 ∧
    (runes ("éa")).length = 2 ∧ byteLen (runes ("éa")) = 3 ∧
    (MakeDellaPortaCipher (runes ("a")) (runes ("éa"))).isSome = true ∧
    (owrapString (runes ("éa")) 0).isSome = true ∧
    (MakeDellaPortaReciprocalTable (runes ("é")) (runes ("é")) (runes ("é")) (runes ("é")) = none ∧
      MakeDellaPortaCipher (runes ("é")) (runes ("é")) = none ∧
      owrapString (runes ("é")) 0 = none) :=
  ⟨by decide, by decide, by decide, by decide, by decide, by decide,
    odd_alphabets_rejected (runes ("é")) (runes ("é")) (runes ("é")) (runes ("é")) (runes ("é"))
      (runes ("é")) 0 (by decide) (by decide) (by decide)⟩

/-! ## The key stream as an invariant of the run -/

theorem encipherMapping_cases (c : VigenereFamilyCipher) (strict : Bool) (st st1 : KeyStream)
    (r o : Rune) (h : c.encipherMapping strict st r = some (st1, o)) :
    ∃ k, st.keyRunes[st.transcodedCharCount % st.keyRunes.length]? = some k ∧
      o = ((c.cipherAt k).encipherRune r strict).1 ∧
      (((c.cipherAt k).encipherRune r strict).2 = false → st1 = st) ∧
      (((c.cipherAt k).encipherRune r strict).2 = true →
        st1 = { keyRunes := st.keyRunes ++ feedback c r o
                transcodedCharCount := st.transcodedCharCount + 1 }) := by
  cases hk : st.keyRunes[st.transcodedCharCount % st.keyRunes.length]? with
  | none =>
    unfold VigenereFamilyCipher.encipherMapping at h
    simp only [hk] at h
    cases h
  | some k =>
    refine ⟨k, rfl, ?_⟩
    cases he : (c.cipherAt k).encipherRune r strict with
    | mk o' ok =>
      cases ok with
      | true =>
        rw [encipherMapping_ok hk he] at h
        simp only [Option.some.injEq, Prod.mk.injEq] at h
        obtain ⟨h1, h2⟩ := h
        subst h2
        exact ⟨rfl, fun hf => (by cases hf), fun _ => h1.symm⟩
      | false =>
        rw [encipherMapping_skip hk he] at h
        simp only [Option.some.injEq, Prod.mk.injEq] at h
        obtain ⟨h1, h2⟩ := h
        subst h2
        exact ⟨rfl, fun _ => h1.symm, fun hf => (by cases hf)⟩

theorem decipherMapping_cases (c : VigenereFamilyCipher) (strict : Bool) (st st1 : KeyStream)
    (r o : Rune) (h : c.decipherMapping strict st r = some (st1, o)) :
    ∃ k, st.keyRunes[st.transcodedCharCount % st.keyRunes.length]? = some k ∧
      o = ((c.cipherAt k).decipherRune r strict).1 ∧
      (((c.cipherAt k).decipherRune r strict).2 = false → st1 = st) ∧
      (((c.cipherAt k).decipherRune r strict).2 = true →
        st1 = { keyRunes := st.keyRunes ++ feedback c o r
                transcodedCharCount := st.transcodedCharCount + 1 }) := by
  cases hk : st.keyRunes[st.transcodedCharCount % st.keyRunes.length]? with
  | none =>
    unfold VigenereFamilyCipher.decipherMapping at h
    simp only [hk] at h
    cases h
  | some k =>
    refine ⟨k, rfl, ?_⟩
    cases he : (c.cipherAt k).decipherRune r strict with
    | mk o' ok =>
      cases ok with
      | true =>
        rw [decipherMapping_ok hk he] at h
        simp only [Option.some.injEq, Prod.mk.injEq] at h
        obtain ⟨h1, h2⟩ := h
        subst h2
        exact ⟨rfl, fun hf => (by cases hf), fun _ => h1.symm⟩
      | false =>
        rw [decipherMapping_skip hk he] at h
        simp only [Option.some.injEq, Prod.mk.injEq] at h
        obtain ⟨h1, h2⟩ := h
        subst h2
        exact ⟨rfl, fun _ => h1.symm, fun hf => (by cases hf)⟩

theorem encipher_growsBy (c : VigenereFamilyCipher) (strict : Bool) :
    GrowsBy (c.encipherMapping strict) (fun r o => feedback c r o) := by
  intro st st1 r o h
  obtain ⟨k, _, _, hfalse, htrue⟩ := encipherMapping_cases c strict st st1 r o h
  cases hok : ((c.cipherAt k).encipherRune r strict).2 with
  | false => exact Or.inl (hfalse hok)
  | true => rw [htrue hok]; exact Or.inr ⟨rfl, rfl⟩

theorem decipher_growsBy (c : VigenereFamilyCipher) (strict : Bool) :
    GrowsBy (c.decipherMapping strict) (fun r o => feedback c o r) := by
  intro st st1 r o h
  obtain ⟨k, _, _, hfalse, htrue⟩ := decipherMapping_cases c strict st st1 r o h
  cases hok : ((c.cipherAt k).decipherRune r strict).2 with
  | false => exact Or.inl (hfalse hok)
  | true => rw [htrue hok]; exact Or.inr ⟨rfl, rfl⟩

/-- After any run the count is the number of transcoded symbols and the key stream is the
initial one followed by the feedback of the transcoded symbols, in order. -/
theorem growsBy_run {f : KeyStream → Rune → Option (KeyStream × Rune)}
    {fb : Rune → Rune → List Rune} (hf : GrowsBy f fb) :
    ∀ (S : List Rune) (st st1 : KeyStream) (E : List Rune),
      stringsMap f st S = some (st1, E) →
      st1.transcodedCharCount = st.transcodedCharCount + (transcodedPairs f st S).length ∧
      st1.keyRunes = st.keyRunes ++ ((transcodedPairs f st S).map (fun p => fb p.1 p.2)).flatten := by
  intro S
  induction S with
  | nil =>
    intro st st1 E h
    simp only [stringsMap, Option.some.injEq, Prod.mk.injEq] at h
    obtain ⟨rfl, _⟩ := h
    simp [transcodedPairs]
  | cons r rest ih =>
    intro st st1 E h
    simp only [stringsMap] at h
    cases hm : f st r with
    | none => simp only [hm] at h; cases h
    | some p =>
      obtain ⟨sta, o⟩ := p
      simp only [hm] at h
      cases hr : stringsMap f sta rest with
      | none => simp only [hr] at h; cases h
      | some q =>
        obtain ⟨stb, out⟩ := q
        simp only [hr, Option.some.injEq, Prod.mk.injEq] at h
        obtain ⟨rfl, _⟩ := h
        obtain ⟨hcount, hkeys⟩ := ih sta stb out hr
        simp only [transcodedPairs, hm]
        rcases hf st sta r o hm with hsame | ⟨hc1, hk1⟩
        · subst hsame
          rw [if_neg (by omega)]
          exact ⟨hcount, hkeys⟩
        · rw [if_pos hc1]
          simp only [List.length_cons, List.map_cons, List.flatten_cons]
          rw [hcount, hkeys, hk1, hc1]
          exact ⟨by omega, by simp⟩

theorem mapping_total (c : VigenereFamilyCipher) (strict : Bool) (st : KeyStream) (r : Rune)
    (hst : st.keyRunes ≠ []) :
    (∃ st1 o, c.encipherMapping strict st r = some (st1, o) ∧ st1.keyRunes ≠ []) ∧
    (∃ st1 o, c.decipherMapping strict st r = some (st1, o) ∧ st1.keyRunes ≠ []) := by
  obtain ⟨k, _, hk⟩ := key_read hst st.transcodedCharCount
  constructor
  · cases he : (c.cipherAt k).encipherRune r strict with
    | mk o ok =>
      cases ok with
      | true =>
        exact ⟨_, o, encipherMapping_ok hk he, fun h => hst (List.append_eq_nil.mp h).1⟩
      | false => exact ⟨st, o, encipherMapping_skip hk he, hst⟩
  · cases he : (c.cipherAt k).decipherRune r strict with
    | mk o ok =>
      cases ok with
      | true =>
        exact ⟨_, o, decipherMapping_ok hk he, fun h => hst (List.append_eq_nil.mp h).1⟩
      | false => exact ⟨st, o, decipherMapping_skip hk he, hst⟩

theorem runs_total (c : VigenereFamilyCipher) (strict : Bool) :
    ∀ (S : List Rune) (st : KeyStream), st.keyRunes ≠ [] →
      (∃ res, stringsMap (c.encipherMapping strict) st S = some res) ∧
      (∃ res, stringsMap (c.decipherMapping strict) st S = some res) := by
  intro S
  induction S with
  | nil => intro st _; exact ⟨⟨_, rfl⟩, ⟨_, rfl⟩⟩
  | cons r rest ih =>
    intro st hst
    obtain ⟨⟨se, oe, he, hse⟩, ⟨sd, od, hd, hsd⟩⟩ := mapping_total c strict st r hst
    obtain ⟨⟨re, hre⟩, _⟩ := ih se hse
    obtain ⟨_, ⟨rd, hrd⟩⟩ := ih sd hsd
    exact ⟨⟨_, stringsMap_cons _ st se re.1 r oe rest re.2 he hre⟩,
      ⟨_, stringsMap_cons _ st sd rd.1 r od rest rd.2 hd hrd⟩⟩

theorem flatten_feedback (c : VigenereFamilyCipher) (P : List (Rune × Rune)) :
    (P.map (fun p => feedback c p.1 p.2)).flatten =
      (if c.Textautoclave then P.map Prod.fst
       else if c.Keyautoclave then P.map Prod.snd else []) := by
  unfold feedback
  cases c.Textautoclave <;> cases c.Keyautoclave <;>
    induction P with
    | nil => simp
    | cons p rest ih => simp_all

theorem flatten_feedback_swap (c : VigenereFamilyCipher) (P : List (Rune × Rune)) :
    (P.map (fun p => feedback c p.2 p.1)).flatten =
      (if c.Textautoclave then P.map Prod.snd
       else if c.Keyautoclave then P.map Prod.fst else []) := by
  unfold feedback
  cases c.Textautoclave <;> cases c.Keyautoclave <;>
    induction P with
    | nil => simp
    | cons p rest ih => simp_all

/-- C20: for a non-empty countersign of length `L`, after any input has been processed, with
`k` symbols transcoded, the count is `k` and the key stream is the countersign followed by the
feedback symbols in order: the plaintext symbols under text-autoclave (inputs of `Encipher`,
outputs of `Decipher`), the ciphertext symbols under key-autoclave (outputs of `Encipher`,
inputs of `Decipher`), so that it has length `L + k` and the key index `k mod (L + k)` is `k`;
with no autoclave it is the countersign and the key index is `k mod L`.  One call changes the
count and the key stream only when the symbol is transcoded. -/
theorem key_stream_invariant (c : VigenereFamilyCipher) (S : List Rune) (strict : Bool)
    (hK : c.countersign ≠ []) :
    (∃ st E, c.encipherRun S strict = some (st, E) ∧
      st.transcodedCharCount = (transcodedPairs (c.encipherMapping strict) c.start S).length ∧
      st.keyRunes = c.countersign ++
        (if c.Textautoclave then
          (transcodedPairs (c.encipherMapping strict) c.start S).map Prod.fst
         else if c.Keyautoclave then
          (transcodedPairs (c.encipherMapping strict) c.start S).map Prod.snd
         else []) ∧
      ((c.Textautoclave = true ∨ c.Keyautoclave = true) →
        st.keyRunes.length = c.countersign.length + st.transcodedCharCount ∧
        st.transcodedCharCount % st.keyRunes.length = st.transcodedCharCount) ∧
      ((c.Textautoclave = false ∧ c.Keyautoclave = false) →
        st.keyRunes = c.countersign ∧
        st.transcodedCharCount % st.keyRunes.length =
          st.transcodedCharCount % c.countersign.length)) ∧
    (∃ st D, c.decipherRun S strict = some (st, D) ∧
      st.transcodedCharCount = (transcodedPairs (c.decipherMapping strict) c.start S).length ∧
      st.keyRunes = c.countersign ++
        (if c.Textautoclave then
          (transcodedPairs (c.decipherMapping strict) c.start S).map Prod.snd
         else if c.Keyautoclave then
          (transcodedPairs (c.decipherMapping strict) c.start S).map Prod.fst
         else []) ∧
      ((c.Textautoclave = true ∨ c.Keyautoclave = true) →
        st.keyRunes.length = c.countersign.length + st.transcodedCharCount ∧
        st.transcodedCharCount % st.keyRunes.length = st.transcodedCharCount) ∧
      ((c.Textautoclave = false ∧ c.Keyautoclave = false) →
        st.keyRunes = c.countersign ∧
        st.transcodedCharCount % st.keyRunes.length =
          st.transcodedCharCount % c.countersign.length)) ∧
    (∀ (st st1 : KeyStream) (r o : Rune), c.encipherMapping strict st r = some (st1, o) →
      ∃ k, st.keyRunes[st.transcodedCharCount % st.keyRunes.length]? = some k ∧
        (((c.cipherAt k).encipherRune r strict).2 = false → st1 = st) ∧
        (((c.cipherAt k).encipherRune r strict).2 = true →
          st1 = { keyRunes := st.keyRunes ++ feedback c r o
                  transcodedCharCount := st.transcodedCharCount + 1 })) ∧
    (∀ (st st1 : KeyStream) (r o : Rune), c.decipherMapping strict st r = some (st1, o) →
      ∃ k, st.keyRunes[st.transcodedCharCount % st.keyRunes.length]? = some k ∧
        (((c.cipherAt k).decipherRune r strict).2 = false → st1 = st) ∧
        (((c.cipherAt k).decipherRune r strict).2 = true →
          st1 = { keyRunes := st.keyRunes ++ feedback c o r
                  transcodedCharCount := st.transcodedCharCount + 1 })) := by
  have hst : c.start.keyRunes ≠ [] := hK
  have hpos : 0 < c.countersign.length := List.length_pos.mpr hK
  obtain ⟨⟨⟨ste, E⟩, hE⟩, ⟨⟨std, D⟩, hD⟩⟩ := runs_total c strict S c.start hst
  obtain ⟨hce, hke⟩ := growsBy_run (encipher_growsBy c strict) S c.start ste E hE
  obtain ⟨hcd, hkd⟩ := growsBy_run (decipher_growsBy c strict) S c.start std D hD
  rw [flatten_feedback] at hke
  rw [flatten_feedback_swap] at hkd
  have hc0 : c.start.transcodedCharCount = 0 := rfl
  have hk0 : c.start.keyRunes = c.countersign := rfl
  rw [hc0, Nat.zero_add] at hce hcd
  rw [hk0] at hke hkd
  refine ⟨⟨ste, E, hE, hce, hke, ?_, ?_⟩, ⟨std, D, hD, hcd, hkd, ?_, ?_⟩, ?_, ?_⟩
  · intro hauto
    have hlen : ste.keyRunes.length = c.countersign.length + ste.transcodedCharCount := by
      rw [hke, hce]
      rcases hauto with h | h
      · rw [h]; simp
      · rw [h]; cases c.Textautoclave <;> simp
    exact ⟨hlen, Nat.mod_eq_of_lt (by omega)⟩
  · rintro ⟨ht, hk⟩
    rw [ht, hk] at hke
    simp only [Bool.false_eq_true, if_false, List.append_nil] at hke
    exact ⟨hke, by rw [hke]⟩
  · intro hauto
    have hlen : std.keyRunes.length = c.countersign.length + std.transcodedCharCount := by
      rw [hkd, hcd]
      rcases hauto with h | h
      · rw [h]; simp
      · rw [h]; cases c.Textautoclave <;> simp
    exact ⟨hlen, Nat.mod_eq_of_lt (by omega)⟩
  · rintro ⟨ht, hk⟩
    rw [ht, hk] at hkd
    simp only [Bool.false_eq_true, if_false, List.append_nil] at hkd
    exact ⟨hkd, by rw [hkd]⟩
  · intro st st1 r o h
    obtain ⟨k, hk, _, hf, ht⟩ := encipherMapping_cases c strict st st1 r o h
    exact ⟨k, hk, hf, ht⟩
  · intro st st1 r o h
    obtain ⟨k, hk, _, hf, ht⟩ := decipherMapping_cases c strict st st1 r o h
    exact ⟨k, hk, hf, ht⟩

/-! ## `tabularecta.go`: the length check -/

theorem backpermute_ok (s : List Rune) :
    ∀ (ii : List Nat), (∀ i ∈ ii, i < s.length) →
      ∃ out, Stringutil.Backpermute s ii = Except.ok out := by
  intro ii
  induction ii with
  | nil => intro _; exact ⟨[], rfl⟩
  | cons i rest ih =>
    intro h
    obtain ⟨out, hout⟩ := ih (fun j hj => h j (List.mem_cons_of_mem _ hj))
    have hi : i < s.length := h i (List.mem_cons_self _ _)
    refine ⟨s[i] :: out, ?_⟩
    simp only [Stringutil.Backpermute, List.getElem?_eq_getElem hi, hout]

theorem ctAlphabetsLoop_ok (ctAlphabet : List Rune) :
    ∀ (ys : List Nat), ∃ outs,
      Pasc.ctAlphabetsLoop ctAlphabet ctAlphabet.length ys = Except.ok outs := by
  intro ys
  induction ys with
  | nil => exact ⟨[], rfl⟩
  | cons y rest ih =>
    obtain ⟨outs, houts⟩ := ih
    obtain ⟨out, hout⟩ := backpermute_ok ctAlphabet
      ((List.range ctAlphabet.length).map (fun x => (x + y) % ctAlphabet.length))
      (by
        intro i hi
        obtain ⟨x, hx, rfl⟩ := List.mem_map.mp hi
        exact Nat.mod_lt _ (Nat.lt_of_le_of_lt (Nat.zero_le x) (List.mem_range.mp hx)))
    refine ⟨out :: outs, ?_⟩
    simp only [Pasc.ctAlphabetsLoop, hout, houts]

/-- What the length check of `makereciprocaltable` decides, for any Go string as key alphabet:
the first loop never fails, and the result is the check's error or that of the second loop. -/
theorem makereciprocaltableOfLen_check (tr : Pasc.TabulaRecta) (keyLen : Nat) :
    ∃ ctAlphabets,
      Pasc.ctAlphabetsLoop (if tr.CtAlphabet = [] then tr.PtAlphabet else tr.CtAlphabet)
        (if tr.CtAlphabet = [] then tr.PtAlphabet else tr.CtAlphabet).length
        (List.range tr.KeyAlphabet.length) = Except.ok ctAlphabets ∧
      tr.makereciprocaltableOfLen keyLen =
        (if (if tr.KeyAlphabet = [] then tr.PtAlphabet else tr.KeyAlphabet).length ≠ keyLen then
          some ([], some Pasc.rowHeadersError)
         else
          Pasc.reciprocalLoop tr.PtAlphabet ctAlphabets tr.Strict
            (if tr.KeyAlphabet = [] then tr.PtAlphabet else tr.KeyAlphabet).enum []) := by
  obtain ⟨outs, houts⟩ := ctAlphabetsLoop_ok
    (if tr.CtAlphabet = [] then tr.PtAlphabet else tr.CtAlphabet)
    (List.range tr.KeyAlphabet.length)
  refine ⟨outs, houts, ?_⟩
  unfold Pasc.TabulaRecta.makereciprocaltableOfLen
  simp only [houts]

/-- What the length check of `makereciprocaltable` decides: the first loop never fails, and the
result is the check's error or that of the second loop. -/
theorem makereciprocaltable_check (tr : Pasc.TabulaRecta) :
    ∃ ctAlphabets,
      Pasc.ctAlphabetsLoop (if tr.CtAlphabet = [] then tr.PtAlphabet else tr.CtAlphabet)
        (if tr.CtAlphabet = [] then tr.PtAlphabet else tr.CtAlphabet).length
        (List.range tr.KeyAlphabet.length) = Except.ok ctAlphabets ∧
      tr.makereciprocaltable =
        (if (if tr.KeyAlphabet = [] then tr.PtAlphabet else tr.KeyAlphabet).length ≠
            byteLen (if tr.KeyAlphabet = [] then tr.PtAlphabet else tr.KeyAlphabet) then
          some ([], some Pasc.rowHeadersError)
         else
          Pasc.reciprocalLoop tr.PtAlphabet ctAlphabets tr.Strict
            (if tr.KeyAlphabet = [] then tr.PtAlphabet else tr.KeyAlphabet).enum []) :=
  makereciprocaltableOfLen_check tr
    (byteLen (if tr.KeyAlphabet = [] then tr.PtAlphabet else tr.KeyAlphabet))

/-- What the length check of `makedictsfromfunc` decides when a generator is given, for any Go
string as key alphabet. -/
theorem makedictsfromfuncOfLen_check (tr : Pasc.TabulaRecta) (keyLen : Nat) (f : Pasc.DictFunc)
    (hf : tr.DictFunc = some f) :
    tr.makedictsfromfuncLoggedOfLen keyLen =
      (if (if tr.KeyAlphabet = [] then tr.PtAlphabet else tr.KeyAlphabet).length ≠ keyLen then
        ([], some ([], some Pasc.rowHeadersError))
       else
        Pasc.dictLoop f tr.PtAlphabet tr.Caseless tr.Strict
          (if tr.KeyAlphabet = [] then tr.PtAlphabet else tr.KeyAlphabet).enum [] []) := by
  unfold Pasc.TabulaRecta.makedictsfromfuncLoggedOfLen
  simp only [hf]

/-- What the length check of `makedictsfromfunc` decides when a generator is given. -/
theorem makedictsfromfunc_check (tr : Pasc.TabulaRecta) (f : Pasc.DictFunc)
    (hf : tr.DictFunc = some f) :
    tr.makedictsfromfuncLogged =
      (if (if tr.KeyAlphabet = [] then tr.PtAlphabet else tr.KeyAlphabet).length ≠
          byteLen (if tr.KeyAlphabet = [] then tr.PtAlphabet else tr.KeyAlphabet) then
        ([], some ([], some Pasc.rowHeadersError))
       else
        Pasc.dictLoop f tr.PtAlphabet tr.Caseless tr.Strict
          (if tr.KeyAlphabet = [] then tr.PtAlphabet else tr.KeyAlphabet).enum [] []) :=
  makedictsfromfuncOfLen_check tr
    (byteLen (if tr.KeyAlphabet = [] then tr.PtAlphabet else tr.KeyAlphabet)) f hf

theorem makedictsfromfuncOfLen_builtin (tr : Pasc.TabulaRecta) (keyLen : Nat)
    (hf : tr.DictFunc = none) :
    tr.makedictsfromfuncOfLen keyLen = tr.makereciprocaltableOfLen keyLen ∧
    tr.generatorCallsOfLen keyLen = [] := by
  unfold Pasc.TabulaRecta.makedictsfromfuncOfLen Pasc.TabulaRecta.generatorCallsOfLen
    Pasc.TabulaRecta.makedictsfromfuncLoggedOfLen
  simp only [hf, and_self]

theorem makedictsfromfunc_builtin (tr : Pasc.TabulaRecta) (hf : tr.DictFunc = none) :
    tr.makedictsfromfunc = tr.makereciprocaltable :=
  (makedictsfromfuncOfLen_builtin tr
    (byteLen (if tr.KeyAlphabet = [] then tr.PtAlphabet else tr.KeyAlphabet)) hf).1

/-- C13: in both construction strategies and for every Go string as key alphabet (the plaintext
alphabet when `KeyAlphabet` is empty), with `keyLen` its length in bytes: whenever the rune count
of the key alphabet differs from `keyLen`, construction returns the error "Row headers must have
same rune length as rows slice" and no table, and calls no generator; when the two lengths agree
the check does not fail, and the result is that of the loop over the key runes.  For a key
alphabet that is valid UTF-8, `keyLen` is `byteLen` of its runes. -/
theorem key_alphabet_length_check (tr : Pasc.TabulaRecta) (keyLen : Nat) :
    ((if tr.KeyAlphabet = [] then tr.PtAlphabet else tr.KeyAlphabet).length ≠ keyLen →
      tr.makedictsfromfuncOfLen keyLen =
        some ([], some (GoError.new "Row headers must have same rune length as rows slice")) ∧
      tr.makereciprocaltableOfLen keyLen =
        some ([], some (GoError.new "Row headers must have same rune length as rows slice")) ∧
      tr.generatorCallsOfLen keyLen = []) ∧
    ((if tr.KeyAlphabet = [] then tr.PtAlphabet else tr.KeyAlphabet).length = keyLen →
      (∀ f, tr.DictFunc = some f →
        tr.makedictsfromfuncOfLen keyLen =
          (Pasc.dictLoop f tr.PtAlphabet tr.Caseless tr.Strict
            (if tr.KeyAlphabet = [] then tr.PtAlphabet else tr.KeyAlphabet).enum [] []).2) ∧
      (tr.DictFunc = none →
        tr.makedictsfromfuncOfLen keyLen = tr.makereciprocaltableOfLen keyLen) ∧
      (∃ ctAlphabets,
        Pasc.ctAlphabetsLoop (if tr.CtAlphabet = [] then tr.PtAlphabet else tr.CtAlphabet)
          (if tr.CtAlphabet = [] then tr.PtAlphabet else tr.CtAlphabet).length
          (List.range tr.KeyAlphabet.length) = Except.ok ctAlphabets ∧
        tr.makereciprocaltableOfLen keyLen =
          Pasc.reciprocalLoop tr.PtAlphabet ctAlphabets tr.Strict
            (if tr.KeyAlphabet = [] then tr.PtAlphabet else tr.KeyAlphabet).enum [])) ∧
    (tr.makedictsfromfunc = tr.makedictsfromfuncOfLen
        (byteLen (if tr.KeyAlphabet = [] then tr.PtAlphabet else tr.KeyAlphabet)) ∧
      tr.makereciprocaltable = tr.makereciprocaltableOfLen
        (byteLen (if tr.KeyAlphabet = [] then tr.PtAlphabet else tr.KeyAlphabet))) := by
  obtain ⟨outs, houts, hrec⟩ := makereciprocaltableOfLen_check tr keyLen
  refine ⟨?_, ?_, rfl, rfl⟩
  · intro hne
    have h2 : tr.makereciprocaltableOfLen keyLen = some ([], some Pasc.rowHeadersError) := by
      rw [hrec, if_pos hne]
    cases hf : tr.DictFunc with
    | none =>
      obtain ⟨h1, h3⟩ := makedictsfromfuncOfLen_builtin tr keyLen hf
      exact ⟨h1.trans h2, h2, h3⟩
    | some f =>
      refine ⟨?_, h2, ?_⟩
      · unfold Pasc.TabulaRecta.makedictsfromfuncOfLen
        rw [makedictsfromfuncOfLen_check tr keyLen f hf, if_pos hne]
        rfl
      · unfold Pasc.TabulaRecta.generatorCallsOfLen
        rw [makedictsfromfuncOfLen_check tr keyLen f hf, if_pos hne]
  · intro heq
    refine ⟨?_, fun hf => (makedictsfromfuncOfLen_builtin tr keyLen hf).1, outs, houts, ?_⟩
    · intro f hf
      unfold Pasc.TabulaRecta.makedictsfromfuncOfLen
      rw [makedictsfromfuncOfLen_check tr keyLen f hf, if_neg (fun h => h heq)]
    · rw [hrec, if_neg (fun h => h heq)]

/-! ## `tabularecta.go`: the generator-driven loop -/

theorem enumFrom_pairwise_lt (K : List Rune) :
    ∀ n, (K.enumFrom n).Pairwise (fun a b => a.1 < b.1) := by
  induction K with
  | nil => intro n; exact List.Pairwise.nil
  | cons r rest ih =>
    intro n
    rw [List.enumFrom_cons]
    refine List.Pairwise.cons ?_ (ih (n + 1))
    intro p hp
    have := List.le_fst_of_mem_enumFrom hp
    show n < p.1
    omega

/-- The loop returns a table only when the generator has succeeded at every index; it then
leaves the bindings of the runes it does not visit as they were. -/
theorem dictLoop_lookup_of_not_mem (f : Pasc.DictFunc) (pt : List Rune) (cl st : Bool)
    (k : Rune) :
    ∀ (l : List (Nat × Rune)) (m : Pasc.ReciprocalTable) (calls : List Nat)
      (m1 : Pasc.ReciprocalTable),
      (Pasc.dictLoop f pt cl st l m calls).2 = some (m1, none) →
      (∀ p ∈ l, p.2 ≠ k) → m1.lookup k = m.lookup k := by
  intro l
  induction l with
  | nil =>
    intro m calls m1 h _
    simp only [Pasc.dictLoop, Option.some.injEq, Prod.mk.injEq, and_true] at h
    rw [h]
  | cons p rest ih =>
    obtain ⟨i, r⟩ := p
    intro m calls m1 h hk
    simp only [Pasc.dictLoop] at h
    cases hf : f pt i with
    | error err => simp only [hf] at h; cases h
    | ok t =>
      simp only [hf] at h
      rw [ih _ _ _ h (fun p hp => hk p (List.mem_cons_of_mem _ hp))]
      exact lookup_cons_ne _ _ (fun heq => hk (i, r) (List.mem_cons_self _ _) heq.symm)

/-- The binding of a key rune is the generator's tableau for the last index that carries the
rune, with the two flags of the tabula recta. -/
theorem dictLoop_lookup_last (f : Pasc.DictFunc) (pt : List Rune) (cl st : Bool) :
    ∀ (l : List (Nat × Rune)) (m : Pasc.ReciprocalTable) (calls : List Nat)
      (m1 : Pasc.ReciprocalTable),
      (Pasc.dictLoop f pt cl st l m calls).2 = some (m1, none) →
      l.Pairwise (fun a b => a.1 < b.1) →
      ∀ (i : Nat) (k : Rune), (i, k) ∈ l → (∀ p ∈ l, p.2 = k → p.1 ≤ i) →
        ∃ t, f pt i = Except.ok t ∧
          m1.lookup k = some { t with Caseless := cl, Strict := st } := by
  intro l
  induction l with
  | nil => intro m calls m1 _ _ i k hmem; cases hmem
  | cons p rest ih =>
    obtain ⟨i0, r0⟩ := p
    intro m calls m1 h hpw i k hmem hlast
    simp only [Pasc.dictLoop] at h
    cases hf : f pt i0 with
    | error err => simp only [hf] at h; cases h
    | ok t =>
      simp only [hf] at h
      have hpw' := List.pairwise_cons.mp hpw
      rcases List.mem_cons.mp hmem with heq | hin
      · have hi : i = i0 := (Prod.mk.inj heq).1
        have hk : k = r0 := (Prod.mk.inj heq).2
        refine ⟨t, hi ▸ hf, ?_⟩
        have hnot : ∀ p ∈ rest, p.2 ≠ k := by
          intro p hp hpk
          have h1 := hlast p (List.mem_cons_of_mem _ hp) hpk
          have h2 : i0 < p.1 := hpw'.1 p hp
          omega
        rw [dictLoop_lookup_of_not_mem f pt cl st k rest _ _ m1 h hnot, hk]
        exact lookup_cons_self _ _ _
      · exact ih _ _ m1 h hpw'.2 i k hin
          (fun p hp hpk => hlast p (List.mem_cons_of_mem _ hp) hpk)

theorem dictLoop_ok (f : Pasc.DictFunc) (pt : List Rune) (cl st : Bool) :
    ∀ (l : List (Nat × Rune)) (m : Pasc.ReciprocalTable) (calls : List Nat),
      (∀ p ∈ l, ∃ t, f pt p.1 = Except.ok t) →
      ∃ m1, (Pasc.dictLoop f pt cl st l m calls).2 = some (m1, none) := by
  intro l
  induction l with
  | nil => intro m calls _; exact ⟨m, rfl⟩
  | cons p rest ih =>
    obtain ⟨i, r⟩ := p
    intro m calls h
    obtain ⟨t, ht⟩ := h (i, r) (List.mem_cons_self _ _)
    obtain ⟨m1, hm1⟩ := ih ((r, { t with Caseless := cl, Strict := st }) :: m) (calls ++ [i])
      (fun p hp => h p (List.mem_cons_of_mem _ hp))
    refine ⟨m1, ?_⟩
    simp only [Pasc.dictLoop, ht]
    exact hm1

/-- C14 (amended): for a key alphabet `K` of single-byte symbols (possibly repeated) and a
generator `g` that never fails, the table returned by `makedictsfromfunc` maps each rune `r` of
`K` to the tableau `g(ptAlphabet, i)`, with `Strict` and `Caseless` set to those of the tabula
recta, where `i` is the position of the last occurrence of `r` in `K` itself (for `K` without
repeated symbols, the position of `r` in `K`); a rune outside `K` has no tableau. -/
theorem generator_rows_by_last_index (tr : Pasc.TabulaRecta) (g : Pasc.DictFunc)
    (hg : tr.DictFunc = some g)
    (hcheck : (if tr.KeyAlphabet = [] then tr.PtAlphabet else tr.KeyAlphabet).length =
      byteLen (if tr.KeyAlphabet = [] then tr.PtAlphabet else tr.KeyAlphabet))
    (hok : ∀ i, ∃ t, g tr.PtAlphabet i = Except.ok t) :
    ∃ m, tr.makedictsfromfunc = some (m, none) ∧
      (∀ (i : Nat) (r : Rune),
        (if tr.KeyAlphabet = [] then tr.PtAlphabet else tr.KeyAlphabet)[i]? = some r →
        (∀ j, i < j →
          (if tr.KeyAlphabet = [] then tr.PtAlphabet else tr.KeyAlphabet)[j]? ≠ some r) →
        ∃ t, g tr.PtAlphabet i = Except.ok t ∧
          m.lookup r = some { t with Caseless := tr.Caseless, Strict := tr.Strict }) ∧
      ((if tr.KeyAlphabet = [] then tr.PtAlphabet else tr.KeyAlphabet).Nodup →
        ∀ r ∈ (if tr.KeyAlphabet = [] then tr.PtAlphabet else tr.KeyAlphabet),
          ∃ t, g tr.PtAlphabet
              ((if tr.KeyAlphabet = [] then tr.PtAlphabet else tr.KeyAlphabet).indexOf r) =
                Except.ok t ∧
            m.lookup r = some { t with Caseless := tr.Caseless, Strict := tr.Strict }) ∧
      (∀ r, r ∉ (if tr.KeyAlphabet = [] then tr.PtAlphabet else tr.KeyAlphabet) →
        m.lookup r = none) := by
  generalize hK : (if tr.KeyAlphabet = [] then tr.PtAlphabet else tr.KeyAlphabet) = K
    at hcheck ⊢
  have hrun : tr.makedictsfromfunc =
      (Pasc.dictLoop g tr.PtAlphabet tr.Caseless tr.Strict K.enum [] []).2 := by
    unfold Pasc.TabulaRecta.makedictsfromfunc
    rw [makedictsfromfunc_check tr g hg, hK, if_neg (fun h => h hcheck)]
  obtain ⟨m, hm⟩ := dictLoop_ok g tr.PtAlphabet tr.Caseless tr.Strict K.enum [] []
    (fun p _ => hok p.1)
  have hlast : ∀ (i : Nat) (r : Rune), K[i]? = some r → (∀ j, i < j → K[j]? ≠ some r) →
      ∃ t, g tr.PtAlphabet i = Except.ok t ∧
        m.lookup r = some { t with Caseless := tr.Caseless, Strict := tr.Strict } := by
    intro i r hi hafter
    apply dictLoop_lookup_last g tr.PtAlphabet tr.Caseless tr.Strict K.enum [] [] m hm
      (enumFrom_pairwise_lt K 0) i r (List.mk_mem_enum_iff_getElem?.mpr hi)
    intro p hp hpr
    by_contra hlt
    have hp' : K[p.1]? = some p.2 := List.mem_enum_iff_getElem?.mp hp
    rw [hpr] at hp'
    exact hafter p.1 (by omega) hp'
  refine ⟨m, hrun.trans hm, hlast, ?_, ?_⟩
  · intro hnd r hr
    apply hlast _ r (getElem?_indexOf hr)
    intro j hj hjr
    have := nodup_index_unique hnd hjr (getElem?_indexOf hr)
    omega
  · intro r hr
    rw [dictLoop_lookup_of_not_mem g tr.PtAlphabet tr.Caseless tr.Strict r K.enum [] [] m hm]
    · rfl
    · intro p hp hpr
      have hp' : K[p.1]? = some p.2 := List.mem_enum_iff_getElem?.mp hp
      rw [hpr] at hp'
      exact hr (List.getElem?_mem hp')

/-- An index at which the generator has been called and has failed is the first failing index,
and its error is the result of the loop, with no table. -/
theorem dictLoop_calls (f : Pasc.DictFunc) (pt : List Rune) (cl st : Bool) :
    ∀ (K : List Rune) (n : Nat) (m : Pasc.ReciprocalTable) (calls : List Nat) (i : Nat)
      (e : GoError),
      i ∈ (Pasc.dictLoop f pt cl st (K.enumFrom n) m calls).1 → i ∉ calls →
      f pt i = Except.error e →
      (Pasc.dictLoop f pt cl st (K.enumFrom n) m calls).2 = some ([], some e) ∧
      ∀ j, n ≤ j → j < i → ∃ t, f pt j = Except.ok t := by
  intro K
  induction K with
  | nil =>
    intro n m calls i e hi hnot _
    exact absurd hi hnot
  | cons r rest ih =>
    intro n m calls i e hi hnot herr
    rw [List.enumFrom_cons] at hi ⊢
    simp only [Pasc.dictLoop] at hi ⊢
    cases hf : f pt n with
    | error e0 =>
      simp only [hf] at hi ⊢
      rcases List.mem_append.mp hi with h | h
      · exact absurd h hnot
      · have hin : i = n := List.mem_singleton.mp h
        rw [hin, hf] at herr
        cases herr
        exact ⟨rfl, fun j h1 h2 => (by omega)⟩
    | ok t =>
      simp only [hf] at hi ⊢
      have hnot' : i ∉ calls ++ [n] := by
        intro h
        rcases List.mem_append.mp h with h | h
        · exact hnot h
        · have hin : i = n := List.mem_singleton.mp h
          rw [hin, hf] at herr
          cases herr
      obtain ⟨hres, hbefore⟩ := ih (n + 1) _ _ i e hi hnot' herr
      refine ⟨hres, ?_⟩
      intro j h1 h2
      by_cases hj : j = n
      · exact ⟨t, hj ▸ hf⟩
      · exact hbefore j (by omega) h2

/-- When the generator fails at an index that the loop has still to visit, the loop calls it at
every index up to the first failing one, in order, and returns the error of that index with no
table. -/
theorem dictLoop_first_error (f : Pasc.DictFunc) (pt : List Rune) (cl st : Bool) :
    ∀ (K : List Rune) (n : Nat) (m : Pasc.ReciprocalTable) (calls : List Nat) (i : Nat)
      (e : GoError),
      n ≤ i → i < n + K.length → f pt i = Except.error e →
      ∃ i0 e0, n ≤ i0 ∧ i0 ≤ i ∧ f pt i0 = Except.error e0 ∧
        (∀ j, n ≤ j → j < i0 → ∃ t, f pt j = Except.ok t) ∧
        Pasc.dictLoop f pt cl st (K.enumFrom n) m calls =
          (calls ++ (List.range (i0 + 1 - n)).map (fun x => n + x), some ([], some e0)) := by
  intro K
  induction K with
  | nil =>
    intro n m calls i e h1 h2 _
    simp only [List.length_nil] at h2
    omega
  | cons r rest ih =>
    intro n m calls i e h1 h2 herr
    rw [List.enumFrom_cons]
    simp only [Pasc.dictLoop]
    cases hf : f pt n with
    | error e0 =>
      refine ⟨n, e0, Nat.le_refl n, h1, hf, fun j hj1 hj2 => (by omega), ?_⟩
      have h1n : n + 1 - n = 1 := by omega
      rw [h1n]
      rfl
    | ok t =>
      have hne : i ≠ n := by
        intro h
        rw [h, hf] at herr
        cases herr
      have h2' : i < n + 1 + rest.length := by
        simp only [List.length_cons] at h2
        omega
      obtain ⟨i0, e0, hn0, h0i, herr0, hbefore, hres⟩ :=
        ih (n + 1) ((r, { t with Caseless := cl, Strict := st }) :: m) (calls ++ [n]) i e
          (by omega) h2' herr
      refine ⟨i0, e0, by omega, h0i, herr0, ?_, ?_⟩
      · intro j hj1 hj2
        by_cases hj : j = n
        · exact ⟨t, hj ▸ hf⟩
        · exact hbefore j (by omega) hj2
      · refine Eq.trans hres ?_
        have hk : i0 + 1 - n = (i0 + 1 - (n + 1)) + 1 := by omega
        have hcomp : ((fun x => n + x) ∘ Nat.succ) = fun x => n + 1 + x := by
          funext x
          simp only [Function.comp_apply, Nat.succ_eq_add_one]
          omega
        rw [hk, List.range_succ_eq_map, List.map_cons, List.map_map, hcomp, List.append_assoc]
        rfl

/-- C15: let the generator fail at some index `i` of the key alphabet, for any Go string as key
alphabet, `keyLen` being its length in bytes.  When the length check passes, `makedictsfromfunc`
calls the generator at the indices `0, ..., i0` up to the smallest failing index `i0`, and
returns the error of `i0` verbatim together with the nil table; `TabulaRecta.Encipher`,
`Decipher` and `Printable` return it together with the empty string.  When the length check
fails, the generator is not called, and all four return the error of the check with no table and
the empty string.  In both cases no partially built table is returned. -/
theorem generator_error_is_returned_verbatim (tr : Pasc.TabulaRecta) (g : Pasc.DictFunc)
    (keyLen i : Nat) (e : GoError) (hg : tr.DictFunc = some g)
    (hi : i < (if tr.KeyAlphabet = [] then tr.PtAlphabet else tr.KeyAlphabet).length)
    (herr : g tr.PtAlphabet i = Except.error e) :
    ((if tr.KeyAlphabet = [] then tr.PtAlphabet else tr.KeyAlphabet).length = keyLen →
      ∃ i0 e0, i0 ≤ i ∧ g tr.PtAlphabet i0 = Except.error e0 ∧
        (∀ j, j < i0 → ∃ t, g tr.PtAlphabet j = Except.ok t) ∧
        tr.generatorCallsOfLen keyLen = List.range (i0 + 1) ∧
        tr.makedictsfromfuncOfLen keyLen = some ([], some e0) ∧
        (∀ (ω : Type) (rtEncipher rtDecipher : Pasc.ReciprocalTable → List Rune → List Rune →
            ω → Option (List Rune × Option GoError)) (s k : List Rune) (onSuccess : ω),
          tr.EncipherOfLen rtEncipher keyLen s k onSuccess = some ([], some e0) ∧
          tr.DecipherOfLen rtDecipher keyLen s k onSuccess = some ([], some e0)) ∧
        (∀ render, tr.PrintableOfLen render keyLen = some ([], some e0))) ∧
    ((if tr.KeyAlphabet = [] then tr.PtAlphabet else tr.KeyAlphabet).length ≠ keyLen →
      tr.generatorCallsOfLen keyLen = [] ∧
      tr.makedictsfromfuncOfLen keyLen = some ([], some Pasc.rowHeadersError) ∧
      (∀ (ω : Type) (rtEncipher rtDecipher : Pasc.ReciprocalTable → List Rune → List Rune →
          ω → Option (List Rune × Option GoError)) (s k : List Rune) (onSuccess : ω),
        tr.EncipherOfLen rtEncipher keyLen s k onSuccess =
          some ([], some Pasc.rowHeadersError) ∧
        tr.DecipherOfLen rtDecipher keyLen s k onSuccess =
          some ([], some Pasc.rowHeadersError)) ∧
      (∀ render, tr.PrintableOfLen render keyLen = some ([], some Pasc.rowHeadersError))) ∧
    (tr.makedictsfromfunc = tr.makedictsfromfuncOfLen
        (byteLen (if tr.KeyAlphabet = [] then tr.PtAlphabet else tr.KeyAlphabet)) ∧
      tr.generatorCalls = tr.generatorCallsOfLen
        (byteLen (if tr.KeyAlphabet = [] then tr.PtAlphabet else tr.KeyAlphabet)) ∧
      (∀ (ω : Type) (rtEncipher rtDecipher : Pasc.ReciprocalTable → List Rune → List Rune →
          ω → Option (List Rune × Option GoError)) (s k : List Rune) (onSuccess : ω),
        tr.Encipher rtEncipher s k onSuccess = tr.EncipherOfLen rtEncipher
          (byteLen (if tr.KeyAlphabet = [] then tr.PtAlphabet else tr.KeyAlphabet)) s k
          onSuccess ∧
        tr.Decipher rtDecipher s k onSuccess = tr.DecipherOfLen rtDecipher
          (byteLen (if tr.KeyAlphabet = [] then tr.PtAlphabet else tr.KeyAlphabet)) s k
          onSuccess) ∧
      (∀ render, tr.Printable render = tr.PrintableOfLen render
        (byteLen (if tr.KeyAlphabet = [] then tr.PtAlphabet else tr.KeyAlphabet)))) := by
  have hlog := makedictsfromfuncOfLen_check tr keyLen g hg
  have hall : ∀ err, tr.makedictsfromfuncOfLen keyLen = some ([], some err) →
      (∀ (ω : Type) (rtEncipher rtDecipher : Pasc.ReciprocalTable → List Rune → List Rune →
          ω → Option (List Rune × Option GoError)) (s k : List Rune) (onSuccess : ω),
        tr.EncipherOfLen rtEncipher keyLen s k onSuccess = some ([], some err) ∧
        tr.DecipherOfLen rtDecipher keyLen s k onSuccess = some ([], some err)) ∧
      (∀ render, tr.PrintableOfLen render keyLen = some ([], some err)) := by
    intro err hres
    constructor
    · intro ω rtE rtD s k onSuccess
      unfold Pasc.TabulaRecta.EncipherOfLen Pasc.TabulaRecta.DecipherOfLen
      constructor <;> simp only [hres]
    · intro render
      unfold Pasc.TabulaRecta.PrintableOfLen
      simp only [hres]
  refine ⟨?_, ?_, rfl, rfl, fun _ _ _ _ _ _ => ⟨rfl, rfl⟩, fun _ => rfl⟩
  · intro hlen
    generalize (if tr.KeyAlphabet = [] then tr.PtAlphabet else tr.KeyAlphabet) = K
      at hlog hi hlen
    rw [if_neg (fun h => h hlen)] at hlog
    obtain ⟨i0, e0, _, h0i, herr0, hbefore, hres⟩ :=
      dictLoop_first_error g tr.PtAlphabet tr.Caseless tr.Strict K 0 [] [] i e
        (Nat.zero_le i) (by omega) herr
    have hres' : tr.makedictsfromfuncLoggedOfLen keyLen =
        (List.range (i0 + 1), some ([], some e0)) := by
      rw [hlog]
      have hmap : (List.range (i0 + 1 - 0)).map (fun x => 0 + x) = List.range (i0 + 1) := by
        simp
      rw [← hmap]
      exact hres
    have hmk : tr.makedictsfromfuncOfLen keyLen = some ([], some e0) := by
      unfold Pasc.TabulaRecta.makedictsfromfuncOfLen
      rw [hres']
    have hcalls : tr.generatorCallsOfLen keyLen = List.range (i0 + 1) := by
      unfold Pasc.TabulaRecta.generatorCallsOfLen
      rw [hres']
    exact ⟨i0, e0, h0i, herr0, fun j hj => hbefore j (Nat.zero_le j) hj, hcalls, hmk,
      (hall e0 hmk).1, (hall e0 hmk).2⟩
  · intro hne
    rw [if_pos hne] at hlog
    have hmk : tr.makedictsfromfuncOfLen keyLen = some ([], some Pasc.rowHeadersError) := by
      unfold Pasc.TabulaRecta.makedictsfromfuncOfLen
      rw [hlog]
    have hcalls : tr.generatorCallsOfLen keyLen = [] := by
      unfold Pasc.TabulaRecta.generatorCallsOfLen
      rw [hlog]
    exact ⟨hcalls, hmk, (hall _ hmk).1, (hall _ hmk).2⟩

/-! ## `tabularecta.go` and `gronsfeld.go`: the flags of the tableaux -/

/-- Every tableau of a table returned by the generator-driven loop carries the two flags the
loop was given. -/
theorem dictLoop_flags (f : Pasc.DictFunc) (pt : List Rune) (cl st : Bool) :
    ∀ (l : List (Nat × Rune)) (m : Pasc.ReciprocalTable) (calls : List Nat)
      (m1 : Pasc.ReciprocalTable),
      (Pasc.dictLoop f pt cl st l m calls).2 = some (m1, none) →
      (∀ p ∈ m, p.2.Caseless = cl ∧ p.2.Strict = st) →
      ∀ p ∈ m1, p.2.Caseless = cl ∧ p.2.Strict = st := by
  intro l
  induction l with
  | nil =>
    intro m calls m1 h hm
    simp only [Pasc.dictLoop, Option.some.injEq, Prod.mk.injEq, and_true] at h
    rw [← h]; exact hm
  | cons q rest ih =>
    obtain ⟨i, r⟩ := q
    intro m calls m1 h hm
    simp only [Pasc.dictLoop] at h
    cases hf : f pt i with
    | error err => simp only [hf] at h; cases h
    | ok t =>
      simp only [hf] at h
      apply ih _ _ m1 h
      intro p hp
      rcases List.mem_cons.mp hp with heq | hin
      · rw [heq]; exact ⟨rfl, rfl⟩
      · exact hm p hin

/-- Whatever `caesar.Cipher.Tableau` returns, the tabula recta of a Gronsfeld cipher has
`Strict = false`, and so has every tableau of the table built from it; `Caseless` is the
cipher's. -/
theorem gronsfeld_tableaux_flags (caesarTableau : Caesar.Cipher → Except GoError Masc.Tableau)
    (c : Gronsfeld.Cipher) :
    ∃ tr, c.maketableau caesarTableau = Except.ok tr ∧ tr.Strict = false ∧
      tr.Caseless = c.Caseless ∧
      ∀ m, tr.makedictsfromfunc = some (m, none) →
        ∀ p ∈ m, p.2.Caseless = c.Caseless ∧ p.2.Strict = false := by
  refine ⟨_, rfl, rfl, rfl, ?_⟩
  intro m hm p hp
  unfold Pasc.TabulaRecta.makedictsfromfunc at hm
  rw [makedictsfromfunc_check _ _ rfl] at hm
  have hkey : (if (Pasc.NewTabulaRecta c.Alphabet (runes ("0123456789")) none).1.KeyAlphabet = []
      then (Pasc.NewTabulaRecta c.Alphabet (runes ("0123456789")) none).1.PtAlphabet
      else (Pasc.NewTabulaRecta c.Alphabet (runes ("0123456789")) none).1.KeyAlphabet) =
      runes ("0123456789") := by
    simp [Pasc.NewTabulaRecta, runes]
  simp only [Pasc.NewTabulaRecta] at hkey hm
  rw [hkey] at hm
  rw [if_neg (by decide)] at hm
  exact dictLoop_flags _ _ _ _ _ _ _ m hm (fun q hq => by cases hq) p hp

/-! ## Concrete scenarios for the construction of the table -/

/-- C12: the key alphabet `αβγ`, three distinct code points of two bytes each, over the
plaintext alphabet `ABC`: neither strategy builds a table.  Both return the error of the length
check, which compares the number of key runes with the length of the key alphabet in bytes. -/
theorem multibyte_key_alphabet_is_rejected :
    (runes ("αβγ")).Nodup ∧ (runes ("αβγ")).length = 3 ∧ byteLen (runes ("αβγ")) = 6 ∧
    (Pasc.NewTabulaRecta (runes ("ABC")) (runes ("αβγ")) none).1.makedictsfromfunc =
      some ([], some (GoError.new "Row headers must have same rune length as rows slice")) ∧
    (Pasc.NewTabulaRecta (runes ("ABC")) (runes ("αβγ")) (some rotationRows)).1.makedictsfromfunc =
      some ([], some (GoError.new "Row headers must have same rune length as rows slice")) ∧
    (Pasc.NewTabulaRecta (runes ("ABC")) (runes ("αβγ")) none).1.makereciprocaltable =
      some ([], some (GoError.new "Row headers must have same rune length as rows slice")) := by
  decide

/-- C14, counterexample: for the key alphabet `ABA` over `ABC`, the row of `A` is the tableau of
index 2, the last position of `A` in the key alphabet, and not the tableau of index 0, its
position once repeated symbols are removed. -/
theorem generator_rows_ignore_deduplication :
    (runes ("ABA")).eraseDups = runes ("AB") ∧ (runes ("AB")).indexOf (65 : Rune) = 0 ∧
    (∀ i, ∃ t, rotationRows (runes ("ABC")) i = Except.ok t) ∧
    ((Pasc.NewTabulaRecta (runes ("ABC")) (runes ("ABA")) (some rotationRows)).1.makedictsfromfunc).map
        (fun p => (p.1.lookup 65, p.2)) =
      some ((rotationRows (runes ("ABC")) 2).toOption, none) ∧
    (rotationRows (runes ("ABC")) 2).toOption ≠ (rotationRows (runes ("ABC")) 0).toOption :=
  ⟨by decide, by decide, fun _ => ⟨_, rfl⟩, by decide, by decide⟩

/-- C14, witness: the key alphabet `ABA` over `ABC`; the row of `A` is the tableau of index 2
and the row of `B` the tableau of index 1. -/
theorem generator_rows_by_last_index_witness :
    ∃ m, (Pasc.NewTabulaRecta (runes ("ABC")) (runes ("ABA")) (some rotationRows)).1.makedictsfromfunc =
        some (m, none) ∧
      (∃ t, rotationRows (runes ("ABC")) 2 = Except.ok t ∧
        m.lookup 65 = some { t with Caseless := false, Strict := false }) ∧
      (∃ t, rotationRows (runes ("ABC")) 1 = Except.ok t ∧
        m.lookup 66 = some { t with Caseless := false, Strict := false }) ∧
      m.lookup 67 = none := by
  obtain ⟨m, hm, hlast, _, hout⟩ := generator_rows_by_last_index
    (Pasc.NewTabulaRecta (runes ("ABC")) (runes ("ABA")) (some rotationRows)).1 rotationRows rfl
    (by decide) (fun _ => ⟨_, rfl⟩)
  have hK : (if (Pasc.NewTabulaRecta (runes ("ABC")) (runes ("ABA"))
        (some rotationRows)).1.KeyAlphabet = []
      then (Pasc.NewTabulaRecta (runes ("ABC")) (runes ("ABA")) (some rotationRows)).1.PtAlphabet
      else (Pasc.NewTabulaRecta (runes ("ABC")) (runes ("ABA")) (some rotationRows)).1.KeyAlphabet) =
      runes ("ABA") := by
    decide
  rw [hK] at hlast hout
  have hlen : (runes ("ABA")).length = 3 := by decide
  refine ⟨m, hm, hlast 2 65 (by decide) ?_, hlast 1 66 (by decide) ?_, hout 67 (by decide)⟩
  · intro j hj
    rw [List.getElem?_eq_none (by omega)]
    exact fun h => by cases h
  · intro j hj
    by_cases h2 : j = 2
    · subst h2
      decide
    · rw [List.getElem?_eq_none (by omega)]
      exact fun h => by cases h

/-- C13, witness: the key alphabet made of the single byte `0xff`, which is not valid UTF-8: it
reads as the one rune U+FFFD and is one byte long, so the check passes and both strategies build
the row of U+FFFD.  The key alphabet made of the encoding of U+FFFD reads as the same rune and is
three bytes long: it is rejected. -/
theorem key_alphabet_length_check_witness :
    (Pasc.TabulaRecta.mk false false (runes ("ABC")) [] [65533]
        (some rotationRows)).makedictsfromfuncOfLen 1 =
      (Pasc.dictLoop rotationRows (runes ("ABC")) false false
        (if ([65533] : List Rune) = [] then runes ("ABC") else [65533]).enum [] []).2 ∧
    ((Pasc.TabulaRecta.mk false false (runes ("ABC")) [] [65533]
        (some rotationRows)).makedictsfromfuncOfLen 1).map
        (fun p => (p.1.map (fun q => (q.1, q.2.ctAlphabet)), p.2)) =
      some ([(65533, runes ("ABC"))], none) ∧
    ((Pasc.TabulaRecta.mk false false (runes ("ABC")) [] [65533]
        none).makereciprocaltableOfLen 1).map
        (fun p => (p.1.map (fun q => (q.1, q.2.ctAlphabet)), p.2)) =
      some ([(65533, runes ("ABC"))], none) ∧
    byteLen [65533] = 3 ∧
    (Pasc.TabulaRecta.mk false false (runes ("ABC")) [] [65533]
        (some rotationRows)).makedictsfromfuncOfLen 3 =
      some ([], some (GoError.new "Row headers must have same rune length as rows slice")) ∧
    (Pasc.TabulaRecta.mk false false (runes ("ABC")) [] [65533]
        none).makereciprocaltableOfLen 3 =
      some ([], some (GoError.new "Row headers must have same rune length as rows slice")) :=
  ⟨((key_alphabet_length_check
      (Pasc.TabulaRecta.mk false false (runes ("ABC")) [] [65533] (some rotationRows)) 1).2.1
      (by decide)).1 rotationRows rfl,
    by decide, by decide, by decide, by decide, by decide⟩

/-- C15, witness: over `ABC` with the key alphabet `ABCD`, four bytes long, a generator that
fails at the indices 2 and 3 is called at 0, 1 and 2, and the error of index 2 is the result. -/
theorem generator_error_is_returned_verbatim_witness :
    rotationRowsUpTo 2 (runes ("ABC")) 3 = Except.error (GoError.new "no row 3") ∧
    (Pasc.NewTabulaRecta (runes ("ABC")) (runes ("ABCD"))
        (some (rotationRowsUpTo 2))).1.generatorCallsOfLen 4 = [0, 1, 2] ∧
    (Pasc.NewTabulaRecta (runes ("ABC")) (runes ("ABCD"))
        (some (rotationRowsUpTo 2))).1.makedictsfromfuncOfLen 4 =
      some ([], some (GoError.new "no row 2")) ∧
    (Pasc.NewTabulaRecta (runes ("ABC")) (runes ("ABCD"))
        (some (rotationRowsUpTo 2))).1.makedictsfromfunc =
      some ([], some (GoError.new "no row 2")) ∧
    ∃ i0 e0, i0 ≤ 3 ∧ rotationRowsUpTo 2 (runes ("ABC")) i0 = Except.error e0 ∧
      (∀ j, j < i0 → ∃ t, rotationRowsUpTo 2 (runes ("ABC")) j = Except.ok t) ∧
      (Pasc.NewTabulaRecta (runes ("ABC")) (runes ("ABCD"))
          (some (rotationRowsUpTo 2))).1.generatorCallsOfLen 4 = List.range (i0 + 1) ∧
      (Pasc.NewTabulaRecta (runes ("ABC")) (runes ("ABCD"))
          (some (rotationRowsUpTo 2))).1.makedictsfromfuncOfLen 4 = some ([], some e0) ∧
      (∀ (ω : Type) (rtEncipher rtDecipher : Pasc.ReciprocalTable → List Rune → List Rune →
          ω → Option (List Rune × Option GoError)) (s k : List Rune) (onSuccess : ω),
        (Pasc.NewTabulaRecta (runes ("ABC")) (runes ("ABCD"))
            (some (rotationRowsUpTo 2))).1.EncipherOfLen rtEncipher 4 s k onSuccess =
          some ([], some e0) ∧
        (Pasc.NewTabulaRecta (runes ("ABC")) (runes ("ABCD"))
            (some (rotationRowsUpTo 2))).1.DecipherOfLen rtDecipher 4 s k onSuccess =
          some ([], some e0)) ∧
      (∀ render,
        (Pasc.NewTabulaRecta (runes ("ABC")) (runes ("ABCD"))
          (some (rotationRowsUpTo 2))).1.PrintableOfLen render 4 = some ([], some e0)) :=
  ⟨by decide, by decide, by decide, by decide,
    (generator_error_is_returned_verbatim
      (Pasc.NewTabulaRecta (runes ("ABC")) (runes ("ABCD")) (some (rotationRowsUpTo 2))).1
      (rotationRowsUpTo 2) 4 3 (GoError.new "no row 3") rfl (by decide) (by decide)).1
      (by decide)⟩

/-- C16: whatever `caesar.Cipher.Tableau` returns, the tabula recta that a Gronsfeld cipher
builds has `Strict = false`, and so has every tableau of its table, also when the cipher has
`Strict = true`; `Caseless` is the cipher's.  For the cipher with `Strict = true` and key `3140`
over the default alphabet, with the tableaux of `caesar.Cipher.Tableau`: the table has the ten
rows of the digits, every one of them with `Strict = false`, while each tableau had
`Strict = true` when the generator returned it. -/
theorem gronsfeld_strict_flag_is_not_applied :
    (∀ (caesarTableau : Caesar.Cipher → Except GoError Masc.Tableau) (c : Gronsfeld.Cipher),
      ∃ tr, c.maketableau caesarTableau = Except.ok tr ∧ tr.Strict = false ∧
        tr.Caseless = c.Caseless ∧
        ∀ m, tr.makedictsfromfunc = some (m, none) →
          ∀ p ∈ m, p.2.Caseless = c.Caseless ∧ p.2.Strict = false) ∧
    (match Gronsfeld.Cipher.maketableau Caesar.Cipher.Tableau
        { Alphabet := [], Caseless := false, Key := runes ("3140"), Strict := true } with
      | Except.error _ => none
      | Except.ok tr =>
        some (tr.Strict, tr.makedictsfromfunc.map
          (fun p => (p.1.map (fun q => (q.1, q.2.Strict)), p.2)))) =
      some (false, some ([(57, false), (56, false), (55, false), (54, false), (53, false),
        (52, false), (51, false), (50, false), (49, false), (48, false)], none)) ∧
    (Caesar.Cipher.Tableau
        { Alphabet := latin, Caseless := false, Shift := 3, Strict := true }).toOption.map
      (fun t => t.Strict) = some true :=
  ⟨gronsfeld_tableaux_flags, by decide, by decide⟩

/-- C20, witness: the text-autoclave cipher with countersign `KEY` over `A`-`Z` on the input
`HI, YOU`, in non-strict mode. -/
theorem key_stream_invariant_witness :
    ∃ c0, MakeVigenereCipher (runes ("KEY")) latin = some c0 ∧
      (c0.setAutoclave true false).countersign ≠ [] ∧
      ∃ st E, (c0.setAutoclave true false).encipherRun (runes ("HI, YOU")) false = some (st, E) ∧
        st.transcodedCharCount =
          (transcodedPairs ((c0.setAutoclave true false).encipherMapping false)
            (c0.setAutoclave true false).start (runes ("HI, YOU"))).length ∧
        st.keyRunes = (c0.setAutoclave true false).countersign ++
          (transcodedPairs ((c0.setAutoclave true false).encipherMapping false)
            (c0.setAutoclave true false).start (runes ("HI, YOU"))).map Prod.fst ∧
        st.keyRunes.length =
          (c0.setAutoclave true false).countersign.length + st.transcodedCharCount ∧
        st.transcodedCharCount % st.keyRunes.length = st.transcodedCharCount := by
  obtain ⟨c0, hc0⟩ := vigenere_isSome (runes ("KEY")) latin latin latin rfl
  have hcs : (c0.setAutoclave true false).countersign = runes ("KEY") :=
    (built_facts (Or.inl hc0)).2.1
  have hK : (c0.setAutoclave true false).countersign ≠ [] := by
    rw [hcs]
    decide
  obtain ⟨⟨st, E, hrun, hcount, hkey, hauto, _⟩, _⟩ :=
    key_stream_invariant (c0.setAutoclave true false) (runes ("HI, YOU")) false hK
  have hta : (c0.setAutoclave true false).Textautoclave = true := rfl
  rw [hta] at hkey
  exact ⟨c0, hc0, hK, st, E, hrun, hcount, hkey, (hauto (Or.inl hta)).1, (hauto (Or.inl hta)).2⟩

/-! ## Packages `rot13` and `caesar` -/

/-- The tableau of the ROT13 cipher pairs `A`-`Z` with its rotation by 13 and carries the
cipher's flags. -/
theorem rot13_tableau (cl st : Bool) :
    (Rot13.Cipher.maketableau ⟨cl, st⟩).maketableau.Tableau =
      Except.ok
        { Strict := st
          Caseless := cl
          ptAlphabet := latin
          ctAlphabet := rot13Alphabet
          pt2ct := latin.zip rot13Alphabet
          ct2pt := rot13Alphabet.zip latin } := by
  cases cl <;> cases st <;> decide

theorem rot13_lookup_symm (r : Rune) :
    (latin.zip rot13Alphabet).lookup r = (rot13Alphabet.zip latin).lookup r := by
  by_cases h : r ∈ latin
  · exact (by decide : ∀ x ∈ latin,
      (latin.zip rot13Alphabet).lookup x = (rot13Alphabet.zip latin).lookup x) r h
  · have h2 : r ∉ rot13Alphabet :=
      fun hr => h ((by decide : ∀ x ∈ rot13Alphabet, x ∈ latin) r hr)
    rw [(lookup_zip_none_iff (by decide) r).mpr h, (lookup_zip_none_iff (by decide) r).mpr h2]

theorem rot13_lookup_invol (r o : Rune) (h : (latin.zip rot13Alphabet).lookup r = some o) :
    (latin.zip rot13Alphabet).lookup o = some r := by
  have hr : r ∈ latin := by
    by_contra hn
    rw [(lookup_zip_none_iff (by decide) r).mpr hn] at h
    cases h
  have hall := (by decide : ∀ x ∈ latin,
    ((latin.zip rot13Alphabet).lookup x).bind (fun y => (latin.zip rot13Alphabet).lookup y) =
      some x) r hr
  rw [h] at hall
  exact hall

/-- A tableau whose two mappings read alike enciphers as it deciphers. -/
theorem masc_encipher_eq_decipher (ops : CaseOps) (t : Masc.Tableau)
    (h : ∀ r, t.pt2ct.lookup r = t.ct2pt.lookup r) (s : List Rune) :
    t.Encipher ops s = t.Decipher ops s := by
  have hrune : ∀ r, t.encipherRune ops r = t.decipherRune ops r := by
    intro r
    unfold Masc.Tableau.encipherRune Masc.Tableau.decipherRune
    rw [h]
  induction s with
  | nil => rfl
  | cons r rest ih =>
    simp only [Masc.Tableau.Encipher, Masc.Tableau.Decipher, hrune, ih]

/-- A case-sensitive tableau whose forward mapping is an involution undoes its own
encipherment. -/
theorem masc_encipher_invol (ops : CaseOps) (t : Masc.Tableau) (hcl : t.Caseless = false)
    (hinv : ∀ r o, t.pt2ct.lookup r = some o → t.pt2ct.lookup o = some r) :
    ∀ s E, t.Encipher ops s = Except.ok E → t.Encipher ops E = Except.ok s := by
  have hsome : ∀ r o, t.pt2ct.lookup r = some o → t.encipherRune ops r = (o, true) := by
    intro r o h
    unfold Masc.Tableau.encipherRune
    rw [hcl]
    simp [h]
  have hnone : ∀ r, t.pt2ct.lookup r = none →
      t.encipherRune ops r = (if t.Strict then -1 else r, false) := by
    intro r h
    unfold Masc.Tableau.encipherRune
    rw [hcl]
    cases t.Strict <;> simp [h]
  intro s
  induction s with
  | nil =>
    intro E h
    simp only [Masc.Tableau.Encipher] at h
    cases h
    rfl
  | cons r rest ih =>
    intro E h
    simp only [Masc.Tableau.Encipher] at h
    cases hl : t.pt2ct.lookup r with
    | some o =>
      rw [hsome r o hl] at h
      cases hrest : Masc.Tableau.Encipher ops t rest with
      | error err => simp [hrest] at h
      | ok E1 =>
        simp [hrest] at h
        subst h
        simp only [Masc.Tableau.Encipher, hsome o r (hinv r o hl), ih E1 hrest]
        simp
    | none =>
      rw [hnone r hl] at h
      cases hst : t.Strict with
      | true => simp [hst] at h
      | false =>
        cases hrest : Masc.Tableau.Encipher ops t rest with
        | error err => simp [hst, hrest] at h
        | ok E1 =>
          simp [hst, hrest] at h
          subst h
          simp only [Masc.Tableau.Encipher, hnone r hl, hst, ih E1 hrest]
          simp

/-- A tableau that is not strict enciphers every string. -/
theorem masc_encipher_total (ops : CaseOps) (t : Masc.Tableau) (hst : t.Strict = false) :
    ∀ s, ∃ E, t.Encipher ops s = Except.ok E := by
  intro s
  induction s with
  | nil => exact ⟨[], rfl⟩
  | cons r rest ih =>
    obtain ⟨E, hE⟩ := ih
    refine ⟨(t.encipherRune ops r).1 :: E, ?_⟩
    simp [Masc.Tableau.Encipher, hst, hE]

/-- What the ROT13 cipher computes: the encipherment by its tableau. -/
theorem rot13_encipher (ops : CaseOps) (cl st : Bool) (s : List Rune) :
    (Rot13.Cipher.mk cl st).Encipher ops s =
      Masc.Tableau.Encipher ops
        { Strict := st
          Caseless := cl
          ptAlphabet := latin
          ctAlphabet := rot13Alphabet
          pt2ct := latin.zip rot13Alphabet
          ct2pt := rot13Alphabet.zip latin } s := by
  unfold Rot13.Cipher.Encipher Caesar.Cipher.Encipher Affine.Cipher.Encipher
  rw [rot13_tableau]

theorem rot13_decipher (ops : CaseOps) (cl st : Bool) (s : List Rune) :
    (Rot13.Cipher.mk cl st).Decipher ops s =
      Masc.Tableau.Decipher ops
        { Strict := st
          Caseless := cl
          ptAlphabet := latin
          ctAlphabet := rot13Alphabet
          pt2ct := latin.zip rot13Alphabet
          ct2pt := rot13Alphabet.zip latin } s := by
  unfold Rot13.Cipher.Decipher Caesar.Cipher.Decipher Affine.Cipher.Decipher
  rw [rot13_tableau]

/-- C19 (amended): for every string `s` and all flags, the ROT13 cipher enciphers and deciphers
`s` as the Caesar cipher with shift 13 over the default alphabet and the same flags does, that
is, as the affine cipher with slope 1 and intercept 13, and it enciphers `s` as it deciphers
`s`.  With `Caseless` off, whenever `Encipher(s)` succeeds, `Encipher(Encipher(s)) = s`; with
both flags off it always succeeds and is the encipherment by `caesar.Cipher{Shift: 13}`.
`HELLO` enciphers to `URYYB` and `URYYB` to `HELLO`. -/
theorem rot13_is_caesar_13 (ops : CaseOps) (s : List Rune) :
    (∀ cl st,
      (Rot13.Cipher.mk cl st).Encipher ops s = (Caesar.Cipher.mk [] cl 13 st).Encipher ops s ∧
      (Rot13.Cipher.mk cl st).Decipher ops s = (Caesar.Cipher.mk [] cl 13 st).Decipher ops s ∧
      (Caesar.Cipher.mk [] cl 13 st).Encipher ops s =
        (Affine.Cipher.mk [] [] cl 13 1 st).Encipher ops s ∧
      (Rot13.Cipher.mk cl st).Encipher ops s = (Rot13.Cipher.mk cl st).Decipher ops s) ∧
    (∀ st E, (Rot13.Cipher.mk false st).Encipher ops s = Except.ok E →
      (Rot13.Cipher.mk false st).Encipher ops E = Except.ok s) ∧
    (∃ E, (Rot13.Cipher.mk false false).Encipher ops s = Except.ok E ∧
      (Caesar.Cipher.mk [] false 13 false).Encipher ops s = Except.ok E ∧
      (Rot13.Cipher.mk false false).Encipher ops E = Except.ok s ∧
      (Rot13.Cipher.mk false false).Decipher ops s = Except.ok E) ∧
    (Rot13.Cipher.mk false false).Encipher ops (runes ("HELLO")) = Except.ok (runes ("URYYB")) ∧
    (Rot13.Cipher.mk false false).Encipher ops (runes ("URYYB")) =
      Except.ok (runes ("HELLO")) := by
  have hsym : ∀ cl st, (Rot13.Cipher.mk cl st).Encipher ops s =
      (Rot13.Cipher.mk cl st).Decipher ops s := by
    intro cl st
    rw [rot13_encipher, rot13_decipher]
    exact masc_encipher_eq_decipher ops _ rot13_lookup_symm s
  have hinv : ∀ st (S E : List Rune), (Rot13.Cipher.mk false st).Encipher ops S = Except.ok E →
      (Rot13.Cipher.mk false st).Encipher ops E = Except.ok S := by
    intro st S E h
    rw [rot13_encipher] at h ⊢
    exact masc_encipher_invol ops _ rfl rot13_lookup_invol S E h
  refine ⟨fun cl st => ⟨rfl, rfl, rfl, hsym cl st⟩, fun st E h => hinv st s E h, ?_, ?_, ?_⟩
  · obtain ⟨E, hE⟩ := masc_encipher_total ops
      { Strict := false
        Caseless := false
        ptAlphabet := latin
        ctAlphabet := rot13Alphabet
        pt2ct := latin.zip rot13Alphabet
        ct2pt := rot13Alphabet.zip latin } rfl s
    rw [← rot13_encipher] at hE
    exact ⟨E, hE, hE, hinv false s E hE, (hsym false false).symm.trans hE⟩
  · rw [rot13_encipher]
    rfl
  · rw [rot13_encipher]
    rfl

/-- C19, counterexample: the ROT13 cipher with `Strict = true` fails on `A!`, which
`caesar.Cipher{Shift: 13}` enciphers to `N!`; so `Encipher(Encipher(s)) = s` fails for it. -/
theorem rot13_strict_rejects_foreign_symbols :
    (Rot13.Cipher.mk false true).Encipher plainCase (runes ("A!")) =
      Except.error (GoError.foreign "TranscodeError") ∧
    (Caesar.Cipher.mk [] false 13 false).Encipher plainCase (runes ("A!")) =
      Except.ok (runes ("N!")) := by
  decide

/-- C19, witness: `HELLO, WORLD!` with case operations that leave every symbol as it is. -/
theorem rot13_is_caesar_13_witness :
    ∃ E, (Rot13.Cipher.mk false false).Encipher plainCase (runes ("HELLO, WORLD!")) =
        Except.ok E ∧
      (Caesar.Cipher.mk [] false 13 false).Encipher plainCase (runes ("HELLO, WORLD!")) =
        Except.ok E ∧
      (Rot13.Cipher.mk false false).Encipher plainCase E = Except.ok (runes ("HELLO, WORLD!")) ∧
      (Rot13.Cipher.mk false false).Decipher plainCase (runes ("HELLO, WORLD!")) = Except.ok E :=
  (rot13_is_caesar_13 plainCase (runes ("HELLO, WORLD!"))).2.2.1

/-! ## `pasc.go`: the read of the key stream -/

/-- A run of either closure from a non-empty key stream ends in a non-empty key stream. -/
theorem run_keyRunes_ne_nil (c : VigenereFamilyCipher) (strict : Bool) (S : List Rune)
    (st st1 : KeyStream) (E : List Rune) (hst : st.keyRunes ≠ []) :
    (stringsMap (c.encipherMapping strict) st S = some (st1, E) → st1.keyRunes ≠ []) ∧
    (stringsMap (c.decipherMapping strict) st S = some (st1, E) → st1.keyRunes ≠ []) := by
  constructor
  · intro h
    rw [(growsBy_run (encipher_growsBy c strict) S st st1 E h).2]
    exact fun hnil => hst (List.append_eq_nil.mp hnil).1
  · intro h
    rw [(growsBy_run (decipher_growsBy c strict) S st st1 E h).2]
    exact fun hnil => hst (List.append_eq_nil.mp hnil).1

/-- C23: for every cipher (whatever its autoclave flags), strictness and input `S`, `Encipher`
and `Decipher` panic exactly when the countersign is empty and `S` is not; a call of either
closure panics exactly when `keyRunes` is empty, that is, when the modulus of the key index is
zero.  For a non-empty countersign, before every symbol of `S` the key stream is not empty, the
key index `transcodedCharCount % len(keyRunes)` is below `len(keyRunes)` and the read yields a
key rune. -/
theorem key_read_fails_iff_empty_countersign (c : VigenereFamilyCipher) (S : List Rune)
    (strict : Bool) :
    (c.Encipher S strict = none ↔ c.countersign = [] ∧ S ≠ []) ∧
    (c.Decipher S strict = none ↔ c.countersign = [] ∧ S ≠ []) ∧
    (∀ (st : KeyStream) (r : Rune),
      (c.encipherMapping strict st r = none ↔ st.keyRunes.length = 0) ∧
      (c.decipherMapping strict st r = none ↔ st.keyRunes.length = 0)) ∧
    (c.countersign ≠ [] → ∀ j,
      (∃ st E, c.encipherRun (S.take j) strict = some (st, E) ∧ 0 < st.keyRunes.length ∧
        st.transcodedCharCount % st.keyRunes.length < st.keyRunes.length ∧
        ∃ k, st.keyRunes[st.transcodedCharCount % st.keyRunes.length]? = some k) ∧
      (∃ st D, c.decipherRun (S.take j) strict = some (st, D) ∧ 0 < st.keyRunes.length ∧
        st.transcodedCharCount % st.keyRunes.length < st.keyRunes.length ∧
        ∃ k, st.keyRunes[st.transcodedCharCount % st.keyRunes.length]? = some k)) := by
  have hstart : c.start.keyRunes = c.countersign := rfl
  have hruns : (c.encipherRun S strict = none ↔ c.countersign = [] ∧ S ≠ []) ∧
      (c.decipherRun S strict = none ↔ c.countersign = [] ∧ S ≠ []) := by
    unfold VigenereFamilyCipher.encipherRun VigenereFamilyCipher.decipherRun
    by_cases hK : c.countersign = []
    · cases S with
      | nil => simp [stringsMap]
      | cons r rest =>
        have hs : c.start = { keyRunes := [], transcodedCharCount := 0 } := by
          unfold VigenereFamilyCipher.start
          rw [hK]
        rw [hs]
        simp [stringsMap, encipherMapping_empty, decipherMapping_empty, hK]
    · obtain ⟨⟨res1, h1⟩, ⟨res2, h2⟩⟩ := runs_total c strict S c.start (hstart ▸ hK)
      rw [h1, h2]
      simp [hK]
  refine ⟨?_, ?_, ?_, ?_⟩
  · unfold VigenereFamilyCipher.Encipher
    show Prod.snd <$> c.encipherRun S strict = none ↔ _
    rw [Option.map_eq_none]
    exact hruns.1
  · unfold VigenereFamilyCipher.Decipher
    show Prod.snd <$> c.decipherRun S strict = none ↔ _
    rw [Option.map_eq_none]
    exact hruns.2
  · intro st r
    by_cases hst : st.keyRunes = []
    · have hs : st = { keyRunes := [], transcodedCharCount := st.transcodedCharCount } := by
        cases st
        simp only [KeyStream.mk.injEq, and_true]
        exact hst
      have h0 : st.keyRunes.length = 0 := by rw [hst]; rfl
      constructor
      · exact ⟨fun _ => h0, fun _ => by rw [hs]; exact encipherMapping_empty c strict _ r⟩
      · exact ⟨fun _ => h0, fun _ => by rw [hs]; exact decipherMapping_empty c strict _ r⟩
    · obtain ⟨⟨st1, o1, h1, _⟩, ⟨st2, o2, h2, _⟩⟩ := mapping_total c strict st r hst
      have hlen : st.keyRunes.length ≠ 0 := fun h => hst (List.length_eq_zero.mp h)
      rw [h1, h2]
      simp [hlen]
  · intro hK j
    have hst0 : c.start.keyRunes ≠ [] := hstart ▸ hK
    obtain ⟨⟨⟨st1, E⟩, h1⟩, ⟨⟨st2, D⟩, h2⟩⟩ := runs_total c strict (S.take j) c.start hst0
    have hn1 := (run_keyRunes_ne_nil c strict (S.take j) c.start st1 E hst0).1 h1
    have hn2 := (run_keyRunes_ne_nil c strict (S.take j) c.start st2 D hst0).2 h2
    have hp1 : 0 < st1.keyRunes.length := List.length_pos.mpr hn1
    have hp2 : 0 < st2.keyRunes.length := List.length_pos.mpr hn2
    obtain ⟨k1, _, hk1⟩ := key_read hn1 st1.transcodedCharCount
    obtain ⟨k2, _, hk2⟩ := key_read hn2 st2.transcodedCharCount
    exact ⟨⟨st1, E, h1, hp1, Nat.mod_lt _ hp1, k1, hk1⟩,
      ⟨st2, D, h2, hp2, Nat.mod_lt _ hp2, k2, hk2⟩⟩

/-! ## `pasc.go`: the Variant Beaufort cipher -/

/-- A pair of the Variant Beaufort row of index `i`, turned round, is a pair of the Vigenere row
of index `i`. -/
theorem variant_pairs (A : List Rune) (i : Nat) (r o : Rune)
    (h : (r, o) ∈ A.reverse.zip (A.reverse.rotate i)) : (o, r) ∈ A.zip (A.rotate i) := by
  obtain ⟨p, hr, ho⟩ := getElem?_of_mem_zip h
  have hp : p < A.length := by
    have := (List.getElem?_eq_some_iff.mp hr).1
    rwa [List.length_reverse] at this
  have hpos : 0 < A.length := by omega
  rw [List.getElem?_reverse hp] at hr
  rw [beaufort_getElem? A i p hp] at ho
  have hx : A.length - 1 - (p + i) % A.length < A.length := by omega
  apply mem_zip_of_getElem? ho
  rw [List.getElem?_rotate hx]
  have hidx := beaufort_index A.length p i hp
  have hlt : (A.length - 1 - (p + i) % A.length + i) % A.length < A.length :=
    Nat.mod_lt _ hpos
  have heq : (A.length - 1 - (p + i) % A.length + i) % A.length = A.length - 1 - p := by
    omega
  rw [heq]
  exact hr

/-- Row by row, the Variant Beaufort cipher enciphers as the Vigenere cipher deciphers, and
deciphers as it enciphers. -/
theorem variant_rows {K A : List Rune} {vb vg : VigenereFamilyCipher}
    (hvb : MakeVariantBeaufortCipher K A = some vb) (hvg : MakeVigenereCipher K A = some vg)
    (hA : A.Nodup) (k r : Rune) (strict : Bool) :
    (vb.cipherAt k).encipherRune r strict = (vg.cipherAt k).decipherRune r strict ∧
    (vb.cipherAt k).decipherRune r strict = (vg.cipherAt k).encipherRune r strict := by
  by_cases hk : k ∈ A
  · obtain ⟨i, hi⟩ := List.getElem?_of_mem hk
    have h1 : makeSimpleSubstitutionCipher A.reverse (A.reverse.rotate i) =
        some (vb.cipherAt k) := vigenere_row hvb hA hi
    have h2 : makeSimpleSubstitutionCipher A (A.rotate i) = some (vg.cipherAt k) :=
      vigenere_row hvg hA hi
    have hrot : (A.rotate i).Nodup := List.nodup_rotate.mpr hA
    constructor
    · rcases row_enc_cases h1 r strict with ⟨o, hro, he⟩ | ⟨hnot, he⟩
      · rw [he, row_dec_of_mem_zip h2 hrot (variant_pairs A i r o hro) strict]
      · rcases row_dec_cases h2 r strict with ⟨o, hro, _⟩ | ⟨_, hd⟩
        · exact absurd (List.mem_reverse.mpr (List.mem_rotate.mp (List.of_mem_zip hro).2)) hnot
        · rw [he, hd]
    · rcases row_dec_cases h1 r strict with ⟨o, hro, hd⟩ | ⟨hnot, hd⟩
      · rw [hd, row_enc_of_mem_zip h2 hA (variant_pairs A i o r hro) strict]
      · rcases row_enc_cases h2 r strict with ⟨o, hro, _⟩ | ⟨_, he⟩
        · exact absurd
            (List.mem_rotate.mpr (List.mem_reverse.mpr (List.of_mem_zip hro).1)) hnot
        · rw [hd, he]
  · have hz1 : vb.cipherAt k = SimpleSubstitutionCipher.zero := by
      unfold VigenereFamilyCipher.cipherAt
      rw [lookup_none_of_not_mem_key (Or.inl hvb) hk]
      rfl
    have hz2 : vg.cipherAt k = SimpleSubstitutionCipher.zero := by
      unfold VigenereFamilyCipher.cipherAt
      rw [lookup_none_of_not_mem_key (Or.inl hvg) hk]
      rfl
    rw [hz1, hz2, zero_enc, zero_dec]
    exact ⟨rfl, rfl⟩

/-- Two ciphers without autoclave, the rows of the first enciphering as the rows of the second
decipher: the closure of `Encipher` of the first is the closure of `Decipher` of the second. -/
theorem mapping_eq_of_rows {c1 c2 : VigenereFamilyCipher}
    (hta1 : c1.Textautoclave = false) (hka1 : c1.Keyautoclave = false)
    (hta2 : c2.Textautoclave = false) (hka2 : c2.Keyautoclave = false) (strict : Bool)
    (hrow : ∀ k r, (c1.cipherAt k).encipherRune r strict = (c2.cipherAt k).decipherRune r strict) :
    c1.encipherMapping strict = c2.decipherMapping strict := by
  funext st r
  unfold VigenereFamilyCipher.encipherMapping VigenereFamilyCipher.decipherMapping
  cases hk : st.keyRunes[st.transcodedCharCount % st.keyRunes.length]? with
  | none => rfl
  | some k =>
    simp only [hrow k r, hta1, hka1, hta2, hka2]
    rfl

/-- C24: for every alphabet `A` of distinct symbols, every countersign `K`, every input `S` and
both settings of `strict`, `MakeVariantBeaufortCipher(K, A)` and `MakeVigenereCipher(K, A)` are
built, `Encipher(S)` of the first is `Decipher(S)` of the second and `Decipher(S)` of the first
is `Encipher(S)` of the second, with the same final key stream; for a non-empty `K` all four
calls return an output. -/
theorem variant_beaufort_is_vigenere_backwards (K A S : List Rune) (strict : Bool)
    (hA : A.Nodup) :
    ∃ vb vg, MakeVariantBeaufortCipher K A = some vb ∧ MakeVigenereCipher K A = some vg ∧
      vb.Encipher S strict = vg.Decipher S strict ∧
      vb.Decipher S strict = vg.Encipher S strict ∧
      vb.encipherRun S strict = vg.decipherRun S strict ∧
      vb.decipherRun S strict = vg.encipherRun S strict ∧
      (K ≠ [] → ∃ E D, vb.Encipher S strict = some E ∧ vb.Decipher S strict = some D) := by
  obtain ⟨vb, hvb⟩ := vigenere_isSome K A.reverse A.reverse A rfl
  obtain ⟨vg, hvg⟩ := vigenere_isSome K A A A rfl
  have hvb' : MakeVariantBeaufortCipher K A = some vb := hvb
  have hvg' : MakeVigenereCipher K A = some vg := hvg
  obtain ⟨_, hcs1, hta1, hka1, _⟩ := vigenere_ciphers hvb
  obtain ⟨_, hcs2, hta2, hka2, _⟩ := vigenere_ciphers hvg
  have hstart : vb.start = vg.start := by
    unfold VigenereFamilyCipher.start
    rw [hcs1, hcs2]
  have hmap1 : vb.encipherMapping strict = vg.decipherMapping strict :=
    mapping_eq_of_rows hta1 hka1 hta2 hka2 strict
      (fun k r => (variant_rows hvb' hvg' hA k r strict).1)
  have hmap2 : vg.encipherMapping strict = vb.decipherMapping strict :=
    mapping_eq_of_rows hta2 hka2 hta1 hka1 strict
      (fun k r => ((variant_rows hvb' hvg' hA k r strict).2).symm)
  have hrun1 : vb.encipherRun S strict = vg.decipherRun S strict := by
    unfold VigenereFamilyCipher.encipherRun VigenereFamilyCipher.decipherRun
    rw [hmap1, hstart]
  have hrun2 : vb.decipherRun S strict = vg.encipherRun S strict := by
    unfold VigenereFamilyCipher.encipherRun VigenereFamilyCipher.decipherRun
    rw [hmap2, hstart]
  refine ⟨vb, vg, hvb', hvg', ?_, ?_, hrun1, hrun2, ?_⟩
  · unfold VigenereFamilyCipher.Encipher VigenereFamilyCipher.Decipher
    rw [hrun1]
  · unfold VigenereFamilyCipher.Encipher VigenereFamilyCipher.Decipher
    rw [hrun2]
  · intro hK
    have hst : vb.start.keyRunes ≠ [] := by
      unfold VigenereFamilyCipher.start
      rw [hcs1]
      exact hK
    obtain ⟨⟨res1, h1⟩, ⟨res2, h2⟩⟩ := runs_total vb strict S vb.start hst
    refine ⟨res1.2, res2.2, ?_, ?_⟩
    · unfold VigenereFamilyCipher.Encipher VigenereFamilyCipher.encipherRun
      rw [h1]
      rfl
    · unfold VigenereFamilyCipher.Decipher VigenereFamilyCipher.decipherRun
      rw [h2]
      rfl

/-- C24, witness: countersign `KEY` over `A`-`Z`, an input with symbols outside the alphabet, in
strict mode. -/
theorem variant_beaufort_is_vigenere_backwards_witness :
    ∃ vb vg, MakeVariantBeaufortCipher (runes ("KEY")) latin = some vb ∧
      MakeVigenereCipher (runes ("KEY")) latin = some vg ∧
      vb.Encipher (runes ("HELLO, WORLD!")) true = vg.Decipher (runes ("HELLO, WORLD!")) true ∧
      vb.Decipher (runes ("HELLO, WORLD!")) true = vg.Encipher (runes ("HELLO, WORLD!")) true ∧
      vb.encipherRun (runes ("HELLO, WORLD!")) true =
        vg.decipherRun (runes ("HELLO, WORLD!")) true ∧
      vb.decipherRun (runes ("HELLO, WORLD!")) true =
        vg.encipherRun (runes ("HELLO, WORLD!")) true ∧
      (runes ("KEY") ≠ [] → ∃ E D, vb.Encipher (runes ("HELLO, WORLD!")) true = some E ∧
        vb.Decipher (runes ("HELLO, WORLD!")) true = some D) :=
  variant_beaufort_is_vigenere_backwards (runes ("KEY")) latin (runes ("HELLO, WORLD!")) true
    (by decide)

/-! ## `tabularecta.go`: the rows of the built-in strategy -/

theorem backpermute_eq (s : List Rune) :
    ∀ (ii : List Nat), (∀ i ∈ ii, i < s.length) →
      Stringutil.Backpermute s ii = Except.ok (ii.map (fun i => s.getD i 0)) := by
  intro ii
  induction ii with
  | nil => intro _; rfl
  | cons i rest ih =>
    intro h
    have hi : i < s.length := h i (List.mem_cons_self _ _)
    simp only [Stringutil.Backpermute, getElem?_getD_of_lt hi,
      ih (fun j hj => h j (List.mem_cons_of_mem _ hj)), List.map_cons]

/-- The runes at the indices `(x + y) mod len` are the rotation by `y`. -/
theorem rotate_eq_map (s : List Rune) (y : Nat) :
    (List.range s.length).map (fun x => s.getD ((x + y) % s.length) 0) = s.rotate y := by
  apply List.ext_getElem?
  intro x
  by_cases hx : x < s.length
  · have hpos : 0 < s.length := by omega
    rw [List.getElem?_rotate hx, List.getElem?_map, List.getElem?_range hx,
      getElem?_getD_of_lt (Nat.mod_lt _ hpos)]
    rfl
  · rw [List.getElem?_eq_none (by simp; omega), List.getElem?_eq_none (by simp; omega)]

/-- The first loop of `makereciprocaltable` computes the rotations of the ciphertext
alphabet. -/
theorem ctAlphabetsLoop_eq (ctAlphabet : List Rune) :
    ∀ (ys : List Nat),
      Pasc.ctAlphabetsLoop ctAlphabet ctAlphabet.length ys =
        Except.ok (ys.map (fun y => wrapString ctAlphabet y)) := by
  intro ys
  induction ys with
  | nil => rfl
  | cons y rest ih =>
    have hbp : Stringutil.Backpermute ctAlphabet
        ((List.range ctAlphabet.length).map (fun x => (x + y) % ctAlphabet.length)) =
        Except.ok (wrapString ctAlphabet y) := by
      rw [backpermute_eq, List.map_map]
      · unfold wrapString
        rw [← rotate_eq_map]
        rfl
      · intro i hi
        obtain ⟨x, hx, rfl⟩ := List.mem_map.mp hi
        exact Nat.mod_lt _ (Nat.lt_of_le_of_lt (Nat.zero_le x) (List.mem_range.mp hx))
    simp only [Pasc.ctAlphabetsLoop, hbp, ih, List.map_cons]

/-- The second loop of `makereciprocaltable`, when every row is there and has the length of the
plaintext alphabet: the table read from the last pair visited backwards. -/
theorem reciprocalLoop_eq (pt : List Rune) (cts : List (List Rune)) (strict : Bool)
    (rows : Nat → List Rune) :
    ∀ (l : List (Nat × Rune)) (m : Pasc.ReciprocalTable),
      (∀ p ∈ l, cts[p.1]? = some (rows p.1) ∧ pt.length = (rows p.1).length) →
      Pasc.reciprocalLoop pt cts strict l m =
        some (l.reverse.map (fun p =>
          (p.2, { Strict := strict
                  Caseless := false
                  ptAlphabet := pt
                  ctAlphabet := rows p.1
                  pt2ct := pt.zip (rows p.1)
                  ct2pt := (rows p.1).zip pt })) ++ m, none) := by
  intro l
  induction l with
  | nil => intro m _; rfl
  | cons q rest ih =>
    obtain ⟨i, r⟩ := q
    intro m h
    obtain ⟨hrow, hlen⟩ := h (i, r) (List.mem_cons_self _ _)
    simp only at hrow hlen
    simp only [Pasc.reciprocalLoop, Masc.NewTableau, hrow, Option.map_some', if_pos hlen]
    rw [ih _ (fun p hp => h p (List.mem_cons_of_mem _ hp))]
    simp

/-- In an association list with distinct keys every pair is the one that is read. -/
theorem lookup_of_mem_nodup_keys {β : Type} :
    ∀ (L : List (Rune × β)), (L.map Prod.fst).Nodup → ∀ (k : Rune) (v : β), (k, v) ∈ L →
      L.lookup k = some v := by
  intro L
  induction L with
  | nil => intro _ k v h; cases h
  | cons q rest ih =>
    obtain ⟨k0, v0⟩ := q
    intro hnd k v hmem
    rw [List.map_cons, List.nodup_cons] at hnd
    rcases List.mem_cons.mp hmem with heq | hin
    · rw [(Prod.mk.inj heq).1, (Prod.mk.inj heq).2]
      exact lookup_cons_self k0 v0 rest
    · have hne : k ≠ k0 := by
        intro hk
        apply hnd.1
        rw [← hk]
        exact List.mem_map.mpr ⟨(k, v), hin, rfl⟩
      rw [lookup_cons_ne v0 rest hne]
      exact ih hnd.2 k v hin

theorem make_alphabets {pt ct3 : List Rune} {row : SimpleSubstitutionCipher}
    (h : makeSimpleSubstitutionCipher pt ct3 = some row) :
    row.ptAlphabet = pt ∧ row.ctAlphabet = ct3 := by
  have hl := make_length h
  unfold makeSimpleSubstitutionCipher at h
  rw [if_pos hl] at h
  cases h
  exact ⟨rfl, rfl⟩

/-- C21: for a tabula recta with a non-empty key alphabet of distinct single-byte symbols and a
ciphertext alphabet `ct` (the plaintext alphabet when `CtAlphabet` is empty) of the length of the
plaintext alphabet, `makereciprocaltable` returns a table and no error, and so does
`makedictsfromfunc` when there is no generator.  The table maps the `y`-th rune of the key
alphabet to the tableau of `PtAlphabet` against `rotate(ct, y)`, with the `Strict` flag of the
tabula recta; its cipher alphabet has at position `x` the rune of `ct` at index
`(x + y) mod len(ct)`; the row that `MakeVigenereFamilyCipher` builds for the same key rune has
the same alphabets and the same two mappings.  A rune outside the key alphabet has no row. -/
theorem builtin_rows_are_rotations (tr : Pasc.TabulaRecta) (ct : List Rune)
    (hct : ct = if tr.CtAlphabet = [] then tr.PtAlphabet else tr.CtAlphabet)
    (hK : tr.KeyAlphabet ≠ []) (hnd : tr.KeyAlphabet.Nodup)
    (hbytes : tr.KeyAlphabet.length = byteLen tr.KeyAlphabet)
    (hlen : tr.PtAlphabet.length = ct.length) :
    ∃ m, tr.makereciprocaltable = some (m, none) ∧
      (tr.DictFunc = none → tr.makedictsfromfunc = some (m, none)) ∧
      (∀ (y : Nat) (r : Rune), tr.KeyAlphabet[y]? = some r →
        ∃ t, m.lookup r = some t ∧ t.Strict = tr.Strict ∧
          t.ptAlphabet = tr.PtAlphabet ∧ t.ctAlphabet = wrapString ct y ∧
          t.pt2ct = tr.PtAlphabet.zip (wrapString ct y) ∧
          t.ct2pt = (wrapString ct y).zip tr.PtAlphabet ∧
          (∀ x, x < ct.length → t.ctAlphabet[x]? = ct[(x + y) % ct.length]?) ∧
          (∀ countersign, ∃ c,
            MakeVigenereFamilyCipher countersign tr.PtAlphabet ct tr.KeyAlphabet = some c ∧
            (c.cipherAt r).ptAlphabet = t.ptAlphabet ∧
            (c.cipherAt r).ctAlphabet = t.ctAlphabet ∧
            (c.cipherAt r).pt2ct = t.pt2ct ∧ (c.cipherAt r).ct2pt = t.ct2pt)) ∧
      (∀ r, r ∉ tr.KeyAlphabet → m.lookup r = none) := by
  obtain ⟨cts, hcts, hrec⟩ := makereciprocaltable_check tr
  rw [← hct, ctAlphabetsLoop_eq] at hcts
  have hcts' : cts = (List.range tr.KeyAlphabet.length).map (fun y => wrapString ct y) :=
    (Except.ok.inj hcts).symm
  rw [if_neg hK, if_neg (fun h => h hbytes)] at hrec
  have hrows : ∀ p ∈ tr.KeyAlphabet.enum,
      cts[p.1]? = some (wrapString ct p.1) ∧ tr.PtAlphabet.length = (wrapString ct p.1).length := by
    intro p hp
    have hp' : tr.KeyAlphabet[p.1]? = some p.2 := List.mem_enum_iff_getElem?.mp hp
    have hlt : p.1 < tr.KeyAlphabet.length := (List.getElem?_eq_some_iff.mp hp').1
    constructor
    · rw [hcts', List.getElem?_map, List.getElem?_range hlt]
      rfl
    · unfold wrapString
      rw [List.length_rotate]
      exact hlen
  rw [reciprocalLoop_eq tr.PtAlphabet cts tr.Strict (fun y => wrapString ct y) tr.KeyAlphabet.enum
    [] hrows] at hrec
  have hkeys : ((tr.KeyAlphabet.enum.reverse.map (fun (p : Nat × Rune) =>
      (p.2, ({ Strict := tr.Strict
               Caseless := false
               ptAlphabet := tr.PtAlphabet
               ctAlphabet := wrapString ct p.1
               pt2ct := tr.PtAlphabet.zip (wrapString ct p.1)
               ct2pt := (wrapString ct p.1).zip tr.PtAlphabet } : Masc.Tableau))) ++ []).map
      Prod.fst) = tr.KeyAlphabet.reverse := by
    rw [List.append_nil, List.map_map, List.map_reverse]
    have hcomp : (Prod.fst ∘ fun (p : Nat × Rune) =>
        (p.2, ({ Strict := tr.Strict
                 Caseless := false
                 ptAlphabet := tr.PtAlphabet
                 ctAlphabet := wrapString ct p.1
                 pt2ct := tr.PtAlphabet.zip (wrapString ct p.1)
                 ct2pt := (wrapString ct p.1).zip tr.PtAlphabet } : Masc.Tableau))) =
        Prod.snd := rfl
    rw [hcomp, List.enum_map_snd]
  refine ⟨_, hrec, ?_, ?_, ?_⟩
  · intro hf
    rw [makedictsfromfunc_builtin tr hf]
    exact hrec
  · intro y r hy
    refine ⟨{ Strict := tr.Strict
              Caseless := false
              ptAlphabet := tr.PtAlphabet
              ctAlphabet := wrapString ct y
              pt2ct := tr.PtAlphabet.zip (wrapString ct y)
              ct2pt := (wrapString ct y).zip tr.PtAlphabet }, ?_, rfl, rfl, rfl, rfl, rfl, ?_, ?_⟩
    · apply lookup_of_mem_nodup_keys _ (by rw [hkeys]; exact List.nodup_reverse.mpr hnd)
      apply List.mem_append_left
      exact List.mem_map.mpr
        ⟨(y, r), List.mem_reverse.mpr (List.mk_mem_enum_iff_getElem?.mpr hy), rfl⟩
    · intro x hx
      unfold wrapString
      exact List.getElem?_rotate hx
    · intro countersign
      obtain ⟨c, hc⟩ := vigenere_isSome countersign tr.PtAlphabet ct tr.KeyAlphabet hlen
      have hrow := vigenere_row hc hnd hy
      exact ⟨c, hc, (make_alphabets hrow).1, (make_alphabets hrow).2, make_pt2ct hrow,
        make_ct2pt hrow⟩
  · intro r hr
    rw [List.lookup_eq_none_iff]
    intro p hp
    have hp1 : p.1 ∈ tr.KeyAlphabet := by
      have : p.1 ∈ tr.KeyAlphabet.reverse := by
        rw [← hkeys]
        exact List.mem_map.mpr ⟨p, hp, rfl⟩
      exact List.mem_reverse.mp this
    have hne : r ≠ p.1 := fun h => hr (h ▸ hp1)
    simpa using hne

/-- C21, witness: the key alphabet `ABCD` over `ABC` with no ciphertext alphabet given; the row
of `D`, of index 3, is `ABC` against itself. -/
theorem builtin_rows_are_rotations_witness :
    ∃ m, (Pasc.TabulaRecta.mk true false (runes ("ABC")) [] (runes ("ABCD"))
        none).makereciprocaltable = some (m, none) ∧
      ∃ t, m.lookup 68 = some t ∧ t.Strict = true ∧ t.ptAlphabet = runes ("ABC") ∧
        t.ctAlphabet = wrapString (runes ("ABC")) 3 ∧
        t.pt2ct = (runes ("ABC")).zip (wrapString (runes ("ABC")) 3) ∧
        t.ct2pt = (wrapString (runes ("ABC")) 3).zip (runes ("ABC")) ∧
        wrapString (runes ("ABC")) 3 = runes ("ABC") ∧
        wrapString (runes ("ABC")) 1 = runes ("BCA") := by
  obtain ⟨m, hm, _, hrows, _⟩ := builtin_rows_are_rotations
    (Pasc.TabulaRecta.mk true false (runes ("ABC")) [] (runes ("ABCD")) none) (runes ("ABC"))
    (by decide) (by decide) (by decide) (by decide) (by decide)
  obtain ⟨t, ht, h1, h2, h3, h4, h5, _⟩ := hrows 3 68 (by decide)
  exact ⟨m, hm, t, ht, h1, h2, h3, h4, h5, by decide, by decide⟩

/-- C22: a tabula recta with an empty `KeyAlphabet` and a non-empty plaintext alphabet of
single-byte symbols makes `makereciprocaltable` panic, and `makedictsfromfunc` when there is no
generator: the rows slice has the rune count of `tr.KeyAlphabet`, zero, while the loop runs over
the plaintext alphabet and reads `ctAlphabets[0]`.  For `PtAlphabet = "ABC"` the call panics
with `KeyAlphabet = ""` and returns the three rows with `KeyAlphabet = "ABC"`. -/
theorem empty_key_alphabet_panics :
    (∀ tr : Pasc.TabulaRecta, tr.KeyAlphabet = [] → tr.PtAlphabet ≠ [] →
      tr.PtAlphabet.length = byteLen tr.PtAlphabet →
      tr.makereciprocaltable = none ∧ (tr.DictFunc = none → tr.makedictsfromfunc = none)) ∧
    (Pasc.TabulaRecta.mk false false (runes ("ABC")) [] [] none).makereciprocaltable = none ∧
    (Pasc.TabulaRecta.mk false false (runes ("ABC")) [] [] none).makedictsfromfunc = none ∧
    ((Pasc.TabulaRecta.mk false false (runes ("ABC")) [] (runes ("ABC"))
        none).makereciprocaltable).map
        (fun p => (p.1.map (fun q => (q.1, q.2.ctAlphabet)), p.2)) =
      some ([(67, runes ("CAB")), (66, runes ("BCA")), (65, runes ("ABC"))], none) := by
  refine ⟨?_, by decide, by decide, by decide⟩
  intro tr hK hpt hbytes
  have hmain : tr.makereciprocaltable = none := by
    obtain ⟨cts, hcts, hrec⟩ := makereciprocaltable_check tr
    rw [hK] at hcts
    have hnil : cts = [] := (Except.ok.inj hcts).symm
    rw [hrec, if_pos hK, if_neg (fun h => h hbytes), hnil]
    cases hp : tr.PtAlphabet with
    | nil => exact absurd hp hpt
    | cons r rest => rfl
  exact ⟨hmain, fun hf => (makedictsfromfunc_builtin tr hf).trans hmain⟩

end GoldBug
